import Mathlib

/-!
Verification development for the magic-mount overlay tool
(`src/module_tree.c`, `src/module_tree.zig`, `src/utils.zig`, `src/ksu.zig`).

The development shallowly embeds the mount-tree builder and the mount
applier.  Interaction with the live filesystem and the kernel is modelled
by an explicit environment record (`Env`) of pure oracles: each syscall the
program performs is answered by the environment, and theorems quantify over
all environments.  Concrete environments are built from a finite model
filesystem (`FsT`) for witnesses and counterexamples.

Machine strings are modelled as Lean `String`s (byte strings in the source;
all inputs of interest are ASCII, where the two notions of length agree).
Recursive procedures whose recursion is driven by the environment (directory
scans, the applier) take an explicit fuel parameter; running out of fuel is
reported like a failing syscall, and theorems either hold for every fuel or
are stated at a sufficiently large fuel.
-/

/-- `PATH_MAX` from the source (`utils.zig`). -/
def PATH_MAX : Nat := 4096

/-- Errors of the embedded fallible operations.  The source distinguishes
errno values / Zig error names; the claims only depend on which operation
failed, so a small enumeration suffices. -/
inductive Err where
  | fuelOut
  | nameTooLong
  | mountFailed
  | openFailed
  | invalidArgument
  | noDirMeta
  | openDirFailed
  | mkdirFailed
  | readlinkFailed
  | symlinkFailed
  | xattrFailed
  | unexpected
deriving DecidableEq, Repr

/-- `path_join` from `src/utils.zig` (lines 111-138).  Empty `name` returns
`base` unchanged (after the `PATH_MAX` check).  Otherwise a `'/'` separator
is inserted when `base` is empty, when `base` is exactly `"/"`, or when
`base` does not already end in `'/'`; the result must fit in `PATH_MAX - 1`
characters plus the terminating NUL. -/
def path_join (base name : String) : Except Err String :=
  if name.length = 0 then
    if base.length ≥ PATH_MAX then .error .nameTooLong else .ok base
  else
    let use_slash :=
      if base.length = 0 ∨ (base.length = 1 ∧ base.front = '/') then true
      else base.back ≠ '/'
    let needed := base.length + (if use_slash then 1 else 0) + name.length + 1
    if needed > PATH_MAX then .error .nameTooLong
    else .ok (base ++ (if use_slash then "/" else "") ++ name)

/-- ASCII whitespace predicate of `std.ascii.isWhitespace` (used by
`str_trim`). -/
def is_ascii_ws (c : Char) : Bool :=
  c = ' ' ∨ c = '\t' ∨ c = '\n' ∨ c = '\r' ∨ c = '\x0b' ∨ c = '\x0c'

/-- `str_trim` from `src/utils.zig`: strip leading and trailing ASCII
whitespace. -/
def str_trim (s : String) : String :=
  ⟨((s.data.dropWhile is_ascii_ws).reverse.dropWhile is_ascii_ws).reverse⟩

/-- Strip trailing `'/'` characters (the normalisation step of
`is_compatible_symlink`, `src/module_tree.c` lines 363-366). -/
def strip_slashes (s : String) : String :=
  ⟨(s.data.reverse.dropWhile (fun c => c = '/')).reverse⟩

/-- Does `needle` occur at the start of `hay`? -/
def list_starts_with : List Char → List Char → Bool
  | [], _ => true
  | _ :: _, [] => false
  | a :: as, b :: bs => a = b && list_starts_with as bs

/-- Does `needle` occur somewhere in `hay`? -/
def list_has_sub (needle : List Char) : List Char → Bool
  | [] => needle.isEmpty
  | c :: rest => list_starts_with needle (c :: rest) || list_has_sub needle rest

/-- `std.mem.containsAtLeast(u8, hay, 0, needle, 1)`: `needle` occurs as a
contiguous substring of `hay`. -/
def contains_substr (hay needle : String) : Bool :=
  list_has_sub needle.data hay.data

/-- File kinds distinguished by the source via the `st_mode` bits of
`lstat`/`stat`. -/
inductive FKind where
  | reg
  | dir
  | lnk
  | chr
  | blk
  | fifo
  | sock
deriving DecidableEq, Repr

/-- The part of `struct stat` the program inspects: the file-kind bits and
`st_rdev` (only consulted for character devices). -/
structure StatInfo where
  kind : FKind
  rdev : Nat
deriving DecidableEq, Repr

/-- `NodeFileType` from `src/module_tree.c`. -/
inductive NFT where
  | REGULAR
  | DIRECTORY
  | SYMLINK
  | WHITEOUT
deriving DecidableEq, Repr

/-- `node_type_from_stat` (`src/module_tree.c` lines 42-50): a character
device with `rdev == 0` is a whiteout; regular files, directories and
symlinks map to their kinds; everything else falls to the `WHITEOUT`
catch-all. -/
def node_type_from_stat (st : StatInfo) : NFT :=
  if st.kind = .chr ∧ st.rdev = 0 then .WHITEOUT
  else match st.kind with
    | .reg => .REGULAR
    | .dir => .DIRECTORY
    | .lnk => .SYMLINK
    | _ => .WHITEOUT

/-- The overlay-tree node (`Node` of `src/module_tree.c`): a name, a kind,
optional module source path and module name, the `replace` marker and the
transient `skip`/`done` flags, and the ordered children. -/
inductive Node where
  | mk (name : String) (ntype : NFT) (module_path : Option String)
       (module_name : Option String) (replace : Bool) (skip : Bool)
       (done : Bool) (children : List Node)

def Node.name : Node → String
  | .mk n _ _ _ _ _ _ _ => n

def Node.ntype : Node → NFT
  | .mk _ t _ _ _ _ _ _ => t

def Node.module_path : Node → Option String
  | .mk _ _ mp _ _ _ _ _ => mp

def Node.module_name : Node → Option String
  | .mk _ _ _ mn _ _ _ _ => mn

def Node.replace : Node → Bool
  | .mk _ _ _ _ r _ _ _ => r

def Node.skip : Node → Bool
  | .mk _ _ _ _ _ s _ _ => s

def Node.done : Node → Bool
  | .mk _ _ _ _ _ _ d _ => d

def Node.children : Node → List Node
  | .mk _ _ _ _ _ _ _ cs => cs

/-- Replace the children list of a node. -/
def Node.withChildren : Node → List Node → Node
  | .mk n t mp mn r s d _, cs => .mk n t mp mn r s d cs

/-- Set the `skip` flag of a node. -/
def Node.setSkip : Node → Bool → Node
  | .mk n t mp mn r _ d cs, s => .mk n t mp mn r s d cs

/-- Set the `done` flag of a node. -/
def Node.setDone : Node → Bool → Node
  | .mk n t mp mn r s _ cs, d => .mk n t mp mn r s d cs

/-- Set the `module_name` of a node. -/
def Node.setModuleName : Node → Option String → Node
  | .mk n t mp _ r s d cs, mn => .mk n t mp mn r s d cs

/-- `MountStats` from `magic_mount.h`. -/
structure MountStats where
  modules_total : Nat
  nodes_total : Nat
  nodes_mounted : Nat
  nodes_skipped : Nat
  nodes_whiteout : Nat
  nodes_fail : Nat
deriving DecidableEq, Repr

def MountStats.zero : MountStats := ⟨0, 0, 0, 0, 0, 0⟩

/-- The `MagicMount` context from `magic_mount.h`: module root, mount
source, statistics, the failed-module list and the extra-partition list,
and the unmountable-marking flag. -/
structure MagicMount where
  module_dir : String
  mount_source : String
  stats : MountStats
  failed_modules : List String
  extra_parts : List String
  enable_unmountable : Bool
deriving DecidableEq, Repr

/-- Observable side effects (syscalls) the applier performs; used to state
trace properties such as the order of `markUnmountable` and the read-only
remount. -/
inductive Ev where
  | mkdirP (path : String)
  | touch (path : String)
  | bind (src dst : String)
  | remountRo (path : String)
  | ksuSend (path : String)
  | symlinkCreate (target dst : String)
  | tmpfsMount (path : String)
  | bindSelf (path : String)
  | moveMount (src dst : String)
  | makePrivate (path : String)
  | copyCon (src dst : String)
  | chmodChown (path : String)
  | umountDetach (path : String)
  | rmdirEv (path : String)
  | mirror (src dst : String)
deriving DecidableEq, Repr

/-- The syscall environment: one pure oracle per syscall family the program
issues.  Theorems quantify over environments; concrete environments are
derived from a model filesystem below. -/
structure Env where
  lstat : String → Option StatInfo
  stat : String → Option StatInfo
  listDir : String → Option (List String)
  readlink : String → Option String
  xattrOpaque : String → Option String
  openDirOk : String → Bool
  replaceFileExists : String → Bool
  mkdirPOk : String → Bool
  mkdirOk : String → Bool
  touchOk : String → Bool
  bindOk : String → String → Bool
  symlinkOk : String → String → Bool
  tmpfsOk : String → Bool
  moveOk : String → String → Bool
  getSel : String → Option String
  setSelOk : String → String → Bool

/-- `path_exists` (`src/utils.zig`): a successful `stat`. -/
def path_exists (env : Env) (p : String) : Bool :=
  (env.stat p).isSome

/-- `path_is_dir` (`src/utils.zig`): `stat` succeeds and reports a
directory. -/
def path_is_dir (env : Env) (p : String) : Bool :=
  match env.stat p with
  | some st => st.kind = .dir
  | none => false

/-- `path_is_symlink` (`src/utils.zig`): `lstat` succeeds and reports a
symlink. -/
def path_is_symlink (env : Env) (p : String) : Bool :=
  match env.lstat p with
  | some st => st.kind = .lnk
  | none => false

/-- `set_selcon` (`src/utils.zig` lines 232-241): an empty path or label is
a debug-logged no-op; otherwise `lsetxattr` on `security.selinux`. -/
def set_selcon (env : Env) (path con : String) : Except Err Unit :=
  if path.length = 0 ∨ con.length = 0 then .ok ()
  else if env.setSelOk path con then .ok () else .error .xattrFailed

/-- `get_selcon` (`src/utils.zig` lines 243-266): an empty path returns
`error.InvalidArgument`; otherwise the `security.selinux` value is read
via `lgetxattr`.  The source's two-phase size-query/read protocol is
collapsed: the environment answers with the value directly. -/
def get_selcon (env : Env) (path : String) : Except Err String :=
  if path.length = 0 then .error .invalidArgument
  else match env.getSel path with
    | none => .error .xattrFailed
    | some s => .ok s

/-- `copy_selcon` (`src/utils.zig` lines 268-279): an empty source or
destination logs at debug level and returns `error.InvalidArgument`;
otherwise the label is read from `src` and written to `dst`. -/
def copy_selcon (env : Env) (src dst : String) : Except Err Unit :=
  if src.length = 0 ∨ dst.length = 0 then .error .invalidArgument
  else match get_selcon env src with
    | .error e => .error e
    | .ok con => set_selcon env dst con

/-- The fixed extra-partition blacklist (`src/module_tree.c` lines 190-194). -/
def extra_blacklist : List String :=
  ["bin", "etc", "data", "data_mirror", "sdcard",
   "tmp", "dev", "sys", "mnt", "proc", "d", "test",
   "product", "vendor", "system_ext", "odm"]

/-- First path segment of a name after dropping leading `'/'` characters,
as copied by `extra_part_blacklisted` into its 16-byte buffer: at most 15
characters, stopping at `'/'` or the end. -/
def first_segment_capped (name : String) : String :=
  ⟨(((name.data.dropWhile (fun c => c = '/')).takeWhile (fun c => c ≠ '/')).take 15)⟩

/-- First path segment without the 16-byte buffer cap (used to state the
characterisation; the cap never changes the outcome because every
blacklist member is shorter than 15 characters). -/
def first_segment (name : String) : String :=
  ⟨((name.data.dropWhile (fun c => c = '/')).takeWhile (fun c => c ≠ '/'))⟩

/-- `extra_part_blacklisted` (`src/module_tree.c` lines 174-202): the first
path segment (after leading slashes, capped at 15 characters by the local
buffer) is compared with `strcmp` — byte equality, case-sensitively —
against the fixed set. -/
def extra_part_blacklisted (name : String) : Bool :=
  if name.isEmpty then false
  else extra_blacklist.contains (first_segment_capped name)

/-- Modelled from the spec (§4.4 as quoted by the claim): the blacklist
comparison "lowercased-compared" — i.e. case-insensitive.  This definition
follows the claim's words and exists only to be compared against
`extra_part_blacklisted`, the definition translated from the source. -/
def spec_blacklisted_ci (name : String) : Bool :=
  extra_blacklist.contains ⟨(first_segment name).data.map Char.toLower⟩

/-- `extra_partition_register` (`src/module_tree.c` lines 204-262): trim the
token; reject the empty string and blacklisted names; otherwise append the
trimmed name to `ctx.extra_parts` (no duplicate check). -/
def extra_partition_register (ctx : MagicMount) (s : String) : MagicMount :=
  if s.isEmpty then ctx
  else
    let b := str_trim s
    if b.isEmpty then ctx
    else if extra_part_blacklisted b then ctx
    else { ctx with extra_parts := ctx.extra_parts ++ [b] }

/-- `module_mark_failed` (`src/module_tree.c` lines 155-170): append the
module name to the failed list unless already present. -/
def module_mark_failed (ctx : MagicMount) (m : String) : MagicMount :=
  if ctx.failed_modules.contains m then ctx
  else { ctx with failed_modules := ctx.failed_modules ++ [m] }

/-- `dir_is_replace` (`src/module_tree.c` lines 52-68): true when the
`trusted.overlay.opaque` xattr reads exactly `"y"`; otherwise the directory
is opened and the presence of the `.replace` sentinel decides (any error
means "not replace"). -/
def dir_is_replace (env : Env) (path : String) : Bool :=
  if env.xattrOpaque path = some "y" then true
  else if env.openDirOk path then env.replaceFileExists path
  else false

/-- `node_create_from_fs` (`src/module_tree.c` lines 70-103): `lstat` the
path; entries that are none of character device / regular / directory /
symlink are skipped (no node, no counter); otherwise a node is created,
`nodes_total` is incremented, and `replace` is probed for directories. -/
def node_create_from_fs (env : Env) (ctx : MagicMount) (name path : String)
    (module_name : Option String) : MagicMount × Option Node :=
  match env.lstat path with
  | none => (ctx, none)
  | some st =>
    if st.kind = .chr ∨ st.kind = .reg ∨ st.kind = .dir ∨ st.kind = .lnk then
      let t := node_type_from_stat st
      let n : Node := .mk name t (some path) module_name
        (t = .DIRECTORY && dir_is_replace env path) false false []
      ({ ctx with stats := { ctx.stats with nodes_total := ctx.stats.nodes_total + 1 } },
       some n)
    else (ctx, none)

/-- `node_child_find` (`src/module_tree.c` lines 132-139): first child with
the given name. -/
def node_child_find (cs : List Node) (name : String) : Option Node :=
  cs.find? (fun c => c.name = name)

/-- Replace the first child carrying the given name (the in-place mutation
of the found child in the source). -/
def update_child : List Node → String → Node → List Node
  | [], _, _ => []
  | c :: rest, nm, c' =>
    if c.name = nm then c' :: rest else c :: update_child rest nm c'

/-- `node_child_detach` (`src/module_tree.c` lines 141-153): remove and
return the first child with the given name. -/
def node_child_detach : List Node → String → Option Node × List Node
  | [], _ => (none, [])
  | c :: rest, nm =>
    if c.name = nm then (some c, rest)
    else
      let (r, rest') := node_child_detach rest nm
      (r, c :: rest')

/-- `module_is_disabled` (`src/module_tree.c` lines 264-279): any of the
`disable` / `remove` / `skip_mount` sentinels exists directly inside the
module directory. -/
def module_is_disabled (env : Env) (mod : String) : Bool :=
  ["disable", "remove", "skip_mount"].any fun f =>
    match path_join mod f with
    | .ok b => path_exists env b
    | .error _ => false

mutual

/-- `node_scan_dir` (`src/module_tree.c` lines 283-355): enumerate `dir`,
merge each entry into `self` (first module wins: an existing child of the
same name is reused), recurse into directories, and report whether any
effective content was found.  The final `Bool` is the success flag (`-1`
becomes `false`): an unopenable directory, a failed `path_join` or a failed
recursion abort the scan.  `fuel` bounds the environment-driven recursion
depth; exhaustion reports failure like an unreadable directory. -/
def node_scan_dir (env : Env) (fuel : Nat) (ctx : MagicMount) (self : Node)
    (dir : String) (module_name : Option String) :
    MagicMount × Node × Bool × Bool :=
  match fuel with
  | 0 => (ctx, self, false, false)
  | fuel + 1 =>
    match env.listDir dir with
    | none => (ctx, self, false, false)
    | some entries => node_scan_go env fuel ctx self dir module_name entries false

/-- The `readdir` loop body of `node_scan_dir`. -/
def node_scan_go (env : Env) (fuel : Nat) (ctx : MagicMount) (self : Node)
    (dir : String) (module_name : Option String) (entries : List String)
    (any : Bool) : MagicMount × Node × Bool × Bool :=
  match fuel with
  | 0 => (ctx, self, any, false)
  | fuel + 1 =>
    match entries with
    | [] => (ctx, self, any, true)
    | e :: rest =>
      if e = "." ∨ e = ".." then
        node_scan_go env fuel ctx self dir module_name rest any
      else
        match path_join dir e with
        | .error _ => (ctx, self, any, false)
        | .ok path =>
          let found := node_child_find self.children e
          let (ctx₁, self₁, child?) :=
            match found with
            | some c => (ctx, self, some c)
            | none =>
              match node_create_from_fs env ctx e path module_name with
              | (ctx', some n) => (ctx', self.withChildren (self.children ++ [n]), some n)
              | (ctx', none) => (ctx', self, none)
          match child? with
          | none => node_scan_go env fuel ctx₁ self₁ dir module_name rest any
          | some c =>
            if c.ntype = .DIRECTORY then
              let (ctx₂, c', sub, ok) := node_scan_dir env fuel ctx₁ c path module_name
              let self₂ := self₁.withChildren (update_child self₁.children e c')
              if ok then
                node_scan_go env fuel ctx₂ self₂ dir module_name rest
                  (any || (sub || c.replace))
              else (ctx₂, self₂, any, false)
            else
              node_scan_go env fuel ctx₁ self₁ dir module_name rest true

end

/-- `is_compatible_symlink` (`src/module_tree.c` lines 359-390): strip
trailing slashes from the link target; an empty result is incompatible;
otherwise the stripped target must equal `"../<part>"` (as produced by the
bounded `snprintf`) or the join `<module_dir>/<module_name>/<part>` (the
absolute check is skipped when no module name is available or a join
overflows). -/
def is_compatible_symlink (link_target part_name : String)
    (module_dir : String) (module_name : Option String) : Bool :=
  let t := strip_slashes link_target
  if t.length = 0 then false
  else if t = (⟨("../" ++ part_name).data.take (PATH_MAX - 1)⟩ : String) then true
  else
    match module_name with
    | none => false
    | some mn =>
      match path_join module_dir mn with
      | .error _ => false
      | .ok tmp =>
        match path_join tmp part_name with
        | .error _ => false
        | .ok expabs => t = expabs

/-- The module-iteration loop of `find_real_partition_dir`. -/
def find_real_go (env : Env) (module_dir part_name : String) :
    List String → Option (String × String)
  | [] => none
  | e :: rest =>
    if e = "." ∨ e = ".." then find_real_go env module_dir part_name rest
    else
      match path_join module_dir e with
      | .error _ => find_real_go env module_dir part_name rest
      | .ok mod_path =>
        if path_is_dir env mod_path ∧ ¬ module_is_disabled env mod_path then
          match path_join mod_path part_name with
          | .error _ => find_real_go env module_dir part_name rest
          | .ok part_path =>
            if path_is_dir env part_path then some (part_path, e)
            else find_real_go env module_dir part_name rest
        else find_real_go env module_dir part_name rest

/-- `find_real_partition_dir` (`src/module_tree.c` lines 392-435): the first
enabled module directory containing `<module>/<part>` as a directory,
returned together with the module name. -/
def find_real_partition_dir (env : Env) (ctx : MagicMount) (part_name : String) :
    Option (String × String) :=
  match env.listDir ctx.module_dir with
  | none => none
  | some entries => find_real_go env ctx.module_dir part_name entries

/-- `symlink_resolve_partition` (`src/module_tree.c` lines 437-507): when
`system` has a symlink child for the partition whose target is compatible,
and some enabled module carries a real `<module>/<part>` directory with
content, the symlink child is replaced by a freshly scanned directory
node.  All failure paths leave `system` unchanged (the caller only logs). -/
def symlink_resolve_partition (env : Env) (fuel : Nat) (ctx : MagicMount)
    (system : Node) (part_name : String) : MagicMount × Node :=
  match node_child_find system.children part_name with
  | none => (ctx, system)
  | some sys_child =>
    match sys_child.module_path with
    | none => (ctx, system)
    | some mp =>
    if sys_child.ntype = .SYMLINK then
      match env.readlink mp with
      | none => (ctx, system)
      | some link_target =>
        if is_compatible_symlink link_target part_name ctx.module_dir
            sys_child.module_name then
          match find_real_partition_dir env ctx part_name with
          | none => (ctx, system)
          | some (real_part_path, mname) =>
            let new0 : Node := .mk part_name .DIRECTORY none none false false false []
            let (ctx₁, new₁, has, ok) :=
              node_scan_dir env fuel ctx new0 real_part_path (some mname)
            if ok ∧ has then
              let (_, rest) := node_child_detach system.children part_name
              (ctx₁, system.withChildren (rest ++ [new₁.setModuleName (some mname)]))
            else (ctx₁, system)
        else (ctx, system)
    else (ctx, system)

/-- The iteration of `symlink_resolve_all_partition_links`
(`src/module_tree.c` lines 509-529) over a list of partition names. -/
def symlink_resolve_list (env : Env) (fuel : Nat) :
    MagicMount → Node → List String → MagicMount × Node
  | ctx, system, [] => (ctx, system)
  | ctx, system, p :: rest =>
    let (ctx', system') := symlink_resolve_partition env fuel ctx system p
    symlink_resolve_list env fuel ctx' system' rest

/-- `symlink_resolve_all_partition_links`: the four builtin partitions
followed by the configured extra partitions. -/
def symlink_resolve_all_partition_links (env : Env) (fuel : Nat)
    (ctx : MagicMount) (system : Node) : MagicMount × Node :=
  symlink_resolve_list env fuel ctx system
    (["vendor", "system_ext", "product", "odm"] ++ ctx.extra_parts)

/-- Result of `partition_scan_from_modules`: `0` / `1` / `-1` in the
source. -/
inductive PScanRet where
  | hasContent
  | noContent
  | scanErr
deriving DecidableEq, Repr

/-- The module-iteration loop of `partition_scan_from_modules`. -/
def pscan_go (env : Env) (fuel : Nat) (module_dir part_name : String) :
    MagicMount → Node → List String → Bool → MagicMount × Node × PScanRet
  | ctx, parent, [], has_any =>
    (ctx, parent, if has_any then .hasContent else .noContent)
  | ctx, parent, e :: rest, has_any =>
    if e = "." ∨ e = ".." then
      pscan_go env fuel module_dir part_name ctx parent rest has_any
    else
      match path_join module_dir e with
      | .error _ => pscan_go env fuel module_dir part_name ctx parent rest has_any
      | .ok mod_path =>
        if path_is_dir env mod_path ∧ ¬ module_is_disabled env mod_path then
          match path_join mod_path part_name with
          | .error _ => pscan_go env fuel module_dir part_name ctx parent rest has_any
          | .ok part_path =>
            if path_is_dir env part_path then
              let (ctx₁, parent₁, sub, ok) :=
                node_scan_dir env fuel ctx parent part_path (some e)
              if ok then
                pscan_go env fuel module_dir part_name ctx₁ parent₁ rest (has_any || sub)
              else (ctx₁, parent₁, .scanErr)
            else pscan_go env fuel module_dir part_name ctx parent rest has_any
        else pscan_go env fuel module_dir part_name ctx parent rest has_any

/-- `partition_scan_from_modules` (`src/module_tree.c` lines 533-610):
enumerate every enabled module's `<module>/<part>` directory into
`parent`, reporting whether any module contributed content. -/
def partition_scan_from_modules (env : Env) (fuel : Nat) (ctx : MagicMount)
    (part_name : String) (parent : Node) : MagicMount × Node × PScanRet :=
  match env.listDir ctx.module_dir with
  | none => (ctx, parent, .scanErr)
  | some entries => pscan_go env fuel ctx.module_dir part_name ctx parent entries false

/-- `partition_promote_to_root` (`src/module_tree.c` lines 614-650): when
`/<part>` is a real directory on the live system and (if `need_symlink`)
`/system/<part>` is a live symlink, detach `system`'s child of that name
and append it to `root`.  `none` models the `-1` abort (a failed join). -/
def partition_promote_to_root (env : Env) (root system : Node)
    (part_name : String) (need_symlink : Bool) : Option (Node × Node) :=
  match path_join "/" part_name, path_join "/system" part_name with
  | .ok rp, .ok sp =>
    if ¬ path_is_dir env rp then some (root, system)
    else if need_symlink ∧ ¬ path_is_symlink env sp then some (root, system)
    else
      match node_child_detach system.children part_name with
      | (none, _) => some (root, system)
      | (some c, rest) =>
        some (root.withChildren (root.children ++ [c]), system.withChildren rest)
  | _, _ => none

/-- The builtin-partition promotion loop of `build_mount_tree`
(`src/module_tree.c` lines 758-782): the fixed list
`[(vendor, true), (system_ext, true), (product, true), (odm, false)]`. -/
def promote_loop (env : Env) : Node → Node → List (String × Bool) →
    Option (Node × Node)
  | root, system, [] => some (root, system)
  | root, system, (part, need) :: rest =>
    match partition_promote_to_root env root system part need with
    | none => none
    | some (root', system') => promote_loop env root' system' rest

/-- The extra-partition loop of `build_mount_tree` (`src/module_tree.c`
lines 784-835): for each configured name whose live `/<name>` is a
directory, scan every enabled module's `<module>/<name>` into a fresh
directory node; attach it to the root when content was found, drop it when
not, abort the whole build on a scan error. -/
def extras_loop (env : Env) (fuel : Nat) : MagicMount → Node → List String →
    MagicMount × Option Node
  | ctx, root, [] => (ctx, some root)
  | ctx, root, name :: rest =>
    match path_join "/" name with
    | .error _ => extras_loop env fuel ctx root rest
    | .ok rp =>
      if ¬ path_is_dir env rp then extras_loop env fuel ctx root rest
      else
        let child0 : Node := .mk name .DIRECTORY none none false false false []
        match partition_scan_from_modules env fuel ctx name child0 with
        | (ctx', child', .hasContent) =>
          extras_loop env fuel ctx' (root.withChildren (root.children ++ [child'])) rest
        | (ctx', _, .noContent) => extras_loop env fuel ctx' root rest
        | (ctx', _, .scanErr) => (ctx', none)

/-- The module-enumeration loop of `build_mount_tree` (`src/module_tree.c`
lines 686-741): skip `.`/`..`, non-directories, disabled modules and
modules without a `system/` directory; count and scan the rest into the
synthetic `system` node.  The final `Bool` is the success flag; a failed
join or scan aborts. -/
def build_modules_go (env : Env) (fuel : Nat) (mdir : String) :
    MagicMount → Node → List String → Bool → MagicMount × Node × Bool × Bool
  | ctx, system, [], has_any => (ctx, system, has_any, true)
  | ctx, system, e :: rest, has_any =>
    if e = "." ∨ e = ".." then build_modules_go env fuel mdir ctx system rest has_any
    else
      match path_join mdir e with
      | .error _ => (ctx, system, has_any, false)
      | .ok mod =>
        if ¬ path_is_dir env mod then
          build_modules_go env fuel mdir ctx system rest has_any
        else if module_is_disabled env mod then
          build_modules_go env fuel mdir ctx system rest has_any
        else
          match path_join mod "system" with
          | .error _ => (ctx, system, has_any, false)
          | .ok mod_sys =>
            if ¬ path_is_dir env mod_sys then
              build_modules_go env fuel mdir ctx system rest has_any
            else
              let ctx₁ := { ctx with stats :=
                { ctx.stats with modules_total := ctx.stats.modules_total + 1 } }
              let (ctx₂, system₂, sub, ok) :=
                node_scan_dir env fuel ctx₁ system mod_sys (some e)
              if ok then
                build_modules_go env fuel mdir ctx₂ system₂ rest (has_any || sub)
              else (ctx₂, system₂, has_any, false)

/-- `build_mount_tree` (`src/module_tree.c` lines 654-847): scan-and-merge
every enabled module's `system/` subtree, return the no-content sentinel
(`none`, the C `NULL`) when no module contributed anything, add `2` to
`nodes_total` for the synthetic root and system nodes, resolve partition
symlinks, promote builtin partitions, attach extra partitions, and finally
attach `system` as the last child of the root. -/
def build_mount_tree (env : Env) (fuel : Nat) (ctx : MagicMount) :
    MagicMount × Option Node :=
  let root0 : Node := .mk "" .DIRECTORY none none false false false []
  let system0 : Node := .mk "system" .DIRECTORY none none false false false []
  match env.listDir ctx.module_dir with
  | none => (ctx, none)
  | some entries =>
    let (ctx₁, system₁, has_any, ok) :=
      build_modules_go env fuel ctx.module_dir ctx system0 entries false
    if ¬ ok then (ctx₁, none)
    else if ¬ has_any then (ctx₁, none)
    else
      let ctx₂ := { ctx₁ with stats :=
        { ctx₁.stats with nodes_total := ctx₁.stats.nodes_total + 2 } }
      let (ctx₃, system₂) := symlink_resolve_all_partition_links env fuel ctx₂ system₁
      match promote_loop env root0 system₂
          [("vendor", true), ("system_ext", true), ("product", true), ("odm", false)] with
      | none => (ctx₃, none)
      | some (root₁, system₃) =>
        match extras_loop env fuel ctx₃ root₁ ctx₃.extra_parts with
        | (ctx₄, none) => (ctx₄, none)
        | (ctx₄, some root₂) =>
          (ctx₄, some (root₂.withChildren (root₂.children ++ [system₃])))

/-- The needle of the workdir test in `mm_apply_regular_file`
(`src/module_tree.c` line 1024). -/
def workdir_needle : String := ".magic_mount/workdir/"

/-- The prefix of `wpath` up to (excluding) its last `'/'`, as computed by
`std.mem.lastIndexOfScalar` in `mm_apply_regular_file`; `none` when `wpath`
contains no slash (the source then returns success without doing
anything). -/
def last_slash_parent (s : String) : Option String :=
  if s.data.contains '/' then
    some ⟨((s.data.reverse.dropWhile (fun c => c ≠ '/')).drop 1).reverse⟩
  else none

/-- `mm_apply_regular_file` (`src/module_tree.c` lines 1002-1033): bind the
module file over the work path (when `has_tmpfs`, after creating the parent
directory and an empty touch file) or directly over the live path;
`markUnmountable` is invoked — before the best-effort read-only remount —
whenever the bind target does not contain the substring
`".magic_mount/workdir/"` and unmountable-marking is enabled; finally
`nodes_mounted` is incremented. -/
def mm_apply_regular_file (env : Env) (ctx : MagicMount) (path wpath : String)
    (node : Node) (has_tmpfs : Bool) : MagicMount × List Ev × Option Err :=
  let target := if has_tmpfs then wpath else path
  let pre? : Except (List Ev × Option Err) (List Ev) :=
    if has_tmpfs then
      match last_slash_parent wpath with
      | none => .error ([], none)
      | some parent =>
        if ¬ env.mkdirPOk parent then .error ([Ev.mkdirP parent], some .mkdirFailed)
        else if ¬ env.touchOk wpath then
          .error ([Ev.mkdirP parent, Ev.touch wpath], some .openFailed)
        else .ok [Ev.mkdirP parent, Ev.touch wpath]
    else .ok []
  match pre? with
  | .error (evs, err) => (ctx, evs, err)
  | .ok evs0 =>
    match node.module_path with
    | none => (ctx, evs0, some .invalidArgument)
    | some mp =>
      if ¬ env.bindOk mp target then
        (ctx, evs0 ++ [Ev.bind mp target], some .mountFailed)
      else
        let evs1 := evs0 ++ [Ev.bind mp target]
        let evs2 :=
          if ¬ contains_substr target workdir_needle ∧ ctx.enable_unmountable then
            evs1 ++ [Ev.ksuSend path]
          else evs1
        ({ ctx with stats :=
            { ctx.stats with nodes_mounted := ctx.stats.nodes_mounted + 1 } },
         evs2 ++ [Ev.remountRo target], none)

/-- `mm_clone_symlink` (`src/module_tree.c` lines 949-960): read the link
target of `src` and create a symlink with that target at `dst`; the
SELinux-context copy result is ignored. -/
def mm_clone_symlink (env : Env) (src dst : String) : List Ev × Option Err :=
  match env.readlink src with
  | none => ([], some .readlinkFailed)
  | some target =>
    if ¬ env.symlinkOk target dst then
      ([Ev.symlinkCreate target dst], some .symlinkFailed)
    else ([Ev.symlinkCreate target dst, Ev.copyCon src dst], none)

/-- `mm_apply_symlink` (`src/module_tree.c` lines 1036-1044): clone the
module's symlink to the work path and count it as mounted. -/
def mm_apply_symlink (env : Env) (ctx : MagicMount) (path wpath : String)
    (node : Node) : MagicMount × List Ev × Option Err :=
  match node.module_path with
  | none =>
    let _ := path
    (ctx, [], some .invalidArgument)
  | some mp =>
    match mm_clone_symlink env mp wpath with
    | (evs, some e) => (ctx, evs, some e)
    | (evs, none) =>
      ({ ctx with stats :=
          { ctx.stats with nodes_mounted := ctx.stats.nodes_mounted + 1 } },
       evs, none)

mutual

/-- `mm_mirror_entry` (`src/module_tree.c` lines 963-999): mirror one
original entry of a live directory into the tmpfs workdir — regular files
by touch-and-bind, directories recursively (mode/owner/SELinux copies are
best-effort), symlinks by cloning; other kinds are ignored.  Failing joins
return success (the `catch return` in the source); the sole caller drops
errors.  Mirroring never touches the context statistics. -/
def mm_mirror_entry (env : Env) (fuel : Nat) (path work name : String) :
    List Ev × Option Err :=
  match fuel with
  | 0 => ([], some .fuelOut)
  | fuel + 1 =>
    match path_join path name, path_join work name with
    | .ok src, .ok dst =>
      match env.lstat src with
      | none => ([], none)
      | some st =>
        if st.kind = .reg then
          if ¬ env.touchOk dst then ([Ev.touch dst], some .openFailed)
          else if ¬ env.bindOk src dst then
            ([Ev.touch dst, Ev.bind src dst], some .mountFailed)
          else ([Ev.touch dst, Ev.bind src dst], none)
        else if st.kind = .dir then
          if ¬ env.mkdirOk dst then ([Ev.mkdirP dst], some .mkdirFailed)
          else
            let pre := [Ev.mkdirP dst, Ev.chmodChown dst, Ev.copyCon src dst]
            match env.listDir src with
            | none => (pre, some .openDirFailed)
            | some entries =>
              let (evs, err) := mm_mirror_children env fuel src dst entries
              (pre ++ evs, err)
        else if st.kind = .lnk then mm_clone_symlink env src dst
        else ([], none)
    | _, _ => ([], none)

/-- The directory-iteration loop of `mm_mirror_entry`. -/
def mm_mirror_children (env : Env) (fuel : Nat) (src dst : String) :
    List String → List Ev × Option Err
  | [] => ([], none)
  | e :: rest =>
    match fuel with
    | 0 => ([], some .fuelOut)
    | fuel + 1 =>
      if e = "." ∨ e = ".." then mm_mirror_children env fuel src dst rest
      else
        match mm_mirror_entry env fuel src dst e with
        | (evs, some er) => (evs, some er)
        | (evs, none) =>
          let (evs', err) := mm_mirror_children env fuel src dst rest
          (evs ++ evs', err)

end

/-- The per-child decision loop of `mm_check_need_tmpfs`
(`src/module_tree.c` lines 1047-1077).  A symlink child needs tmpfs; a
whiteout child needs it when its live counterpart exists; otherwise the
live entry is `lstat`ed and a kind mismatch (or a live symlink) needs it.
A failed `lstat` sets the local flag but `continue`s, losing its effect.
When tmpfs is needed but the directory has no `module_path`, the child is
marked `skip` instead and the walk continues. -/
def check_need_go (env : Env) (nodeMP : Option String) (path : String) :
    List Node → Bool × List Node
  | [] => (false, [])
  | c :: rest =>
    match path_join path c.name with
    | .error _ =>
      let (r, rest') := check_need_go env nodeMP path rest
      (r, c :: rest')
    | .ok rp =>
      let step : Option Bool :=
        if c.ntype = .SYMLINK then some true
        else if c.ntype = .WHITEOUT then some (path_exists env rp)
        else
          match env.lstat rp with
          | none => none
          | some st =>
            some (node_type_from_stat st ≠ c.ntype ∨ node_type_from_stat st = .SYMLINK)
      match step with
      | none =>
        let (r, rest') := check_need_go env nodeMP path rest
        (r, c :: rest')
      | some need =>
        if need ∧ nodeMP = none then
          let (r, rest') := check_need_go env nodeMP path rest
          (r, c.setSkip true :: rest')
        else if need then (true, c :: rest)
        else
          let (r, rest') := check_need_go env nodeMP path rest
          (r, c :: rest')

/-- `mm_check_need_tmpfs`: the walk over `node.children`; returns the
decision and the children with any `skip` marks applied. -/
def mm_check_need_tmpfs (env : Env) (node : Node) (path : String) :
    Bool × List Node :=
  check_need_go env node.module_path path node.children

/-- `mm_setup_dir_tmpfs` (`src/module_tree.c` lines 1080-1098): create the
work directory, then copy mode/owner/SELinux from the live path when it
exists; when it does not, a stat-able `module_path` suffices (no metadata
is copied), otherwise the error from `stat` propagates. -/
def mm_setup_dir_tmpfs (env : Env) (path wpath : String) (node : Node) :
    List Ev × Option Err :=
  if ¬ env.mkdirPOk wpath then ([Ev.mkdirP wpath], some .mkdirFailed)
  else
    match env.stat path with
    | some _ => ([Ev.mkdirP wpath, Ev.chmodChown wpath, Ev.copyCon path wpath], none)
    | none =>
      match node.module_path with
      | some mp =>
        if (env.stat mp).isSome then ([Ev.mkdirP wpath], none)
        else ([Ev.mkdirP wpath], some .noDirMeta)
      | none => ([Ev.mkdirP wpath], some .noDirMeta)

/-- The failure handler shared by the two child passes (`src/module_tree.c`
lines 1123-1131 and 1144-1151): record the owning module — the child's
`module_name`, else the parent's — via `module_mark_failed` when one
exists, and increment `nodes_fail`. -/
def child_fail_handler (ctx : MagicMount) (childMN parentMN : Option String) :
    MagicMount :=
  let ctx1 :=
    match childMN with
    | some m => module_mark_failed ctx m
    | none =>
      match parentMN with
      | some m => module_mark_failed ctx m
      | none => ctx
  { ctx1 with stats := { ctx1.stats with nodes_fail := ctx1.stats.nodes_fail + 1 } }

mutual

/-- `mm_apply_node_recursive` (`src/module_tree.c` lines 1158-1201):
dispatch on the node kind.  Directories decide tmpfs-ness, set up the work
directory, run the existing-children pass then the module-only pass, and —
when a tmpfs was created — remount it read-only, move it into place, mark
it private and report it unmountable; every completed directory increments
`nodes_mounted`.  A failed `path_join` returns success without applying
anything (the `catch return` in the source). -/
def mm_apply_node_recursive (env : Env) (fuel : Nat) (ctx : MagicMount)
    (base wbase : String) (node : Node) (has_tmpfs : Bool) :
    MagicMount × Node × List Ev × Option Err :=
  match fuel with
  | 0 => (ctx, node, [], some .fuelOut)
  | fuel + 1 =>
    match path_join base node.name, path_join wbase node.name with
    | .ok path, .ok wpath =>
      match node.ntype with
      | .REGULAR =>
        let (ctx', evs, err) := mm_apply_regular_file env ctx path wpath node has_tmpfs
        (ctx', node, evs, err)
      | .SYMLINK =>
        let (ctx', evs, err) := mm_apply_symlink env ctx path wpath node
        (ctx', node, evs, err)
      | .WHITEOUT =>
        ({ ctx with stats :=
            { ctx.stats with nodes_whiteout := ctx.stats.nodes_whiteout + 1 } },
         node, [], none)
      | .DIRECTORY => mm_apply_dir env fuel ctx path wpath node has_tmpfs
    | _, _ => (ctx, node, [], none)

/-- The `NFT_DIRECTORY` branch of `mm_apply_node_recursive`
(`src/module_tree.c` lines 1171-1199), factored out: decide tmpfs-ness
(marking `skip` flags via `mm_check_need_tmpfs` when probing), set up the
work directory, self-bind it when a tmpfs is being created, run the
existing-children pass then the module-only pass, and finalise a created
tmpfs by read-only remount, move-mount, private marking and the
unmountable report; every completed directory increments
`nodes_mounted`. -/
def mm_apply_dir (env : Env) (fuel : Nat) (ctx : MagicMount)
    (path wpath : String) (node : Node) (has_tmpfs : Bool) :
    MagicMount × Node × List Ev × Option Err :=
  match fuel with
  | 0 => (ctx, node, [], some .fuelOut)
  | fuel + 1 =>
    let create_tmp0 := !has_tmpfs && node.replace && node.module_path.isSome
    let (create_tmp, node1) :=
      if ¬ has_tmpfs ∧ ¬ create_tmp0 then
        let (r, cs) := mm_check_need_tmpfs env node path
        (r, node.withChildren cs)
      else (create_tmp0, node)
    let now_tmp := has_tmpfs || create_tmp
    let setup : List Ev × Option Err :=
      if now_tmp then mm_setup_dir_tmpfs env path wpath node1 else ([], none)
    match setup with
    | (evsS, some e) => (ctx, node1, evsS, some e)
    | (evsS, none) =>
      if create_tmp && !(env.bindOk wpath wpath) then
        (ctx, node1, evsS ++ [Ev.bindSelf wpath], some .mountFailed)
      else
        let evsB := evsS ++ (if create_tmp then [Ev.bindSelf wpath] else [])
        let (ctx₂, node₂, evs₂, err₂) :=
          mm_process_dir_children env fuel ctx path wpath node1 now_tmp
        match err₂ with
        | some e => (ctx₂, node₂, evsB ++ evs₂, some e)
        | none =>
          let (ctx₃, node₃, evs₃, err₃) :=
            mm_process_remaining_children env fuel ctx₂ path wpath node₂ now_tmp
          match err₃ with
          | some e => (ctx₃, node₃, evsB ++ evs₂ ++ evs₃, some e)
          | none =>
            let evsC := evsB ++ evs₂ ++ evs₃
            if create_tmp then
              if ¬ env.moveOk wpath path then
                (ctx₃, node₃, evsC ++ [Ev.remountRo wpath, Ev.moveMount wpath path],
                 some .mountFailed)
              else
                let evsF := evsC ++ [Ev.remountRo wpath, Ev.moveMount wpath path,
                  Ev.makePrivate path] ++
                  (if ctx₃.enable_unmountable then [Ev.ksuSend path] else [])
                ({ ctx₃ with stats :=
                    { ctx₃.stats with nodes_mounted := ctx₃.stats.nodes_mounted + 1 } },
                 node₃, evsF, none)
            else
              ({ ctx₃ with stats :=
                  { ctx₃.stats with nodes_mounted := ctx₃.stats.nodes_mounted + 1 } },
               node₃, evsC, none)

/-- `mm_process_dir_children` (`src/module_tree.c` lines 1101-1137): the
existing-children pass.  Nothing happens when the live directory does not
exist or the node is an opaque replace; an unopenable live directory is an
error only in tmpfs mode.  Each live entry that matches a tree child is
marked `done` and applied (skipped children are only marked); unmatched
entries are mirrored into the workdir in tmpfs mode.  A failing child is
fed to the failure handler; in tmpfs mode the error then propagates,
otherwise the walk continues. -/
def mm_process_dir_children (env : Env) (fuel : Nat) (ctx : MagicMount)
    (path wpath : String) (node : Node) (now_tmp : Bool) :
    MagicMount × Node × List Ev × Option Err :=
  match fuel with
  | 0 => (ctx, node, [], some .fuelOut)
  | fuel + 1 =>
    if ¬ path_exists env path ∨ node.replace then (ctx, node, [], none)
    else
      match env.listDir path with
      | none =>
        if ¬ now_tmp then (ctx, node, [], none)
        else (ctx, node, [], some .openDirFailed)
      | some entries => pdc_go env fuel ctx path wpath node entries now_tmp

/-- The `readdir` loop of `mm_process_dir_children`. -/
def pdc_go (env : Env) (fuel : Nat) (ctx : MagicMount) (path wpath : String)
    (node : Node) (entries : List String) (now_tmp : Bool) :
    MagicMount × Node × List Ev × Option Err :=
  match fuel with
  | 0 => (ctx, node, [], some .fuelOut)
  | fuel + 1 =>
    match entries with
    | [] => (ctx, node, [], none)
    | e :: rest =>
      if e = "." ∨ e = ".." then pdc_go env fuel ctx path wpath node rest now_tmp
      else
        match node_child_find node.children e with
        | none =>
          if now_tmp then
            let (evsM, _) := mm_mirror_entry env fuel path wpath e
            let (ctx', node', evs', err') := pdc_go env fuel ctx path wpath node rest now_tmp
            (ctx', node', evsM ++ evs', err')
          else pdc_go env fuel ctx path wpath node rest now_tmp
        | some c =>
          if c.skip then
            let node' := node.withChildren (update_child node.children e (c.setDone true))
            pdc_go env fuel ctx path wpath node' rest now_tmp
          else
            let c0 := c.setDone true
            let (ctxA, cA, evsA, errA) :=
              mm_apply_node_recursive env fuel ctx path wpath c0 now_tmp
            let node' := node.withChildren (update_child node.children e cA)
            match errA with
            | none =>
              let (ctx', node'', evs', err') :=
                pdc_go env fuel ctxA path wpath node' rest now_tmp
              (ctx', node'', evsA ++ evs', err')
            | some er =>
              let ctxF := child_fail_handler ctxA c.module_name node.module_name
              if now_tmp then (ctxF, node', evsA, some er)
              else
                let (ctx', node'', evs', err') :=
                  pdc_go env fuel ctxF path wpath node' rest now_tmp
                (ctx', node'', evsA ++ evs', err')

/-- `mm_process_remaining_children` (`src/module_tree.c` lines 1140-1155):
the module-only pass over `node.children`, skipping `skip`/`done` children;
failures go through the same handler, fatal exactly in tmpfs mode. -/
def mm_process_remaining_children (env : Env) (fuel : Nat) (ctx : MagicMount)
    (path wpath : String) (node : Node) (now_tmp : Bool) :
    MagicMount × Node × List Ev × Option Err :=
  match fuel with
  | 0 => (ctx, node, [], some .fuelOut)
  | fuel + 1 =>
    let (ctx', cs', evs, err) :=
      prc_go env fuel ctx path wpath node.module_name node.children now_tmp
    (ctx', node.withChildren cs', evs, err)

/-- The children loop of `mm_process_remaining_children`. -/
def prc_go (env : Env) (fuel : Nat) (ctx : MagicMount) (path wpath : String)
    (parentMN : Option String) (cs : List Node) (now_tmp : Bool) :
    MagicMount × List Node × List Ev × Option Err :=
  match fuel with
  | 0 => (ctx, cs, [], some .fuelOut)
  | fuel + 1 =>
    match cs with
    | [] => (ctx, [], [], none)
    | c :: rest =>
      if c.skip ∨ c.done then
        let (ctx', rest', evs, err) :=
          prc_go env fuel ctx path wpath parentMN rest now_tmp
        (ctx', c :: rest', evs, err)
      else
        let (ctxA, cA, evsA, errA) :=
          mm_apply_node_recursive env fuel ctx path wpath c now_tmp
        match errA with
        | none =>
          let (ctx', rest', evs', err') :=
            prc_go env fuel ctxA path wpath parentMN rest now_tmp
          (ctx', cA :: rest', evsA ++ evs', err')
        | some er =>
          let ctxF := child_fail_handler ctxA c.module_name parentMN
          if now_tmp then (ctxF, cA :: rest, evsA, some er)
          else
            let (ctx', rest', evs', err') :=
              prc_go env fuel ctxF path wpath parentMN rest now_tmp
            (ctx', cA :: rest', evsA ++ evs', err')

end

/-- `magic_mount` (`src/module_tree.c` lines 1204-1237): build the tree —
a `none` result (no content or build failure) is logged and `0` is
returned with nothing mounted; otherwise create and mount the workdir
tmpfs (failures of these two `try` calls propagate to the caller), apply
the root node, count a top-level failure in `nodes_fail` with result `-1`,
and finally detach-unmount and remove the workdir. -/
def magic_mount (env : Env) (fuel : Nat) (ctx : MagicMount) (tmp_root : String) :
    MagicMount × List Ev × Except Err Int :=
  match build_mount_tree env fuel ctx with
  | (ctx₁, none) => (ctx₁, [], .ok 0)
  | (ctx₁, some root) =>
    match path_join tmp_root "workdir" with
    | .error _ => (ctx₁, [], .ok (-1))
    | .ok tmp_dir =>
      if ¬ env.mkdirPOk tmp_dir then
        (ctx₁, [Ev.mkdirP tmp_dir], .error .mkdirFailed)
      else if ¬ env.tmpfsOk tmp_dir then
        (ctx₁, [Ev.mkdirP tmp_dir, Ev.tmpfsMount tmp_dir], .error .mountFailed)
      else
        let pre := [Ev.mkdirP tmp_dir, Ev.tmpfsMount tmp_dir, Ev.makePrivate tmp_dir]
        let (ctxA, _, evsA, errA) :=
          mm_apply_node_recursive env fuel ctx₁ "/" tmp_dir root false
        let (ctx₂, rc) :=
          match errA with
          | some _ =>
            ({ ctxA with stats :=
                { ctxA.stats with nodes_fail := ctxA.stats.nodes_fail + 1 } },
             (-1 : Int))
          | none => (ctxA, 0)
        (ctx₂, pre ++ evsA ++ [Ev.umountDetach tmp_dir, Ev.rmdirEv tmp_dir], .ok rc)

/-! ## A finite model filesystem

Concrete witnesses and counterexamples instantiate the environment with
oracles computed from a finite directory tree.  Path lookup splits a path
string on `'/'` and ignores empty components — exactly how the Linux VFS
treats repeated slashes.  The model trees used below contain no symlinks on
any probed path, so `stat` and `lstat` coincide and no link-following is
modelled. -/

/-- A finite filesystem entry. -/
inductive FsT where
  | reg
  | dirE (entries : List (String × FsT))
  | sym (target : String)
  | chr (rdev : Nat)
  | blk
  | fifo
  | sock

/-- Split a path on `'/'`, collecting the non-empty components. -/
def split_comps_go (cur : List Char) : List Char → List String
  | [] => [⟨cur.reverse⟩]
  | c :: rest =>
    if c = '/' then ⟨cur.reverse⟩ :: split_comps_go [] rest
    else split_comps_go (c :: cur) rest

/-- The non-empty `'/'`-separated components of a path. -/
def path_comps (p : String) : List String :=
  (split_comps_go [] p.data).filter (fun s => ¬ s.isEmpty)

/-- Look up a name in a directory's entry list. -/
def fs_lookup : List (String × FsT) → String → Option FsT
  | [], _ => none
  | (n, t) :: rest, nm => if n = nm then some t else fs_lookup rest nm

/-- Walk a component list down the tree (no symlink following). -/
def fs_walk : FsT → List String → Option FsT
  | t, [] => some t
  | .dirE es, n :: rest =>
    match fs_lookup es n with
    | some t => fs_walk t rest
    | none => none
  | _, _ :: _ => none

/-- The `StatInfo` of a model entry. -/
def fs_stat_info : FsT → StatInfo
  | .reg => ⟨.reg, 0⟩
  | .dirE _ => ⟨.dir, 0⟩
  | .sym _ => ⟨.lnk, 0⟩
  | .chr r => ⟨.chr, r⟩
  | .blk => ⟨.blk, 0⟩
  | .fifo => ⟨.fifo, 0⟩
  | .sock => ⟨.sock, 0⟩

/-- Resolve a path string in the model filesystem. -/
def fs_resolve (fs : FsT) (p : String) : Option FsT :=
  fs_walk fs (path_comps p)

/-- The environment computed from a model filesystem: `lstat`/`stat`
resolve paths (the model trees contain no symlinks along probed paths, so
the two agree), `listDir` lists directory entries in order, `readlink`
reads symlink targets, the `.replace` probes consult the tree, no xattrs or
SELinux labels are present, and every mount / mkdir / open operation
succeeds. -/
def envOfFs (fs : FsT) : Env where
  lstat := fun p => (fs_resolve fs p).map fs_stat_info
  stat := fun p => (fs_resolve fs p).map fs_stat_info
  listDir := fun p =>
    match fs_resolve fs p with
    | some (.dirE es) => some (es.map (fun pr => pr.1))
    | _ => none
  readlink := fun p =>
    match fs_resolve fs p with
    | some (.sym t) => some t
    | _ => none
  xattrOpaque := fun _ => none
  openDirOk := fun p =>
    match fs_resolve fs p with
    | some (.dirE _) => true
    | _ => false
  replaceFileExists := fun p =>
    (fs_walk fs (path_comps p ++ [".replace"])).isSome
  mkdirPOk := fun _ => true
  mkdirOk := fun _ => true
  touchOk := fun _ => true
  bindOk := fun _ _ => true
  symlinkOk := fun _ _ => true
  tmpfsOk := fun _ => true
  moveOk := fun _ _ => true
  getSel := fun _ => none
  setSelOk := fun _ _ => true

/-- Duplicate check on a name list. -/
def names_nodup : List String → Bool
  | [] => true
  | n :: rest => !(rest.contains n) && names_nodup rest

mutual

/-- Well-formedness of a model filesystem: every directory's entry names
are pairwise distinct (as real directories guarantee). -/
def fsWF : FsT → Bool
  | .dirE es => names_nodup (es.map (fun pr => pr.1)) && fsWF_list es
  | _ => true

/-- Well-formedness of an entry list. -/
def fsWF_list : List (String × FsT) → Bool
  | [] => true
  | (_, t) :: rest => fsWF t && fsWF_list rest

end

/-! ## Shared helper lemmas -/

/-- A successful join with a non-empty name yields a non-empty path. -/
theorem path_join_pos {base name r : String} (h : path_join base name = .ok r)
    (hn : 0 < name.length) : 0 < r.length := by
  simp only [path_join] at h
  rw [if_neg (by omega)] at h
  split at h
  all_goals split at h
  all_goals try split at h
  all_goals
    first
      | (simp only [Except.ok.injEq] at h
         subst h
         rw [String.length_append]
         omega)
      | simp_all

/-- Every blacklist member is shorter than 15 characters (so the 16-byte
copy buffer of `extra_part_blacklisted` can never truncate one). -/
theorem extra_blacklist_short : ∀ m ∈ extra_blacklist, m.length ≤ 11 := by decide

/-- `List.contains` agrees with membership for strings. -/
theorem contains_iff_mem (l : List String) (a : String) :
    l.contains a = true ↔ a ∈ l := by
  rw [List.contains]; exact List.elem_iff

/-- The 16-byte buffer cap of `extra_part_blacklisted` never changes the
outcome: a capped segment of length 15 matches no member, and neither does
the uncapped segment it came from. -/
theorem blacklist_cap_irrelevant (b : String) :
    extra_blacklist.contains (first_segment_capped b)
      = extra_blacklist.contains (first_segment b) := by
  by_cases h : ((b.data.dropWhile (fun c => c = '/')).takeWhile (fun c => c ≠ '/')).length ≤ 15
  · unfold first_segment_capped first_segment
    rw [List.take_of_length_le h]
  · have hcap : (first_segment_capped b).length = 15 := by
      unfold first_segment_capped
      show (((b.data.dropWhile (fun c => c = '/')).takeWhile (fun c => c ≠ '/')).take 15).length = 15
      rw [List.length_take]
      omega
    have hunc : (first_segment b).length > 15 := by
      unfold first_segment
      show ((b.data.dropWhile (fun c => c = '/')).takeWhile (fun c => c ≠ '/')).length > 15
      omega
    have h1 : extra_blacklist.contains (first_segment_capped b) = false := by
      by_contra hc
      have hx : extra_blacklist.contains (first_segment_capped b) = true := by
        cases hy : extra_blacklist.contains (first_segment_capped b)
        · exact absurd hy hc
        · rfl
      have := extra_blacklist_short _ ((contains_iff_mem _ _).mp hx)
      omega
    have h2 : extra_blacklist.contains (first_segment b) = false := by
      by_contra hc
      have hx : extra_blacklist.contains (first_segment b) = true := by
        cases hy : extra_blacklist.contains (first_segment b)
        · exact absurd hy hc
        · rfl
      have := extra_blacklist_short _ ((contains_iff_mem _ _).mp hx)
      omega
    rw [h1, h2]

/-- `extra_part_blacklisted` is exactly case-sensitive first-segment
membership in the fixed set. -/
theorem extra_part_blacklisted_eq (b : String) :
    extra_part_blacklisted b = extra_blacklist.contains (first_segment b) := by
  unfold extra_part_blacklisted
  by_cases h : b.isEmpty
  · have hb : b = "" := (String.isEmpty_iff b).mp h
    subst hb
    decide
  · rw [if_neg h, blacklist_cap_irrelevant]

/-! ## Shared concrete scenarios -/

/-- A trivial environment (empty root directory, every operation
succeeds). -/
def env_triv : Env := envOfFs (.dirE [])

/-- A freshly initialised context (`magic_mount_init` defaults, no extra
partitions). -/
def ctx_init : MagicMount :=
  { module_dir := "/data/adb/modules", mount_source := "KSU",
    stats := MountStats.zero, failed_modules := [], extra_parts := [],
    enable_unmountable := true }

/-- Model filesystem for the extra-partition scenarios: one enabled module
`modA` carrying `system/f` and `mi_ext/x`, with matching live `/system/f`
and `/mi_ext/x`. -/
def fs_extra : FsT :=
  .dirE [
    ("data", .dirE [("adb", .dirE [("modules", .dirE [
      ("modA", .dirE [
        ("system", .dirE [("f", .reg)]),
        ("mi_ext", .dirE [("x", .reg)])])])])]),
    ("system", .dirE [("f", .reg)]),
    ("mi_ext", .dirE [("x", .reg)])]

/-- `ctx_init` with the extra partition `mi_ext` configured once. -/
def ctx_extra : MagicMount := extra_partition_register ctx_init "mi_ext"

/-- `ctx_init` with the extra partition `mi_ext` configured twice (the
registration function performs no duplicate check). -/
def ctx_extra_dup : MagicMount :=
  extra_partition_register (extra_partition_register ctx_init "mi_ext") "mi_ext"

/-- Model module root for the empty-fleet scenario: one module directory
`modA` without a `system/` subdirectory. -/
def fs_empty_fleet : FsT :=
  .dirE [
    ("data", .dirE [("adb", .dirE [("modules", .dirE [
      ("modA", .dirE [("zzz", .reg)])])])]),
    ("system", .dirE [])]

/-! ## Claim theorems -/

/-- C8: `path_join` evaluated at the claim's inputs.  The claim (and the
spec) expect `join("/", "x") = "/x"`, but the source's special case for
`base == "/"` sets `use_slash` to true and produces the doubled-slash
result `"//x"` — the remaining identities hold as claimed. -/
theorem path_join_root_slash_eval :
    path_join "/" "x" = .ok "//x"
    ∧ path_join "/a" "" = .ok "/a"
    ∧ path_join "/a/" "b" = .ok "/a/b"
    ∧ path_join "/a" "b" = .ok "/a/b"
    ∧ path_join "" "x" = .ok "/x" :=
  ⟨rfl, rfl, rfl, rfl, rfl⟩

/-- C9 counterexample: with empty arguments, `get_selcon` and `copy_selcon`
return `error.InvalidArgument` instead of the claimed error-free no-op
(only `set_selcon` behaves as the claim says). -/
theorem selcon_empty_args_cex :
    get_selcon env_triv "" = .error .invalidArgument
    ∧ copy_selcon env_triv "" "/a" = .error .invalidArgument
    ∧ copy_selcon env_triv "/a" "" = .error .invalidArgument :=
  ⟨rfl, rfl, rfl⟩

/-- C9 amended: for every environment, an empty argument makes `set_selcon`
an error-free no-op, while `get_selcon` with an empty path and
`copy_selcon` with an empty source or destination return
`error.InvalidArgument` (the latter after its debug log). -/
theorem selcon_empty_args_behaviour (env : Env) (path con src dst : String) :
    set_selcon env "" con = .ok ()
    ∧ set_selcon env path "" = .ok ()
    ∧ get_selcon env "" = .error .invalidArgument
    ∧ copy_selcon env "" dst = .error .invalidArgument
    ∧ copy_selcon env src "" = .error .invalidArgument := by
  refine ⟨?_, ?_, rfl, rfl, ?_⟩
  · simp [set_selcon]
  · simp [set_selcon]
  · simp [copy_selcon]

/-- C10: a module entry whose `lstat` kind is a block device, FIFO or
socket produces no node at all — `node_create_from_fs` returns before
creating a node or incrementing `nodes_total` — even though the
`node_type_from_stat` catch-all would have classified it as a whiteout. -/
theorem node_create_from_fs_skips_unsupported (env : Env) (ctx : MagicMount)
    (name path : String) (mn : Option String) (st : StatInfo)
    (hst : env.lstat path = some st)
    (hkind : st.kind = .blk ∨ st.kind = .fifo ∨ st.kind = .sock) :
    node_create_from_fs env ctx name path mn = (ctx, none)
    ∧ node_type_from_stat st = .WHITEOUT := by
  constructor
  · unfold node_create_from_fs
    rw [hst]
    rcases hkind with h | h | h <;> simp [h]
  · unfold node_type_from_stat
    rcases hkind with h | h | h <;> simp [h]

/-- Model filesystem with a FIFO at `/p` (for the C10 witness). -/
def fs_fifo : FsT := .dirE [("p", .fifo)]

/-- C10 witness: the theorem evaluated at a concrete FIFO entry. -/
theorem node_create_from_fs_skips_unsupported_witness :
    (envOfFs fs_fifo).lstat "/p" = some ⟨FKind.fifo, 0⟩
    ∧ (node_create_from_fs (envOfFs fs_fifo) ctx_init "p" "/p" none
        = (ctx_init, none)
      ∧ node_type_from_stat ⟨FKind.fifo, 0⟩ = .WHITEOUT) :=
  ⟨rfl, node_create_from_fs_skips_unsupported (envOfFs fs_fifo) ctx_init "p" "/p"
    none ⟨FKind.fifo, 0⟩ rfl (Or.inr (Or.inl rfl))⟩

set_option maxRecDepth 40000 in
/-- C4: `is_compatible_symlink` accepts exactly the targets that, after
stripping trailing slashes, equal `"../<part>"` or the joined
`<module_dir>/<module_name>/<part>` (hypotheses: the partition name is
non-empty and short enough that the `snprintf` cannot truncate, and the
two joins succeed); together with the claim's four concrete examples for
`vendor`. -/
theorem is_compatible_symlink_spec (t P md mn j1 j2 : String)
    (hP : 0 < P.length) (hPlen : P.length ≤ PATH_MAX - 4)
    (hj1 : path_join md mn = .ok j1) (hj2 : path_join j1 P = .ok j2) :
    (is_compatible_symlink t P md (some mn) = true ↔
      (strip_slashes t = "../" ++ P ∨ strip_slashes t = j2))
    ∧ is_compatible_symlink "../vendor" "vendor" "/data/adb/modules" (some "mod") = true
    ∧ is_compatible_symlink "/data/adb/modules/mod/vendor" "vendor" "/data/adb/modules" (some "mod") = true
    ∧ is_compatible_symlink "/vendor_alt" "vendor" "/data/adb/modules" (some "mod") = false
    ∧ is_compatible_symlink "../vendor_alt" "vendor" "/data/adb/modules" (some "mod") = false := by
  refine ⟨?_, by decide, by decide, by decide, by decide⟩
  have h3 : ("../" : String).length = 3 := rfl
  have htr : (⟨("../" ++ P).data.take (PATH_MAX - 1)⟩ : String) = "../" ++ P := by
    have hlen : ("../" ++ P).data.length ≤ PATH_MAX - 1 := by
      have h4 : ("../" ++ P).length = 3 + P.length := by
        rw [String.length_append, h3]
      have h5 : ("../" ++ P).length = ("../" ++ P).data.length := rfl
      unfold PATH_MAX at hPlen ⊢
      omega
    rw [List.take_of_length_le hlen]
  have hrel_len : ("../" ++ P).length = 3 + P.length := by
    rw [String.length_append, h3]
  have hj2_len : 0 < j2.length := path_join_pos hj2 hP
  unfold is_compatible_symlink
  simp only [htr, hj1, hj2]
  by_cases h0 : (strip_slashes t).length = 0
  · have hne1 : ¬ (strip_slashes t = "../" ++ P) := by
      intro h
      rw [h] at h0
      omega
    have hne2 : ¬ (strip_slashes t = j2) := by
      intro h
      rw [h] at h0
      omega
    simp [h0, hne1, hne2]
  · simp only [h0, if_false]
    by_cases h1 : strip_slashes t = "../" ++ P
    · simp [h1]
    · simp [h1]

set_option maxRecDepth 40000 in
/-- C4 witness: the characterisation instantiated for partition `vendor`
inside module `mod` of the default module root. -/
theorem is_compatible_symlink_spec_witness :
    0 < ("vendor" : String).length
    ∧ ("vendor" : String).length ≤ PATH_MAX - 4
    ∧ path_join "/data/adb/modules" "mod" = .ok "/data/adb/modules/mod"
    ∧ path_join "/data/adb/modules/mod" "vendor" = .ok "/data/adb/modules/mod/vendor"
    ∧ (is_compatible_symlink "../vendor" "vendor" "/data/adb/modules" (some "mod") = true ↔
        (strip_slashes "../vendor" = "../" ++ "vendor"
         ∨ strip_slashes "../vendor" = "/data/adb/modules/mod/vendor")) :=
  ⟨by decide, by decide, rfl, rfl,
   (is_compatible_symlink_spec "../vendor" "vendor" "/data/adb/modules" "mod"
     "/data/adb/modules/mod" "/data/adb/modules/mod/vendor"
     (by decide) (by decide) rfl rfl).1⟩

/-- C7 counterexample: the claim says the blacklist comparison is
case-insensitive, so `"Vendor"` would be rejected; the source compares
with `strcmp` and accepts it — `extra_partition_register` adds `"Vendor"`
to the list even though the spec-modelled case-insensitive check
(`spec_blacklisted_ci`) flags it. -/
theorem extra_partition_register_case_cex :
    extra_part_blacklisted "Vendor" = false
    ∧ spec_blacklisted_ci "Vendor" = true
    ∧ (extra_partition_register ctx_init "Vendor").extra_parts = ["Vendor"]
    ∧ extra_part_blacklisted "vendor" = true :=
  ⟨rfl, rfl, rfl, rfl⟩

/-- C7 amended: registration rejects exactly the names whose trimmed form
is empty or whose first path segment (after leading `'/'`) byte-equals —
case-sensitively — a member of the fixed set; every other trimmed name is
appended, and nothing else in the context changes. -/
theorem extra_partition_register_characterisation (ctx : MagicMount) (s : String) :
    (extra_partition_register ctx s).extra_parts =
      (if str_trim s ≠ "" ∧ extra_blacklist.contains (first_segment (str_trim s)) = false
       then ctx.extra_parts ++ [str_trim s]
       else ctx.extra_parts)
    ∧ (extra_partition_register ctx s).failed_modules = ctx.failed_modules
    ∧ (extra_partition_register ctx s).stats = ctx.stats := by
  unfold extra_partition_register
  by_cases hs : s.isEmpty
  · have hb : s = "" := (String.isEmpty_iff s).mp hs
    subst hb
    simp [show ("" : String).isEmpty = true from rfl, show str_trim "" = "" from rfl]
  · rw [if_neg hs]
    by_cases ht : (str_trim s).isEmpty
    · have hb : str_trim s = "" := (String.isEmpty_iff _).mp ht
      simp [ht, hb, show ("" : String).isEmpty = true from rfl]
    · have hb : ¬ (str_trim s = "") := by
        intro h
        rw [h] at ht
        exact ht rfl
      rw [if_neg ht]
      rw [extra_part_blacklisted_eq]
      by_cases hbl : extra_blacklist.contains (first_segment (str_trim s)) = true
      · have hm := (contains_iff_mem _ _).mp hbl
        simp [hm]
      · have hm : first_segment (str_trim s) ∉ extra_blacklist := by
          intro hmem
          exact hbl ((contains_iff_mem _ _).mpr hmem)
        have hbl' : extra_blacklist.contains (first_segment (str_trim s)) = false := by
          cases hy : extra_blacklist.contains (first_segment (str_trim s))
          · rfl
          · exact absurd hy hbl
        simp [hbl', hb, hm]

/-- A regular node sourced from a module file (for the C5 scenarios). -/
def node_reg_c5 : Node :=
  .mk "x" .REGULAR (some "/data/adb/modules/m/system/x") none false false false []

/-- C5 counterexample: with a custom temp dir, the bind targets the
workdir (`has_tmpfs = true`, target `/custom/workdir/x`), yet
`markUnmountable` is invoked — the source decides by searching the target
for the substring `".magic_mount/workdir/"`, not by `hasTmpfs`. -/
theorem mm_apply_regular_file_tmpfs_ksu_cex :
    (mm_apply_regular_file env_triv ctx_init "/system/x" "/custom/workdir/x"
        node_reg_c5 true).2.1
      = [Ev.mkdirP "/custom/workdir", Ev.touch "/custom/workdir/x",
         Ev.bind "/data/adb/modules/m/system/x" "/custom/workdir/x",
         Ev.ksuSend "/system/x", Ev.remountRo "/custom/workdir/x"]
    ∧ (mm_apply_regular_file env_triv ctx_init "/system/x" "/custom/workdir/x"
        node_reg_c5 true).2.2 = none :=
  ⟨rfl, rfl⟩

/-- C5 amended: on a successful bind, `markUnmountable` (with the live
path as argument) is invoked exactly when unmountable-marking is enabled
and the bind target does not contain `".magic_mount/workdir/"` — whether
the target was the live path or the workdir is not itself consulted — and
the invocation always precedes the read-only remount. -/
theorem mm_apply_regular_file_trace (env : Env) (ctx : MagicMount)
    (path wpath mp par : String) (node : Node)
    (hmp : node.module_path = some mp) :
    (env.bindOk mp path = true →
      mm_apply_regular_file env ctx path wpath node false =
        ({ ctx with stats :=
            { ctx.stats with nodes_mounted := ctx.stats.nodes_mounted + 1 } },
         [Ev.bind mp path]
           ++ (if ¬ contains_substr path workdir_needle ∧ ctx.enable_unmountable
               then [Ev.ksuSend path] else [])
           ++ [Ev.remountRo path], none))
    ∧ (last_slash_parent wpath = some par → env.mkdirPOk par = true →
       env.touchOk wpath = true → env.bindOk mp wpath = true →
      mm_apply_regular_file env ctx path wpath node true =
        ({ ctx with stats :=
            { ctx.stats with nodes_mounted := ctx.stats.nodes_mounted + 1 } },
         [Ev.mkdirP par, Ev.touch wpath, Ev.bind mp wpath]
           ++ (if ¬ contains_substr wpath workdir_needle ∧ ctx.enable_unmountable
               then [Ev.ksuSend path] else [])
           ++ [Ev.remountRo wpath], none)) := by
  constructor
  · intro hbind
    unfold mm_apply_regular_file
    simp [hmp, hbind]
    split <;> simp
  · intro hpar hmk htc hbind
    unfold mm_apply_regular_file
    simp [hmp, hbind, hpar, hmk, htc]
    split <;> simp

/-- C5 witness: the no-tmpfs conjunct evaluated for a live bind of
`node_reg_c5` onto `/system/x`. -/
theorem mm_apply_regular_file_trace_witness :
    node_reg_c5.module_path = some "/data/adb/modules/m/system/x"
    ∧ env_triv.bindOk "/data/adb/modules/m/system/x" "/system/x" = true
    ∧ mm_apply_regular_file env_triv ctx_init "/system/x" "/w/x" node_reg_c5 false =
        ({ ctx_init with stats :=
            { ctx_init.stats with nodes_mounted := ctx_init.stats.nodes_mounted + 1 } },
         [Ev.bind "/data/adb/modules/m/system/x" "/system/x"]
           ++ (if ¬ contains_substr "/system/x" workdir_needle ∧ ctx_init.enable_unmountable
               then [Ev.ksuSend "/system/x"] else [])
           ++ [Ev.remountRo "/system/x"], none) :=
  ⟨rfl, rfl,
   (mm_apply_regular_file_trace env_triv ctx_init "/system/x" "/w/x"
     "/data/adb/modules/m/system/x" "" node_reg_c5 rfl).1 rfl⟩

/-- C1: failure semantics of the two child passes.  In both
`mm_process_remaining_children` (first conjunct, via its loop `prc_go`)
and `mm_process_dir_children` (second conjunct, via its loop `pdc_go`),
a child whose application raises an error is fed to `child_fail_handler`
— which increments `nodes_fail` and records the owning module (the
child's `module_name`, else the parent's, when one exists) via
`module_mark_failed` — and then: with `now_tmp = true` the error
propagates and the remaining children/entries are left unprocessed; with
`now_tmp = false` the error is absorbed and the walk continues with the
next child. -/
theorem mm_child_failure_semantics (env : Env) (fuel : Nat) (ctx ctxA : MagicMount)
    (path wpath e : String) (node c cA : Node) (rest : List Node)
    (entries : List String) (evsA : List Ev) (er : Err)
    (parentMN : Option String) (now_tmp : Bool) :
    (c.skip = false → c.done = false →
     mm_apply_node_recursive env fuel ctx path wpath c now_tmp = (ctxA, cA, evsA, some er) →
      prc_go env (fuel + 1) ctx path wpath parentMN (c :: rest) now_tmp =
        (if now_tmp then
          (child_fail_handler ctxA c.module_name parentMN, cA :: rest, evsA, some er)
         else
          (let r := prc_go env fuel (child_fail_handler ctxA c.module_name parentMN)
            path wpath parentMN rest now_tmp
           (r.1, cA :: r.2.1, evsA ++ r.2.2.1, r.2.2.2))))
    ∧ (e ≠ "." → e ≠ ".." →
       node_child_find node.children e = some c → c.skip = false →
       mm_apply_node_recursive env fuel ctx path wpath (c.setDone true) now_tmp
         = (ctxA, cA, evsA, some er) →
      pdc_go env (fuel + 1) ctx path wpath node (e :: entries) now_tmp =
        (if now_tmp then
          (child_fail_handler ctxA c.module_name node.module_name,
           node.withChildren (update_child node.children e cA), evsA, some er)
         else
          (let r := pdc_go env fuel (child_fail_handler ctxA c.module_name node.module_name)
            path wpath (node.withChildren (update_child node.children e cA)) entries now_tmp
           (r.1, r.2.1, evsA ++ r.2.2.1, r.2.2.2)))) := by
  constructor
  · intro hskip hdone happ
    conv_lhs => unfold prc_go
    simp only [hskip, hdone, happ]
    cases now_tmp <;> simp
  · intro hd1 hd2 hfind hskip happ
    conv_lhs => unfold pdc_go
    simp only [eq_false hd1, eq_false hd2, hfind, hskip, happ]
    cases now_tmp <;> simp

/-- A regular node without a `module_path` (whose application always
fails), owned by module `modZ` — used by the C1 witness. -/
def node_fail_c1 : Node := .mk "x" .REGULAR none (some "modZ") false false false []

/-- C1 witness: the fatal (`now_tmp = true`) branch of the first conjunct
evaluated at a concrete failing child. -/
theorem mm_child_failure_semantics_witness :
    node_fail_c1.skip = false
    ∧ node_fail_c1.done = false
    ∧ mm_apply_node_recursive env_triv 1 ctx_init "/a" "/w" node_fail_c1 true
        = (ctx_init, node_fail_c1, [Ev.mkdirP "/w", Ev.touch "/w/x"], some .invalidArgument)
    ∧ prc_go env_triv 2 ctx_init "/a" "/w" (some "modP") [node_fail_c1] true =
        (if true then
          (child_fail_handler ctx_init node_fail_c1.module_name (some "modP"),
           node_fail_c1 :: [], [Ev.mkdirP "/w", Ev.touch "/w/x"], some Err.invalidArgument)
         else
          (let r := prc_go env_triv 1
            (child_fail_handler ctx_init node_fail_c1.module_name (some "modP"))
            "/a" "/w" (some "modP") [] true
           (r.1, node_fail_c1 :: r.2.1, [Ev.mkdirP "/w", Ev.touch "/w/x"] ++ r.2.2.1,
            r.2.2.2))) :=
  ⟨rfl, rfl, rfl,
   (mm_child_failure_semantics env_triv 1 ctx_init ctx_init "/a" "/w" "e"
     node_fail_c1 node_fail_c1 node_fail_c1 [] [] [Ev.mkdirP "/w", Ev.touch "/w/x"]
     Err.invalidArgument (some "modP") true).1 rfl rfl rfl⟩

/-- C6: when `build_mount_tree` returns the no-content sentinel (`none`,
the C `NULL`), `magic_mount` performs no operation at all (empty event
trace — in particular no mount) and returns `0`; and in the concrete
empty-fleet scenario — the module root holds only `modA`, which has no
`system/` directory — the sentinel is indeed returned with
`modules_total = 0`. -/
theorem magic_mount_no_content (env : Env) (fuel : Nat) (ctx : MagicMount)
    (tmp_root : String)
    (hnone : (build_mount_tree env fuel ctx).2 = none) :
    (magic_mount env fuel ctx tmp_root
        = ((build_mount_tree env fuel ctx).1, [], .ok 0))
    ∧ (build_mount_tree (envOfFs fs_empty_fleet) 20 ctx_init).2 = none
    ∧ (build_mount_tree (envOfFs fs_empty_fleet) 20 ctx_init).1.stats.modules_total = 0
    ∧ (magic_mount (envOfFs fs_empty_fleet) 20 ctx_init "/mnt/t").2.1 = []
    ∧ (magic_mount (envOfFs fs_empty_fleet) 20 ctx_init "/mnt/t").2.2 = .ok 0
    ∧ (magic_mount (envOfFs fs_empty_fleet) 20 ctx_init "/mnt/t").1.stats.modules_total = 0 := by
  refine ⟨?_, by rfl, by rfl, by rfl, by rfl, by rfl⟩
  unfold magic_mount
  rcases hb : build_mount_tree env fuel ctx with ⟨c, r⟩
  rw [hb] at hnone
  simp only at hnone
  subst hnone
  simp [hb]

/-- C6 witness: the general implication instantiated at the empty-fleet
scenario. -/
theorem magic_mount_no_content_witness :
    (build_mount_tree (envOfFs fs_empty_fleet) 20 ctx_init).2 = none
    ∧ magic_mount (envOfFs fs_empty_fleet) 20 ctx_init "/mnt/t"
        = ((build_mount_tree (envOfFs fs_empty_fleet) 20 ctx_init).1, [], .ok 0) :=
  ⟨rfl,
   (magic_mount_no_content (envOfFs fs_empty_fleet) 20 ctx_init "/mnt/t" rfl).1⟩

/-- The tree `build_mount_tree` produces in the `fs_extra`/`ctx_extra`
scenario, written out literally (so the applier can be evaluated on it
directly). -/
def tree_extra : Node :=
  .mk "" .DIRECTORY none none false false false
    [.mk "mi_ext" .DIRECTORY none none false false false
      [.mk "x" .REGULAR (some "/data/adb/modules/modA/mi_ext/x") (some "modA")
        false false false []],
     .mk "system" .DIRECTORY none none false false false
      [.mk "f" .REGULAR (some "/data/adb/modules/modA/system/f") (some "modA")
        false false false []]]

/-- The context after building in the `fs_extra`/`ctx_extra` scenario. -/
def ctx_extra_built : MagicMount :=
  { module_dir := "/data/adb/modules", mount_source := "KSU",
    stats := { modules_total := 1, nodes_total := 4, nodes_mounted := 0,
               nodes_skipped := 0, nodes_whiteout := 0, nodes_fail := 0 },
    failed_modules := [], extra_parts := ["mi_ext"], enable_unmountable := true }

/-- In the `fs_extra`/`ctx_extra` scenario the builder yields `tree_extra`
with one module scanned and four nodes counted. -/
theorem build_extra_eval :
    build_mount_tree (envOfFs fs_extra) 20 ctx_extra = (ctx_extra_built, some tree_extra) := rfl

/-- Unfolding `magic_mount` through a successful workdir setup into the
root application. -/
theorem magic_mount_apply_eq (env : Env) (fuel : Nat) (ctx : MagicMount)
    (tmp_root td : String) (ctx₁ : MagicMount) (root : Node)
    (hb : build_mount_tree env fuel ctx = (ctx₁, some root))
    (htd : path_join tmp_root "workdir" = .ok td)
    (hmk : env.mkdirPOk td = true) (htm : env.tmpfsOk td = true) :
    magic_mount env fuel ctx tmp_root =
      (match mm_apply_node_recursive env fuel ctx₁ "/" td root false with
       | (ctxA, _, evsA, errA) =>
         match errA with
         | some _ =>
           ({ ctxA with stats :=
               { ctxA.stats with nodes_fail := ctxA.stats.nodes_fail + 1 } },
            [Ev.mkdirP td, Ev.tmpfsMount td, Ev.makePrivate td] ++ evsA
              ++ [Ev.umountDetach td, Ev.rmdirEv td], .ok (-1))
         | none =>
           (ctxA,
            [Ev.mkdirP td, Ev.tmpfsMount td, Ev.makePrivate td] ++ evsA
              ++ [Ev.umountDetach td, Ev.rmdirEv td], .ok 0)) := by
  unfold magic_mount
  rw [hb, htd]
  simp only [hmk, htm, if_true, Bool.not_true, if_false]
  rcases mm_apply_node_recursive env fuel ctx₁ "/" td root false with ⟨ctxA, nA, evsA, errA⟩
  cases errA <;> simp

/-- C2 counterexample: one module plus one extra partition with content.
The extra-partition directory node is created by `node_new` without
touching `nodes_total`, yet the applier counts it (and every directory) in
`nodes_mounted`, so after a fully successful `magic_mount` run
`nodes_mounted + nodes_whiteout + nodes_skipped + nodes_fail = 5` exceeds
`nodes_total = 4`. -/
theorem magic_mount_stats_bound_cex :
    (magic_mount (envOfFs fs_extra) 20 ctx_extra "/mnt/t").1.stats.nodes_mounted
      + (magic_mount (envOfFs fs_extra) 20 ctx_extra "/mnt/t").1.stats.nodes_whiteout
      + (magic_mount (envOfFs fs_extra) 20 ctx_extra "/mnt/t").1.stats.nodes_skipped
      + (magic_mount (envOfFs fs_extra) 20 ctx_extra "/mnt/t").1.stats.nodes_fail = 5
    ∧ (magic_mount (envOfFs fs_extra) 20 ctx_extra "/mnt/t").1.stats.nodes_total = 4
    ∧ ¬ ((magic_mount (envOfFs fs_extra) 20 ctx_extra "/mnt/t").1.stats.nodes_mounted
      + (magic_mount (envOfFs fs_extra) 20 ctx_extra "/mnt/t").1.stats.nodes_whiteout
      + (magic_mount (envOfFs fs_extra) 20 ctx_extra "/mnt/t").1.stats.nodes_skipped
      + (magic_mount (envOfFs fs_extra) 20 ctx_extra "/mnt/t").1.stats.nodes_fail
        ≤ (magic_mount (envOfFs fs_extra) 20 ctx_extra "/mnt/t").1.stats.nodes_total) := by
  have hmm := magic_mount_apply_eq (envOfFs fs_extra) 20 ctx_extra "/mnt/t"
    "/mnt/t/workdir" ctx_extra_built tree_extra build_extra_eval rfl rfl rfl
  have h5 : (magic_mount (envOfFs fs_extra) 20 ctx_extra "/mnt/t").1.stats.nodes_mounted
      + (magic_mount (envOfFs fs_extra) 20 ctx_extra "/mnt/t").1.stats.nodes_whiteout
      + (magic_mount (envOfFs fs_extra) 20 ctx_extra "/mnt/t").1.stats.nodes_skipped
      + (magic_mount (envOfFs fs_extra) 20 ctx_extra "/mnt/t").1.stats.nodes_fail = 5 := by
    rw [hmm]
    rfl
  have h4 : (magic_mount (envOfFs fs_extra) 20 ctx_extra "/mnt/t").1.stats.nodes_total = 4 := by
    rw [hmm]
    rfl
  refine ⟨h5, h4, ?_⟩
  rw [h5, h4]
  omega

/-- C3 counterexample: registering `mi_ext` twice (registration holds no
duplicate check) makes `build_mount_tree` attach two root children named
`mi_ext`, so the root's children names are not pairwise distinct. -/
theorem build_mount_tree_duplicate_root_children_cex :
    ctx_extra_dup.extra_parts = ["mi_ext", "mi_ext"]
    ∧ ((build_mount_tree (envOfFs fs_extra) 20 ctx_extra_dup).2.map
        (fun r => r.children.map Node.name)) = some ["mi_ext", "mi_ext", "system"]
    ∧ names_nodup ["mi_ext", "mi_ext", "system"] = false :=
  ⟨rfl, rfl, rfl⟩

/-! ## Counting infrastructure for the statistics bound -/

mutual

/-- Number of nodes in a tree. -/
def sizeN : Node → Nat
  | .mk _ _ _ _ _ _ _ cs => 1 + sizeL cs

/-- Number of nodes in a forest. -/
def sizeL : List Node → Nat
  | [] => 0
  | c :: rest => sizeN c + sizeL rest

end

mutual

/-- All `skip`/`done` flags at `n` and below are clear. -/
def clearN : Node → Bool
  | .mk _ _ _ _ _ s d cs => !s && !d && clearL cs

/-- All flags in the forest are clear. -/
def clearL : List Node → Bool
  | [] => true
  | c :: rest => clearN c && clearL rest

end

/-- The applier's budget contribution of one child: its size while it is
still eligible for application (neither `skip` nor `done`). -/
def availC (c : Node) : Nat :=
  if c.skip = false ∧ c.done = false then sizeN c else 0

/-- The applier's remaining budget over a children list. -/
def availL : List Node → Nat
  | [] => 0
  | c :: rest => availC c + availL rest

/-- The statistics the applier accumulates: one unit per visited node. -/
def consumedStats (ctx : MagicMount) : Nat :=
  ctx.stats.nodes_mounted + ctx.stats.nodes_whiteout
    + ctx.stats.nodes_skipped + ctx.stats.nodes_fail

/-- Eligible children still have fully clear subtrees. -/
def HC2 (cs : List Node) : Prop :=
  ∀ c ∈ cs, c.skip = false → c.done = false → clearL c.children = true

theorem sizeN_pos (n : Node) : 1 ≤ sizeN n := by
  cases n
  simp [sizeN]

theorem availC_le_sizeN (c : Node) : availC c ≤ sizeN c := by
  unfold availC
  split
  · exact le_refl _
  · exact Nat.zero_le _

theorem availL_le_sizeL (cs : List Node) : availL cs ≤ sizeL cs := by
  induction cs with
  | nil => simp [availL, sizeL]
  | cons c rest ih =>
    simp only [availL, sizeL]
    exact Nat.add_le_add (availC_le_sizeN c) ih

theorem node_child_find_name {cs : List Node} {e : String} {c : Node}
    (h : node_child_find cs e = some c) : c.name = e := by
  unfold node_child_find at h
  have := List.find?_some h
  simpa using this

theorem node_child_find_mem {cs : List Node} {e : String} {c : Node}
    (h : node_child_find cs e = some c) : c ∈ cs :=
  List.mem_of_find?_eq_some h

theorem update_child_avail {cs : List Node} {e : String} {c : Node} (c' : Node)
    (h : node_child_find cs e = some c) :
    availL (update_child cs e c') + availC c = availL cs + availC c' := by
  induction cs with
  | nil => simp [node_child_find] at h
  | cons d rest ih =>
    unfold node_child_find at h
    by_cases hd : d.name = e
    · rw [List.find?_cons_of_pos rest (by simp [hd])] at h
      simp only [Option.some.injEq] at h
      subst h
      unfold update_child
      rw [if_pos hd]
      simp only [availL]
      omega
    · rw [List.find?_cons_of_neg rest (by simp [hd])] at h
      have h' : node_child_find rest e = some c := h
      unfold update_child
      rw [if_neg hd]
      simp only [availL]
      have := ih h'
      omega

theorem update_child_sizeL {cs : List Node} {e : String} {c : Node} {c' : Node}
    (h : node_child_find cs e = some c) (hs : sizeN c' = sizeN c) :
    sizeL (update_child cs e c') = sizeL cs := by
  induction cs with
  | nil => simp [node_child_find] at h
  | cons d rest ih =>
    unfold node_child_find at h
    by_cases hd : d.name = e
    · rw [List.find?_cons_of_pos rest (by simp [hd])] at h
      simp only [Option.some.injEq] at h
      subst h
      unfold update_child
      rw [if_pos hd]
      simp only [sizeL]
      omega
    · rw [List.find?_cons_of_neg rest (by simp [hd])] at h
      unfold update_child
      rw [if_neg hd]
      simp only [sizeL]
      rw [ih h]

theorem update_child_find_ne {cs : List Node} {e e' : String} (c' : Node)
    (hne : e' ≠ e) (hcn : c'.name = e) :
    node_child_find (update_child cs e c') e' = node_child_find cs e' := by
  induction cs with
  | nil => simp [update_child]
  | cons d rest ih =>
    unfold update_child
    by_cases hd : d.name = e
    · rw [if_pos hd]
      unfold node_child_find
      rw [List.find?_cons_of_neg rest (by
        simp only [decide_eq_true_eq, hcn]
        intro hcc
        exact hne hcc.symm)]
      rw [List.find?_cons_of_neg rest (by
        simp only [decide_eq_true_eq, hd]
        intro hcc
        exact hne hcc.symm)]
    · rw [if_neg hd]
      unfold node_child_find
      by_cases hde : d.name = e'
      · rw [List.find?_cons_of_pos _ (by simp [hde]), List.find?_cons_of_pos _ (by simp [hde])]
      · rw [List.find?_cons_of_neg _ (by simp [hde]), List.find?_cons_of_neg _ (by simp [hde])]
        exact ih

theorem update_child_mem {cs : List Node} {e : String} {c' x : Node}
    (h : x ∈ update_child cs e c') : x ∈ cs ∨ x = c' := by
  induction cs with
  | nil => simp [update_child] at h
  | cons d rest ih =>
    unfold update_child at h
    by_cases hd : d.name = e
    · rw [if_pos hd] at h
      rcases List.mem_cons.mp h with h1 | h1
      · right; exact h1
      · left; exact List.mem_cons_of_mem _ h1
    · rw [if_neg hd] at h
      rcases List.mem_cons.mp h with h1 | h1
      · left; exact h1 ▸ List.mem_cons_self _ _
      · rcases ih h1 with h2 | h2
        · left; exact List.mem_cons_of_mem _ h2
        · right; exact h2

theorem HC2_update {cs : List Node} {e : String} {c' : Node}
    (h : HC2 cs) (hd : c'.done = true) : HC2 (update_child cs e c') := by
  intro x hx hs hdn
  rcases update_child_mem hx with h1 | h1
  · exact h x h1 hs hdn
  · subst h1
    rw [hd] at hdn
    exact absurd hdn (by simp)

theorem HC2_cons {c : Node} {rest : List Node} (h : HC2 (c :: rest)) : HC2 rest :=
  fun x hx => h x (List.mem_cons_of_mem _ hx)

theorem clearL_HC2 {cs : List Node} (h : clearL cs = true) : HC2 cs := by
  intro c hc _ _
  induction cs with
  | nil => simp at hc
  | cons d rest ih =>
    simp only [clearL, Bool.and_eq_true] at h
    rcases List.mem_cons.mp hc with h1 | h1
    · subst h1
      rcases h with ⟨hcn, _⟩
      cases c with
      | mk n t mp mn r s dn kids =>
        simp only [clearN, Bool.and_eq_true] at hcn
        exact hcn.2
    · exact ih h.2 h1

theorem clearL_flags {cs : List Node} (h : clearL cs = true) :
    ∀ c ∈ cs, c.done = false ∧ c.skip = false := by
  intro c hc
  induction cs with
  | nil => simp at hc
  | cons d rest ih =>
    simp only [clearL, Bool.and_eq_true] at h
    rcases List.mem_cons.mp hc with h1 | h1
    · subst h1
      cases c with
      | mk n t mp mn r s dn kids =>
        simp only [clearN, Bool.and_eq_true, Bool.not_eq_true'] at h
        exact ⟨h.1.1.2, h.1.1.1⟩
    · exact ih h.2 h1

theorem setSkip_fields (c : Node) (b : Bool) :
    (c.setSkip b).skip = b ∧ (c.setSkip b).done = c.done
    ∧ (c.setSkip b).name = c.name ∧ (c.setSkip b).children = c.children
    ∧ sizeN (c.setSkip b) = sizeN c := by
  cases c
  simp [Node.setSkip, Node.skip, Node.done, Node.name, Node.children, sizeN]

theorem setDone_fields (c : Node) (b : Bool) :
    (c.setDone b).done = b ∧ (c.setDone b).skip = c.skip
    ∧ (c.setDone b).name = c.name ∧ (c.setDone b).children = c.children
    ∧ sizeN (c.setDone b) = sizeN c := by
  cases c
  simp [Node.setDone, Node.skip, Node.done, Node.name, Node.children, sizeN]

theorem withChildren_fields (n : Node) (cs : List Node) :
    (n.withChildren cs).name = n.name ∧ (n.withChildren cs).skip = n.skip
    ∧ (n.withChildren cs).done = n.done ∧ (n.withChildren cs).children = cs
    ∧ sizeN (n.withChildren cs) = 1 + sizeL cs := by
  cases n
  simp [Node.withChildren, Node.name, Node.skip, Node.done, Node.children, sizeN]

/-- One unfolding step of `check_need_go` on a cons cell: the head child is
kept, marked `skip`, or the walk returns early leaving everything as is. -/
theorem check_need_go_cons (env : Env) (nodeMP : Option String) (path : String)
    (c : Node) (rest : List Node) :
    check_need_go env nodeMP path (c :: rest)
      = ((check_need_go env nodeMP path rest).1, c :: (check_need_go env nodeMP path rest).2)
    ∨ check_need_go env nodeMP path (c :: rest)
      = ((check_need_go env nodeMP path rest).1, c.setSkip true :: (check_need_go env nodeMP path rest).2)
    ∨ check_need_go env nodeMP path (c :: rest) = (true, c :: rest) := by
  have hstep : check_need_go env nodeMP path (c :: rest) =
      (match path_join path c.name with
       | .error _ =>
         ((check_need_go env nodeMP path rest).1, c :: (check_need_go env nodeMP path rest).2)
       | .ok rp =>
         match (if c.ntype = .SYMLINK then some true
                else if c.ntype = .WHITEOUT then some (path_exists env rp)
                else match env.lstat rp with
                  | none => none
                  | some st =>
                    some (decide (node_type_from_stat st ≠ c.ntype
                      ∨ node_type_from_stat st = .SYMLINK))) with
         | none => ((check_need_go env nodeMP path rest).1, c :: (check_need_go env nodeMP path rest).2)
         | some need =>
           if need = true ∧ nodeMP = none then
             ((check_need_go env nodeMP path rest).1,
              c.setSkip true :: (check_need_go env nodeMP path rest).2)
           else if need = true then (true, c :: rest)
           else ((check_need_go env nodeMP path rest).1, c :: (check_need_go env nodeMP path rest).2)) := by
    rfl
  rw [hstep]
  rcases path_join path c.name with je | rp
  · left; rfl
  · split
    all_goals try split
    all_goals try split
    all_goals try split
    all_goals first
      | (left; rfl)
      | (right; left; rfl)
      | (right; right; rfl)

/-- `check_need_go` preserves forest size, keeps every `done` flag clear,
and leaves eligible children with clear subtrees. -/
theorem check_need_go_props (env : Env) (nodeMP : Option String) (path : String)
    (cs : List Node) (hclear : clearL cs = true) :
    sizeL (check_need_go env nodeMP path cs).2 = sizeL cs
    ∧ HC2 (check_need_go env nodeMP path cs).2
    ∧ (∀ c ∈ (check_need_go env nodeMP path cs).2, c.done = false) := by
  induction cs with
  | nil =>
    refine ⟨rfl, ?_, ?_⟩
    · intro c hc
      simp [check_need_go] at hc
    · intro c hc
      simp [check_need_go] at hc
  | cons c rest ih =>
    have hcl := hclear
    simp only [clearL, Bool.and_eq_true] at hcl
    obtain ⟨hcn, hrest⟩ := hcl
    have ihr := ih hrest
    have hcflags : c.skip = false ∧ c.done = false ∧ clearL c.children = true := by
      cases c with
      | mk n t mp mn r s dn kids =>
        simp only [clearN, Bool.and_eq_true, Bool.not_eq_true'] at hcn
        exact ⟨hcn.1.1, hcn.1.2, hcn.2⟩
    rcases check_need_go_cons env nodeMP path c rest with h | h | h <;> rw [h]
    · refine ⟨?_, ?_, ?_⟩
      · simp only [sizeL]
        rw [ihr.1]
      · intro x hx
        rcases List.mem_cons.mp hx with h1 | h1
        · subst h1
          intro _ _
          exact hcflags.2.2
        · exact ihr.2.1 x h1
      · intro x hx
        rcases List.mem_cons.mp hx with h1 | h1
        · subst h1
          exact hcflags.2.1
        · exact ihr.2.2 x h1
    · refine ⟨?_, ?_, ?_⟩
      · simp only [sizeL]
        rw [ihr.1, (setSkip_fields c true).2.2.2.2]
      · intro x hx
        rcases List.mem_cons.mp hx with h1 | h1
        · subst h1
          intro hs _
          rw [(setSkip_fields c true).1] at hs
          exact absurd hs (by simp)
        · exact ihr.2.1 x h1
      · intro x hx
        rcases List.mem_cons.mp hx with h1 | h1
        · subst h1
          rw [(setSkip_fields c true).2.1]
          exact hcflags.2.1
        · exact ihr.2.2 x h1
    · refine ⟨rfl, clearL_HC2 hclear, ?_⟩
      intro x hx
      exact (clearL_flags hclear x hx).1

/-- `mm_apply_regular_file` leaves `nodes_total` alone and accounts for at
most one visited node; on failure the context is untouched. -/
theorem mm_apply_regular_file_stats {env : Env} {ctx : MagicMount}
    {path wpath : String} {node : Node} {ht : Bool} {ctx' : MagicMount}
    {evs : List Ev} {err : Option Err}
    (h : mm_apply_regular_file env ctx path wpath node ht = (ctx', evs, err)) :
    ctx'.stats.nodes_total = ctx.stats.nodes_total
    ∧ consumedStats ctx' + (if err = none then 0 else 1) ≤ consumedStats ctx + 1 := by
  unfold mm_apply_regular_file at h
  repeat' split at h
  all_goals try (dsimp only [] at h)
  all_goals try (repeat' split at h)
  all_goals
    (injection h with h1 h23
     injection h23 with h2 h3
     subst h1
     subst h3
     simp [consumedStats]
     try omega)

/-- `mm_apply_symlink` leaves `nodes_total` alone and accounts for at most
one visited node; on failure the context is untouched. -/
theorem mm_apply_symlink_stats {env : Env} {ctx : MagicMount}
    {path wpath : String} {node : Node} {ctx' : MagicMount} {evs : List Ev}
    {err : Option Err}
    (h : mm_apply_symlink env ctx path wpath node = (ctx', evs, err)) :
    ctx'.stats.nodes_total = ctx.stats.nodes_total
    ∧ consumedStats ctx' + (if err = none then 0 else 1) ≤ consumedStats ctx + 1 := by
  unfold mm_apply_symlink at h
  repeat' split at h
  all_goals
    (injection h with h1 h23
     injection h23 with h2 h3
     subst h1
     subst h3
     simp [consumedStats]
     try omega)

/-- `child_fail_handler` adds exactly one failure and preserves
`nodes_total`. -/
theorem child_fail_handler_stats (ctx : MagicMount) (cmn pmn : Option String) :
    (child_fail_handler ctx cmn pmn).stats.nodes_total = ctx.stats.nodes_total
    ∧ consumedStats (child_fail_handler ctx cmn pmn) = consumedStats ctx + 1 := by
  unfold child_fail_handler module_mark_failed
  repeat' split
  all_goals simp [consumedStats]
  all_goals omega
/-! ### The applier's statistics budget

Each `P*` predicate states, for one function of the applier's mutual
block at a given fuel, that `nodes_total` is preserved and that the
visited-node counters (`consumedStats`) grow by at most the size of the
subtree handed to it (`availL`, the sizes of children still eligible).
`apply_consumed_bound` proves all six by one induction on fuel. -/

theorem sizeN_eq (n : Node) : sizeN n = 1 + sizeL n.children := by
  cases n
  rfl

/-- Budget statement for `mm_apply_node_recursive`. -/
def PA (env : Env) (fuel : Nat) : Prop :=
  ∀ ctx base wbase node ht ctx' node' evs err,
    clearL node.children = true →
    mm_apply_node_recursive env fuel ctx base wbase node ht = (ctx', node', evs, err) →
    ctx'.stats.nodes_total = ctx.stats.nodes_total
    ∧ consumedStats ctx' + (if err = none then 0 else 1)
        ≤ consumedStats ctx + sizeN node
    ∧ sizeN node' = sizeN node
    ∧ node'.name = node.name ∧ node'.skip = node.skip ∧ node'.done = node.done

/-- Budget statement for `mm_apply_dir`. -/
def PD (env : Env) (fuel : Nat) : Prop :=
  ∀ ctx path wpath node ht ctx' node' evs err,
    clearL node.children = true →
    mm_apply_dir env fuel ctx path wpath node ht = (ctx', node', evs, err) →
    ctx'.stats.nodes_total = ctx.stats.nodes_total
    ∧ consumedStats ctx' + (if err = none then 0 else 1)
        ≤ consumedStats ctx + sizeN node
    ∧ sizeN node' = sizeN node
    ∧ node'.name = node.name ∧ node'.skip = node.skip ∧ node'.done = node.done

/-- Budget statement for `mm_process_dir_children`. -/
def PW1 (env : Env) (fuel : Nat) : Prop :=
  ∀ ctx path wpath node nt ctx' node' evs err,
    HC2 node.children → (∀ c ∈ node.children, c.done = false) →
    mm_process_dir_children env fuel ctx path wpath node nt = (ctx', node', evs, err) →
    ctx'.stats.nodes_total = ctx.stats.nodes_total
    ∧ consumedStats ctx' + availL node'.children
        ≤ consumedStats ctx + availL node.children
    ∧ sizeL node'.children = sizeL node.children
    ∧ HC2 node'.children
    ∧ node'.name = node.name ∧ node'.skip = node.skip ∧ node'.done = node.done

/-- Budget statement for `pdc_go`. -/
def PG1 (env : Env) (fuel : Nat) : Prop :=
  ∀ ctx path wpath node entries nt ctx' node' evs err,
    entries.Nodup →
    HC2 node.children →
    (∀ e ∈ entries, ∀ c, node_child_find node.children e = some c → c.done = false) →
    pdc_go env fuel ctx path wpath node entries nt = (ctx', node', evs, err) →
    ctx'.stats.nodes_total = ctx.stats.nodes_total
    ∧ consumedStats ctx' + availL node'.children
        ≤ consumedStats ctx + availL node.children
    ∧ sizeL node'.children = sizeL node.children
    ∧ HC2 node'.children
    ∧ node'.name = node.name ∧ node'.skip = node.skip ∧ node'.done = node.done

/-- Budget statement for `mm_process_remaining_children`. -/
def PW2 (env : Env) (fuel : Nat) : Prop :=
  ∀ ctx path wpath node nt ctx' node' evs err,
    HC2 node.children →
    mm_process_remaining_children env fuel ctx path wpath node nt = (ctx', node', evs, err) →
    ctx'.stats.nodes_total = ctx.stats.nodes_total
    ∧ consumedStats ctx' ≤ consumedStats ctx + availL node.children
    ∧ sizeL node'.children = sizeL node.children
    ∧ node'.name = node.name ∧ node'.skip = node.skip ∧ node'.done = node.done

/-- Budget statement for `prc_go`. -/
def PG2 (env : Env) (fuel : Nat) : Prop :=
  ∀ ctx path wpath pmn cs nt ctx' cs' evs err,
    HC2 cs →
    prc_go env fuel ctx path wpath pmn cs nt = (ctx', cs', evs, err) →
    ctx'.stats.nodes_total = ctx.stats.nodes_total
    ∧ consumedStats ctx' ≤ consumedStats ctx + availL cs
    ∧ sizeL cs' = sizeL cs

/-- Fuel step for `prc_go`: one pass over a children list. -/
theorem prc_go_step (env : Env) (n : Nat) (ihA : PA env n) (ihG : PG2 env n) :
    PG2 env (n+1) := by
  intro ctx path wpath pmn cs nt ctx' cs' evs err hhc h
  unfold prc_go at h
  rcases cs with _ | ⟨c, rest⟩
  · dsimp only [] at h
    injection h with h1 h2
    injection h2 with h2 h3
    injection h3 with h3 h4
    subst h1; subst h2
    exact ⟨rfl, Nat.le_add_right _ _, rfl⟩
  · dsimp only [] at h
    split at h
    · -- skip or done: recurse on rest
      rcases hr : prc_go env n ctx path wpath pmn rest nt with ⟨ctx1, rest1, evs1, err1⟩
      rw [hr] at h
      dsimp only [] at h
      obtain ⟨r1, r2, r3⟩ := ihG ctx path wpath pmn rest nt ctx1 rest1 evs1 err1 (HC2_cons hhc) hr
      injection h with h1 h2
      injection h2 with h2 h3
      injection h3 with h3 h4
      subst h1; subst h2
      refine ⟨r1, ?_, ?_⟩
      · simp only [availL]
        omega
      · simp only [sizeL]
        omega
    · -- eligible child: apply it
      rename_i hsd
      simp only [not_or, Bool.not_eq_true] at hsd
      obtain ⟨hskip, hdone⟩ := hsd
      have hclear : clearL c.children = true :=
        hhc c (List.mem_cons_self _ _) hskip hdone
      have hav : availC c = sizeN c := by simp [availC, hskip, hdone]
      rcases hA : mm_apply_node_recursive env n ctx path wpath c nt with ⟨ctxA, cA, evsA, errA⟩
      rw [hA] at h
      dsimp only [] at h
      rcases errA with _ | er
      · -- errA = none
        obtain ⟨a1, a2, a3, a4, a5, a6⟩ :=
          ihA ctx path wpath c nt ctxA cA evsA none hclear hA
        simp only [if_pos rfl] at a2
        dsimp only [] at h
        rcases hr : prc_go env n ctxA path wpath pmn rest nt with ⟨ctx2, rest2, evs2, err2⟩
        rw [hr] at h
        dsimp only [] at h
        obtain ⟨r1, r2, r3⟩ := ihG ctxA path wpath pmn rest nt ctx2 rest2 evs2 err2 (HC2_cons hhc) hr
        injection h with h1 h2
        injection h2 with h2 h3
        injection h3 with h3 h4
        subst h1; subst h2
        refine ⟨r1.trans a1, ?_, ?_⟩
        · simp only [availL]
          omega
        · simp only [sizeL]
          omega
      · -- errA = some er
        obtain ⟨a1, a2, a3, a4, a5, a6⟩ :=
          ihA ctx path wpath c nt ctxA cA evsA (some er) hclear hA
        rw [if_neg (by simp)] at a2
        have hf := child_fail_handler_stats ctxA c.module_name pmn
        dsimp only [] at h
        split at h
        · -- nt = true : stop
          injection h with h1 h2
          injection h2 with h2 h3
          injection h3 with h3 h4
          subst h1; subst h2
          refine ⟨hf.1.trans a1, ?_, ?_⟩
          · simp only [availL]
            omega
          · simp only [sizeL]
            omega
        · -- nt = false : continue from ctxF
          rcases hr : prc_go env n (child_fail_handler ctxA c.module_name pmn)
              path wpath pmn rest nt with ⟨ctx2, rest2, evs2, err2⟩
          rw [hr] at h
          dsimp only [] at h
          obtain ⟨r1, r2, r3⟩ :=
            ihG (child_fail_handler ctxA c.module_name pmn) path wpath pmn rest nt
              ctx2 rest2 evs2 err2 (HC2_cons hhc) hr
          injection h with h1 h2
          injection h2 with h2 h3
          injection h3 with h3 h4
          subst h1; subst h2
          refine ⟨(r1.trans hf.1).trans a1, ?_, ?_⟩
          · simp only [availL]
            omega
          · simp only [sizeL]
            omega

/-- Fuel step for `pdc_go`: one pass over the live entries. -/
theorem pdc_go_step (env : Env) (n : Nat) (ihA : PA env n) (ihG : PG1 env n) :
    PG1 env (n+1) := by
  intro ctx path wpath node entries nt ctx' node' evs err hnd hhc hfind h
  unfold pdc_go at h
  rcases entries with _ | ⟨e, rest⟩
  · dsimp only [] at h
    injection h with h1 h2
    injection h2 with h2 h3
    injection h3 with h3 h4
    subst h1; subst h2
    exact ⟨rfl, le_refl _, rfl, hhc, rfl, rfl, rfl⟩
  · obtain ⟨hnm, hndr⟩ := List.nodup_cons.mp hnd
    have hfr : ∀ e' ∈ rest, ∀ c, node_child_find node.children e' = some c →
        c.done = false :=
      fun e' he' => hfind e' (List.mem_cons_of_mem _ he')
    dsimp only [] at h
    split at h
    · -- e is "." or ".."
      exact ihG ctx path wpath node rest nt ctx' node' evs err hndr hhc hfr h
    · rcases hfnd : node_child_find node.children e with _ | c
      · rw [hfnd] at h
        dsimp only [] at h
        split at h
        · -- mirror then recurse
          rcases hr : pdc_go env n ctx path wpath node rest nt with ⟨ctx1, node1, evs1, err1⟩
          rw [hr] at h
          dsimp only [] at h
          obtain ⟨r1, r2, r3, r4, r5, r6, r7⟩ :=
            ihG ctx path wpath node rest nt ctx1 node1 evs1 err1 hndr hhc hfr hr
          injection h with h1 h2
          injection h2 with h2 h3
          injection h3 with h3 h4
          subst h1; subst h2
          exact ⟨r1, r2, r3, r4, r5, r6, r7⟩
        · exact ihG ctx path wpath node rest nt ctx' node' evs err hndr hhc hfr h
      · rw [hfnd] at h
        dsimp only [] at h
        have hcname : c.name = e := node_child_find_name hfnd
        have hcdone : c.done = false := hfind e (List.mem_cons_self _ _) c hfnd
        have hcmem : c ∈ node.children := node_child_find_mem hfnd
        split at h
        · -- c.skip = true: mark done, recurse
          rename_i hskip
          set node1 := node.withChildren (update_child node.children e (c.setDone true)) with hn1
          have hch1 : node1.children = update_child node.children e (c.setDone true) :=
            (withChildren_fields node _).2.2.2.1
          have hdon : (c.setDone true).done = true := (setDone_fields c true).1
          have hhc1 : HC2 node1.children := by
            rw [hch1]; exact HC2_update hhc hdon
          have hfind1 : ∀ e' ∈ rest, ∀ c'', node_child_find node1.children e' = some c'' →
              c''.done = false := by
            intro e' he' c'' hc''
            rw [hch1] at hc''
            have hne : e' ≠ e := by intro hEq; subst hEq; exact hnm he'
            rw [update_child_find_ne (c.setDone true) hne
              ((setDone_fields c true).2.2.1.trans hcname)] at hc''
            exact hfr e' he' c'' hc''
          obtain ⟨r1, r2, r3, r4, r5, r6, r7⟩ :=
            ihG ctx path wpath node1 rest nt ctx' node' evs err hndr hhc1 hfind1 h
          have hava : availL (update_child node.children e (c.setDone true)) + availC c
              = availL node.children + availC (c.setDone true) :=
            update_child_avail _ hfnd
          have hava0 : availC (c.setDone true) = 0 := by
            simp [availC, hdon]
          have hsza : sizeL (update_child node.children e (c.setDone true))
              = sizeL node.children :=
            update_child_sizeL hfnd (setDone_fields c true).2.2.2.2
          rw [hch1] at r2 r3
          refine ⟨r1, by omega, by omega, r4, ?_, ?_, ?_⟩
          · exact r5.trans (withChildren_fields node _).1
          · exact r6.trans (withChildren_fields node _).2.1
          · exact r7.trans (withChildren_fields node _).2.2.1
        · -- eligible: apply the child
          rename_i hskip
          rw [Bool.not_eq_true] at hskip
          have hclear : clearL (c.setDone true).children = true := by
            rw [(setDone_fields c true).2.2.2.1]
            exact hhc c hcmem hskip hcdone
          have hav : availC c = sizeN c := by simp [availC, hskip, hcdone]
          rcases hA : mm_apply_node_recursive env n ctx path wpath (c.setDone true) nt
            with ⟨ctxA, cA, evsA, errA⟩
          rw [hA] at h
          dsimp only [] at h
          obtain ⟨a1, a2, a3, a4, a5, a6⟩ :=
            ihA ctx path wpath (c.setDone true) nt ctxA cA evsA errA hclear hA
          have hszc : sizeN cA = sizeN c := a3.trans (setDone_fields c true).2.2.2.2
          have hsd2 : sizeN (c.setDone true) = sizeN c := (setDone_fields c true).2.2.2.2
          have hcAdone : cA.done = true := a6.trans (setDone_fields c true).1
          have hcAname : cA.name = e :=
            (a4.trans (setDone_fields c true).2.2.1).trans hcname
          set node1 := node.withChildren (update_child node.children e cA) with hn1
          have hch1 : node1.children = update_child node.children e cA :=
            (withChildren_fields node _).2.2.2.1
          have hhc1 : HC2 node1.children := by
            rw [hch1]; exact HC2_update hhc hcAdone
          have hfind1 : ∀ e' ∈ rest, ∀ c'', node_child_find node1.children e' = some c'' →
              c''.done = false := by
            intro e' he' c'' hc''
            rw [hch1] at hc''
            have hne : e' ≠ e := by intro hEq; subst hEq; exact hnm he'
            rw [update_child_find_ne cA hne hcAname] at hc''
            exact hfr e' he' c'' hc''
          have hava : availL (update_child node.children e cA) + availC c
              = availL node.children + availC cA :=
            update_child_avail _ hfnd
          have hava0 : availC cA = 0 := by simp [availC, hcAdone]
          have hsza : sizeL (update_child node.children e cA) = sizeL node.children :=
            update_child_sizeL hfnd hszc
          rcases errA with _ | er
          · -- child succeeded
            simp only [if_pos rfl] at a2
            rcases hr : pdc_go env n ctxA path wpath node1 rest nt
              with ⟨ctx2, node2, evs2, err2⟩
            rw [hr] at h
            dsimp only [] at h
            obtain ⟨r1, r2, r3, r4, r5, r6, r7⟩ :=
              ihG ctxA path wpath node1 rest nt ctx2 node2 evs2 err2 hndr hhc1 hfind1 hr
            injection h with h1 h2
            injection h2 with h2 h3
            injection h3 with h3 h4
            subst h1; subst h2
            rw [hch1] at r2 r3
            refine ⟨r1.trans a1, by omega, by omega, r4, ?_, ?_, ?_⟩
            · exact r5.trans (withChildren_fields node _).1
            · exact r6.trans (withChildren_fields node _).2.1
            · exact r7.trans (withChildren_fields node _).2.2.1
          · -- child failed
            rw [if_neg (by simp)] at a2
            have hf := child_fail_handler_stats ctxA c.module_name node.module_name
            dsimp only [] at h
            split at h
            · -- tmpfs mode: stop with the error
              injection h with h1 h2
              injection h2 with h2 h3
              injection h3 with h3 h4
              subst h1; subst h2
              refine ⟨hf.1.trans a1, ?_, ?_, hhc1, ?_, ?_, ?_⟩
              · rw [hch1]; omega
              · rw [hch1]; exact hsza
              · exact (withChildren_fields node _).1
              · exact (withChildren_fields node _).2.1
              · exact (withChildren_fields node _).2.2.1
            · -- continue from the handler context
              rcases hr : pdc_go env n
                  (child_fail_handler ctxA c.module_name node.module_name)
                  path wpath node1 rest nt with ⟨ctx2, node2, evs2, err2⟩
              rw [hr] at h
              dsimp only [] at h
              obtain ⟨r1, r2, r3, r4, r5, r6, r7⟩ :=
                ihG (child_fail_handler ctxA c.module_name node.module_name)
                  path wpath node1 rest nt ctx2 node2 evs2 err2 hndr hhc1 hfind1 hr
              injection h with h1 h2
              injection h2 with h2 h3
              injection h3 with h3 h4
              subst h1; subst h2
              rw [hch1] at r2 r3
              refine ⟨(r1.trans hf.1).trans a1, by omega, by omega, r4, ?_, ?_, ?_⟩
              · exact r5.trans (withChildren_fields node _).1
              · exact r6.trans (withChildren_fields node _).2.1
              · exact r7.trans (withChildren_fields node _).2.2.1

/-- Fuel step for `mm_process_remaining_children`. -/
theorem prc_step (env : Env) (n : Nat) (ihG : PG2 env n) : PW2 env (n+1) := by
  intro ctx path wpath node nt ctx' node' evs err hhc h
  unfold mm_process_remaining_children at h
  dsimp only [] at h
  rcases hr : prc_go env n ctx path wpath node.module_name node.children nt
    with ⟨ctx1, cs1, evs1, err1⟩
  rw [hr] at h
  dsimp only [] at h
  obtain ⟨r1, r2, r3⟩ := ihG ctx path wpath node.module_name node.children nt
    ctx1 cs1 evs1 err1 hhc hr
  injection h with h1 h2
  injection h2 with h2 h3
  injection h3 with h3 h4
  subst h1; subst h2
  refine ⟨r1, r2, ?_, ?_, ?_, ?_⟩
  · rw [(withChildren_fields node cs1).2.2.2.1]; exact r3
  · exact (withChildren_fields node cs1).1
  · exact (withChildren_fields node cs1).2.1
  · exact (withChildren_fields node cs1).2.2.1

/-- Fuel step for `mm_process_dir_children`. -/
theorem pdc_step (env : Env) (n : Nat)
    (hnodup : ∀ p l, env.listDir p = some l → l.Nodup)
    (ihG : PG1 env n) : PW1 env (n+1) := by
  intro ctx path wpath node nt ctx' node' evs err hhc hdone h
  unfold mm_process_dir_children at h
  try dsimp only [] at h
  split at h
  · injection h with h1 h2
    injection h2 with h2 h3
    injection h3 with h3 h4
    subst h1; subst h2
    exact ⟨rfl, le_refl _, rfl, hhc, rfl, rfl, rfl⟩
  · rcases hl : env.listDir path with _ | entries
    · rw [hl] at h
      dsimp only [] at h
      split at h
      all_goals
        (injection h with h1 h2
         injection h2 with h2 h3
         injection h3 with h3 h4
         subst h1; subst h2
         exact ⟨rfl, le_refl _, rfl, hhc, rfl, rfl, rfl⟩)
    · rw [hl] at h
      dsimp only [] at h
      exact ihG ctx path wpath node entries nt ctx' node' evs err
        (hnodup path entries hl) hhc
        (fun e _ c hc => hdone c (node_child_find_mem hc)) h

/-- Fuel step for `mm_apply_dir`. -/
theorem dir_step (env : Env) (n : Nat) (ihW1 : PW1 env n) (ihW2 : PW2 env n) :
    PD env (n+1) := by
  intro ctx path wpath node ht ctx' node' evs err hclear h
  unfold mm_apply_dir at h
  dsimp only [] at h
  simp only [mm_check_need_tmpfs] at h
  generalize hP : (if ¬ht = true ∧ ¬(!ht && node.replace && node.module_path.isSome) = true then
      ((check_need_go env node.module_path path node.children).1,
        node.withChildren (check_need_go env node.module_path path node.children).2)
    else (!ht && node.replace && node.module_path.isSome, node)) = pr at h
  obtain ⟨ct, node1⟩ := pr
  dsimp only [] at h
  have hprops : HC2 node1.children ∧ (∀ c ∈ node1.children, c.done = false)
      ∧ sizeL node1.children = sizeL node.children ∧ node1.name = node.name
      ∧ node1.skip = node.skip ∧ node1.done = node.done := by
    split at hP
    · injection hP with hp1 hp2
      obtain ⟨q1, q2, q3⟩ := check_need_go_props env node.module_path path node.children hclear
      subst hp2
      rw [(withChildren_fields node _).2.2.2.1]
      exact ⟨q2, q3, q1,
        (withChildren_fields node _).1, (withChildren_fields node _).2.1,
        (withChildren_fields node _).2.2.1⟩
    · injection hP with hp1 hp2
      subst hp2
      exact ⟨clearL_HC2 hclear, fun c hc => (clearL_flags hclear c hc).1, rfl, rfl, rfl, rfl⟩
  obtain ⟨hp1, hp2, hp3, hp4, hp5, hp6⟩ := hprops
  have hszn : sizeN node = 1 + sizeL node.children := sizeN_eq node
  have hsn1 : sizeN node1 = sizeN node := by
    rw [sizeN_eq node1, sizeN_eq node, hp3]
  have hv1 : availL node1.children ≤ sizeL node1.children := availL_le_sizeL _
  rcases hS : (if (ht || ct) = true then mm_setup_dir_tmpfs env path wpath node1
      else ([], none)) with ⟨evsS, oe⟩
  rw [hS] at h
  rcases oe with _ | e0
  · -- setup ok
    dsimp only [] at h
    split at h
    · -- self-bind failed
      injection h with h1 h2
      injection h2 with h2 h3
      injection h3 with h3 h4
      subst h1; subst h2; subst h4
      refine ⟨rfl, ?_, hsn1, hp4, hp5, hp6⟩
      rw [if_neg (by simp : ¬ (some Err.mountFailed = none))]
      omega
    · rcases hPD : mm_process_dir_children env n ctx path wpath node1 (ht || ct)
        with ⟨ctx2, node2, evs2, err2⟩
      rw [hPD] at h
      dsimp only [] at h
      obtain ⟨w1, w2, w3, w4, w5, w6, w7⟩ :=
        ihW1 ctx path wpath node1 (ht || ct) ctx2 node2 evs2 err2 hp1 hp2 hPD
      have hsz2 : sizeN node2 = sizeN node := by
        rw [sizeN_eq node2, w3, hp3, ← hszn]
      rcases err2 with _ | e2
      · dsimp only [] at h
        rcases hPR : mm_process_remaining_children env n ctx2 path wpath node2 (ht || ct)
          with ⟨ctx3, node3, evs3, err3⟩
        rw [hPR] at h
        dsimp only [] at h
        obtain ⟨v1, v2, v3, v4, v5, v6⟩ :=
          ihW2 ctx2 path wpath node2 (ht || ct) ctx3 node3 evs3 err3 w4 hPR
        have hsz3 : sizeN node3 = sizeN node := by
          rw [sizeN_eq node3, v3, w3, hp3, ← hszn]
        have hfields3 : node3.name = node.name ∧ node3.skip = node.skip
            ∧ node3.done = node.done :=
          ⟨(v4.trans w5).trans hp4, (v5.trans w6).trans hp5, (v6.trans w7).trans hp6⟩
        have hav2 : availL node2.children ≤ sizeL node.children := by
          have := availL_le_sizeL node2.children
          omega
        rcases err3 with _ | e3
        · dsimp only [] at h
          split at h
          · -- create_tmp: finalize
            split at h
            · -- move failed
              injection h with h1 h2
              injection h2 with h2 h3
              injection h3 with h3 h4
              subst h1; subst h2; subst h4
              refine ⟨v1.trans w1, ?_, hsz3, hfields3.1, hfields3.2.1, hfields3.2.2⟩
              rw [if_neg (by simp : ¬ (some Err.mountFailed = none))]
              simp only [consumedStats] at w2 v2 ⊢
              omega
            · -- success with mounted++
              injection h with h1 h2
              injection h2 with h2 h3
              injection h3 with h3 h4
              subst h1; subst h2; subst h4
              refine ⟨v1.trans w1, ?_, hsz3, hfields3.1, hfields3.2.1, hfields3.2.2⟩
              rw [show (if (none : Option Err) = none then 0 else 1) = 0 from rfl]
              simp only [consumedStats] at w2 v2 ⊢
              omega
          · -- no tmpfs: success with mounted++
            injection h with h1 h2
            injection h2 with h2 h3
            injection h3 with h3 h4
            subst h1; subst h2; subst h4
            refine ⟨v1.trans w1, ?_, hsz3, hfields3.1, hfields3.2.1, hfields3.2.2⟩
            rw [show (if (none : Option Err) = none then 0 else 1) = 0 from rfl]
            simp only [consumedStats] at w2 v2 ⊢
            omega
        · -- remaining-pass error
          dsimp only [] at h
          injection h with h1 h2
          injection h2 with h2 h3
          injection h3 with h3 h4
          subst h1; subst h2; subst h4
          refine ⟨v1.trans w1, ?_, hsz3, hfields3.1, hfields3.2.1, hfields3.2.2⟩
          rw [if_neg (by simp : ¬ (some e3 = none))]
          simp only [consumedStats] at w2 v2 ⊢
          omega
      · -- children-pass error
        dsimp only [] at h
        injection h with h1 h2
        injection h2 with h2 h3
        injection h3 with h3 h4
        subst h1; subst h2; subst h4
        refine ⟨w1, ?_, hsz2, (w5).trans hp4, (w6).trans hp5, (w7).trans hp6⟩
        rw [if_neg (by simp : ¬ (some e2 = none))]
        simp only [consumedStats] at w2 ⊢
        omega
  · -- setup failed
    dsimp only [] at h
    injection h with h1 h2
    injection h2 with h2 h3
    injection h3 with h3 h4
    subst h1; subst h2; subst h4
    refine ⟨rfl, ?_, hsn1, hp4, hp5, hp6⟩
    rw [if_neg (by simp : ¬ (some e0 = none))]
    omega

/-- Fuel step for `mm_apply_node_recursive`. -/
theorem apply_step (env : Env) (n : Nat) (ihD : PD env n) : PA env (n+1) := by
  intro ctx base wbase node ht ctx' node' evs err hclear h
  unfold mm_apply_node_recursive at h
  try dsimp only [] at h
  have hsp := sizeN_pos node
  rcases hj1 : path_join base node.name with e1 | p
  · rw [hj1] at h
    try dsimp only [] at h
    injection h with h1 h2
    injection h2 with h2 h3
    injection h3 with h3 h4
    subst h1; subst h2; subst h4
    refine ⟨rfl, ?_, rfl, rfl, rfl, rfl⟩
    rw [show (if (none : Option Err) = none then 0 else 1) = 0 from rfl]
    omega
  · rcases hj2 : path_join wbase node.name with e2 | q
    · rw [hj1, hj2] at h
      try dsimp only [] at h
      injection h with h1 h2
      injection h2 with h2 h3
      injection h3 with h3 h4
      subst h1; subst h2; subst h4
      refine ⟨rfl, ?_, rfl, rfl, rfl, rfl⟩
      rw [show (if (none : Option Err) = none then 0 else 1) = 0 from rfl]
      omega
    · rw [hj1, hj2] at h
      try dsimp only [] at h
      split at h
      · -- REGULAR
        rcases hR : mm_apply_regular_file env ctx p q node ht with ⟨ctxR, evsR, errR⟩
        rw [hR] at h
        dsimp only [] at h
        obtain ⟨s1, s2⟩ := mm_apply_regular_file_stats hR
        injection h with h1 h2
        injection h2 with h2 h3
        injection h3 with h3 h4
        subst h1; subst h2; subst h4
        exact ⟨s1, by omega, rfl, rfl, rfl, rfl⟩
      · -- SYMLINK
        rcases hR : mm_apply_symlink env ctx p q node with ⟨ctxR, evsR, errR⟩
        rw [hR] at h
        dsimp only [] at h
        obtain ⟨s1, s2⟩ := mm_apply_symlink_stats hR
        injection h with h1 h2
        injection h2 with h2 h3
        injection h3 with h3 h4
        subst h1; subst h2; subst h4
        exact ⟨s1, by omega, rfl, rfl, rfl, rfl⟩
      · -- WHITEOUT
        injection h with h1 h2
        injection h2 with h2 h3
        injection h3 with h3 h4
        subst h1; subst h2; subst h4
        refine ⟨rfl, ?_, rfl, rfl, rfl, rfl⟩
        rw [show (if (none : Option Err) = none then 0 else 1) = 0 from rfl]
        simp only [consumedStats]
        omega
      · -- DIRECTORY
        exact ihD ctx p q node ht ctx' node' evs err hclear h

/-- The applier's counting invariant, all six components at every fuel:
`nodes_total` never changes during application, and the visited-node
counters grow by at most the size of the subtree being applied (plus one
for a propagated error, charged to the erroring node). -/
theorem apply_consumed_bound (env : Env)
    (hnodup : ∀ p l, env.listDir p = some l → l.Nodup) :
    ∀ fuel : Nat, PA env fuel ∧ PD env fuel ∧ PW1 env fuel ∧ PG1 env fuel
      ∧ PW2 env fuel ∧ PG2 env fuel := by
  intro fuel
  induction fuel with
  | zero =>
    refine ⟨?_, ?_, ?_, ?_, ?_, ?_⟩
    · intro ctx base wbase node ht ctx' node' evs err _ h
      unfold mm_apply_node_recursive at h
      injection h with h1 h2
      injection h2 with h2 h3
      injection h3 with h3 h4
      subst h1; subst h2; subst h4
      refine ⟨rfl, ?_, rfl, rfl, rfl, rfl⟩
      rw [if_neg (by simp : ¬ (some Err.fuelOut = none))]
      have := sizeN_pos node
      omega
    · intro ctx path wpath node ht ctx' node' evs err _ h
      unfold mm_apply_dir at h
      injection h with h1 h2
      injection h2 with h2 h3
      injection h3 with h3 h4
      subst h1; subst h2; subst h4
      refine ⟨rfl, ?_, rfl, rfl, rfl, rfl⟩
      rw [if_neg (by simp : ¬ (some Err.fuelOut = none))]
      have := sizeN_pos node
      omega
    · intro ctx path wpath node nt ctx' node' evs err hhc _ h
      unfold mm_process_dir_children at h
      injection h with h1 h2
      injection h2 with h2 h3
      injection h3 with h3 h4
      subst h1; subst h2
      exact ⟨rfl, le_refl _, rfl, hhc, rfl, rfl, rfl⟩
    · intro ctx path wpath node entries nt ctx' node' evs err _ hhc _ h
      unfold pdc_go at h
      injection h with h1 h2
      injection h2 with h2 h3
      injection h3 with h3 h4
      subst h1; subst h2
      exact ⟨rfl, le_refl _, rfl, hhc, rfl, rfl, rfl⟩
    · intro ctx path wpath node nt ctx' node' evs err _ h
      unfold mm_process_remaining_children at h
      injection h with h1 h2
      injection h2 with h2 h3
      injection h3 with h3 h4
      subst h1; subst h2
      exact ⟨rfl, Nat.le_add_right _ _, rfl, rfl, rfl, rfl⟩
    · intro ctx path wpath pmn cs nt ctx' cs' evs err _ h
      unfold prc_go at h
      injection h with h1 h2
      injection h2 with h2 h3
      injection h3 with h3 h4
      subst h1; subst h2
      exact ⟨rfl, Nat.le_add_right _ _, rfl⟩
  | succ n ih =>
    obtain ⟨ihA, ihD, ihW1, ihG1, ihW2, ihG2⟩ := ih
    exact ⟨apply_step env n ihD, dir_step env n ihW1 ihW2,
      pdc_step env n hnodup ihG1, pdc_go_step env n ihA ihG1,
      prc_step env n ihG2, prc_go_step env n ihA ihG2⟩

/-! ## Name uniqueness and model-filesystem well-formedness lemmas -/

/-- The children names of a forest, in order. -/

def namesOfL : List Node → List String
  | [] => []
  | c :: rest => c.name :: namesOfL rest

mutual

def uniqN : Node → Bool
  | .mk _ _ _ _ _ _ _ cs => names_nodup (namesOfL cs) && uniqL cs

def uniqL : List Node → Bool
  | [] => true
  | c :: rest => uniqN c && uniqL rest

end

theorem names_nodup_iff (l : List String) : names_nodup l = true ↔ l.Nodup := by
  induction l with
  | nil => simp [names_nodup]
  | cons n rest ih =>
    simp only [names_nodup, Bool.and_eq_true, Bool.not_eq_true', List.nodup_cons]
    constructor
    · rintro ⟨h1, h2⟩
      refine ⟨?_, ih.mp h2⟩
      intro hmem
      rw [(contains_iff_mem rest n).mpr hmem] at h1
      exact absurd h1 (by simp)
    · rintro ⟨h1, h2⟩
      refine ⟨?_, ih.mpr h2⟩
      by_cases hc : rest.contains n = true
      · exact absurd ((contains_iff_mem rest n).mp hc) h1
      · simpa using hc

theorem fsWF_lookup {es : List (String × FsT)} {n : String} {t : FsT}
    (h : fs_lookup es n = some t) (hwf : fsWF_list es = true) : fsWF t = true := by
  induction es with
  | nil => simp [fs_lookup] at h
  | cons p rest ih =>
    obtain ⟨m, u⟩ := p
    simp only [fs_lookup] at h
    simp only [fsWF_list, Bool.and_eq_true] at hwf
    split at h
    · injection h with h1
      subst h1
      exact hwf.1
    · exact ih h hwf.2

theorem fsWF_walk : ∀ (comps : List String) (fs t : FsT),
    fs_walk fs comps = some t → fsWF fs = true → fsWF t = true := by
  intro comps
  induction comps with
  | nil =>
    intro fs t h hwf
    simp only [fs_walk, Option.some.injEq] at h
    subst h
    exact hwf
  | cons n rest ih =>
    intro fs t h hwf
    cases fs with
    | dirE es =>
      simp only [fs_walk] at h
      rcases hl : fs_lookup es n with _ | u
      · rw [hl] at h; exact absurd h (by simp)
      · rw [hl] at h
        simp only [fsWF, Bool.and_eq_true] at hwf
        exact ih u t h (fsWF_lookup hl hwf.2)
    | reg => simp [fs_walk] at h
    | sym tg => simp [fs_walk] at h
    | chr r => simp [fs_walk] at h
    | blk => simp [fs_walk] at h
    | fifo => simp [fs_walk] at h
    | sock => simp [fs_walk] at h

/-- A well-formed model filesystem lists every directory without duplicate
entry names. -/
theorem envOfFs_listdir_nodup (fs : FsT) (hwf : fsWF fs = true) :
    ∀ p l, (envOfFs fs).listDir p = some l → l.Nodup := by
  intro p l h
  simp only [envOfFs] at h
  rcases hr : fs_resolve fs p with _ | t
  · rw [hr] at h; exact absurd h (by simp)
  · rw [hr] at h
    cases t with
    | dirE es =>
      simp only [Option.some.injEq] at h
      subst h
      have hwt : fsWF (.dirE es) = true := fsWF_walk (path_comps p) fs _ hr hwf
      simp only [fsWF, Bool.and_eq_true] at hwt
      have := (names_nodup_iff _).mp hwt.1
      simpa using this
    | reg => exact absurd h (by simp)
    | sym tg => exact absurd h (by simp)
    | chr r => exact absurd h (by simp)
    | blk => exact absurd h (by simp)
    | fifo => exact absurd h (by simp)
    | sock => exact absurd h (by simp)

theorem clearN_withChildren (x : Node) (cs : List Node) :
    clearN (x.withChildren cs) = (!x.skip && !x.done && clearL cs) := by
  cases x
  rfl

theorem clearN_parts (x : Node) :
    clearN x = (!x.skip && !x.done && clearL x.children) := by
  cases x
  rfl

theorem uniqN_withChildren (x : Node) (cs : List Node) :
    uniqN (x.withChildren cs) = (names_nodup (namesOfL cs) && uniqL cs) := by
  cases x
  rfl

theorem uniqN_parts (x : Node) :
    uniqN x = (names_nodup (namesOfL x.children) && uniqL x.children) := by
  cases x
  rfl

theorem setModuleName_fields (x : Node) (m : Option String) :
    sizeN (x.setModuleName m) = sizeN x ∧ clearN (x.setModuleName m) = clearN x
    ∧ uniqN (x.setModuleName m) = uniqN x ∧ (x.setModuleName m).name = x.name := by
  cases x
  simp [Node.setModuleName, sizeN, clearN, uniqN, Node.name]

theorem update_child_size_swap {cs : List Node} {e : String} {c : Node} (c' : Node)
    (h : node_child_find cs e = some c) :
    sizeL (update_child cs e c') + sizeN c = sizeL cs + sizeN c' := by
  induction cs with
  | nil => simp [node_child_find] at h
  | cons d rest ih =>
    unfold node_child_find at h
    by_cases hd : d.name = e
    · rw [List.find?_cons_of_pos rest (by simp [hd])] at h
      simp only [Option.some.injEq] at h
      subst h
      unfold update_child
      rw [if_pos hd]
      simp only [sizeL]
      omega
    · rw [List.find?_cons_of_neg rest (by simp [hd])] at h
      unfold update_child
      rw [if_neg hd]
      simp only [sizeL]
      have := ih h
      omega

theorem clearL_update {cs : List Node} {e : String} {c' : Node}
    (h : clearL cs = true) (hc : clearN c' = true) :
    clearL (update_child cs e c') = true := by
  induction cs with
  | nil => exact h
  | cons d rest ih =>
    simp only [clearL, Bool.and_eq_true] at h
    unfold update_child
    by_cases hd : d.name = e
    · rw [if_pos hd]
      simp only [clearL, Bool.and_eq_true]
      exact ⟨hc, h.2⟩
    · rw [if_neg hd]
      simp only [clearL, Bool.and_eq_true]
      exact ⟨h.1, ih h.2⟩

theorem uniqL_update {cs : List Node} {e : String} {c' : Node}
    (h : uniqL cs = true) (hc : uniqN c' = true) :
    uniqL (update_child cs e c') = true := by
  induction cs with
  | nil => exact h
  | cons d rest ih =>
    simp only [uniqL, Bool.and_eq_true] at h
    unfold update_child
    by_cases hd : d.name = e
    · rw [if_pos hd]
      simp only [uniqL, Bool.and_eq_true]
      exact ⟨hc, h.2⟩
    · rw [if_neg hd]
      simp only [uniqL, Bool.and_eq_true]
      exact ⟨h.1, ih h.2⟩

theorem update_child_names {cs : List Node} {e : String} {c' : Node}
    (hn : c'.name = e) : namesOfL (update_child cs e c') = namesOfL cs := by
  induction cs with
  | nil => simp [update_child]
  | cons d rest ih =>
    unfold update_child
    by_cases hd : d.name = e
    · rw [if_pos hd]
      simp only [namesOfL]
      rw [hn, hd]
    · rw [if_neg hd]
      simp only [namesOfL]
      rw [ih]

theorem clearL_append (cs ds : List Node) :
    clearL (cs ++ ds) = (clearL cs && clearL ds) := by
  induction cs with
  | nil => simp [clearL]
  | cons c rest ih =>
    simp only [List.cons_append, clearL, List.append_eq, ih, Bool.and_assoc]

theorem uniqL_append (cs ds : List Node) :
    uniqL (cs ++ ds) = (uniqL cs && uniqL ds) := by
  induction cs with
  | nil => simp [uniqL]
  | cons c rest ih =>
    simp only [List.cons_append, uniqL, List.append_eq, ih, Bool.and_assoc]

theorem sizeL_append (cs ds : List Node) :
    sizeL (cs ++ ds) = sizeL cs + sizeL ds := by
  induction cs with
  | nil => simp [sizeL]
  | cons c rest ih =>
    simp only [List.cons_append, sizeL, List.append_eq, ih]
    omega

theorem namesOfL_append (cs ds : List Node) :
    namesOfL (cs ++ ds) = namesOfL cs ++ namesOfL ds := by
  induction cs with
  | nil => simp [namesOfL]
  | cons c rest ih =>
    simp only [List.cons_append, namesOfL, List.append_eq, ih]

theorem clearN_mem {cs : List Node} {c : Node}
    (h : clearL cs = true) (hm : c ∈ cs) : clearN c = true := by
  induction cs with
  | nil => simp at hm
  | cons d rest ih =>
    simp only [clearL, Bool.and_eq_true] at h
    rcases List.mem_cons.mp hm with h1 | h1
    · subst h1; exact h.1
    · exact ih h.2 h1

theorem uniqN_mem {cs : List Node} {c : Node}
    (h : uniqL cs = true) (hm : c ∈ cs) : uniqN c = true := by
  induction cs with
  | nil => simp at hm
  | cons d rest ih =>
    simp only [uniqL, Bool.and_eq_true] at h
    rcases List.mem_cons.mp hm with h1 | h1
    · subst h1; exact h.1
    · exact ih h.2 h1

theorem find_append_none {cs : List Node} {e : String} (n : Node)
    (h : node_child_find cs e = none) (hn : n.name = e) :
    node_child_find (cs ++ [n]) e = some n := by
  induction cs with
  | nil =>
    unfold node_child_find
    simp [List.find?, hn]
  | cons d rest ih =>
    unfold node_child_find at h ⊢
    by_cases hd : d.name = e
    · rw [List.find?_cons_of_pos rest (by simp [hd])] at h
      exact absurd h (by simp)
    · rw [List.find?_cons_of_neg rest (by simp [hd])] at h
      rw [List.cons_append, List.find?_cons_of_neg _ (by simp [hd])]
      exact ih h

theorem find_none_not_mem {cs : List Node} {e : String}
    (h : node_child_find cs e = none) : e ∉ namesOfL cs := by
  induction cs with
  | nil => simp [namesOfL]
  | cons d rest ih =>
    unfold node_child_find at h
    by_cases hd : d.name = e
    · rw [List.find?_cons_of_pos rest (by simp [hd])] at h
      exact absurd h (by simp)
    · rw [List.find?_cons_of_neg rest (by simp [hd])] at h
      simp only [namesOfL, List.mem_cons]
      rintro (h1 | h1)
      · exact hd h1.symm
      · exact ih h h1

theorem mem_namesOfL {cs : List Node} {c : Node} (hm : c ∈ cs) :
    c.name ∈ namesOfL cs := by
  induction cs with
  | nil => simp at hm
  | cons d rest ih =>
    rcases List.mem_cons.mp hm with h1 | h1
    · subst h1; simp [namesOfL]
    · simp only [namesOfL, List.mem_cons]
      exact Or.inr (ih h1)

/-- Full characterisation of a `node_child_detach` result. -/
theorem detach_spec : ∀ (cs : List Node) (nm : String) (r : Option Node)
    (rest : List Node), node_child_detach cs nm = (r, rest) →
    (r = none → rest = cs)
    ∧ (∀ c, r = some c →
        sizeL rest + sizeN c = sizeL cs
        ∧ c.name = nm
        ∧ (namesOfL rest).Sublist (namesOfL cs)
        ∧ (clearL cs = true → clearL rest = true ∧ clearN c = true)
        ∧ (uniqL cs = true → uniqL rest = true ∧ uniqN c = true)
        ∧ (names_nodup (namesOfL cs) = true → nm ∉ namesOfL rest)) := by
  intro cs
  induction cs with
  | nil =>
    intro nm r rest h
    unfold node_child_detach at h
    injection h with h1 h2
    subst h1; subst h2
    exact ⟨fun _ => rfl, fun c hc => absurd hc (by simp)⟩
  | cons d ds ih =>
    intro nm r rest h
    unfold node_child_detach at h
    by_cases hd : d.name = nm
    · rw [if_pos hd] at h
      injection h with h1 h2
      subst h1; subst h2
      refine ⟨fun hc => absurd hc (by simp), ?_⟩
      intro c hc
      injection hc with hc
      subst hc
      refine ⟨by simp only [sizeL]; omega, hd, ?_, ?_, ?_, ?_⟩
      · simp only [namesOfL]
        exact List.sublist_cons_self _ _
      · intro hcl
        simp only [clearL, Bool.and_eq_true] at hcl
        exact ⟨hcl.2, hcl.1⟩
      · intro hu
        simp only [uniqL, Bool.and_eq_true] at hu
        exact ⟨hu.2, hu.1⟩
      · intro hnn
        simp only [namesOfL, names_nodup, Bool.and_eq_true, Bool.not_eq_true'] at hnn
        intro hmem
        rw [(contains_iff_mem _ _).mpr (hd ▸ hmem)] at hnn
        exact absurd hnn.1 (by simp)
    · rw [if_neg hd] at h
      dsimp only [] at h
      rcases hrec : node_child_detach ds nm with ⟨r0, rest0⟩
      rw [hrec] at h
      dsimp only [] at h
      injection h with h1 h2
      subst h1; subst h2
      obtain ⟨ihn, ihs⟩ := ih nm r0 rest0 hrec
      constructor
      · intro hr0
        rw [ihn hr0]
      · intro c hc
        obtain ⟨s1, s2, s3, s4, s5, s6⟩ := ihs c hc
        refine ⟨by simp only [sizeL]; omega, s2, ?_, ?_, ?_, ?_⟩
        · simp only [namesOfL]
          exact s3.cons₂ _
        · intro hcl
          simp only [clearL, Bool.and_eq_true] at hcl
          obtain ⟨c1, c2⟩ := s4 hcl.2
          exact ⟨by simp only [clearL, Bool.and_eq_true]; exact ⟨hcl.1, c1⟩, c2⟩
        · intro hu
          simp only [uniqL, Bool.and_eq_true] at hu
          obtain ⟨u1, u2⟩ := s5 hu.2
          exact ⟨by simp only [uniqL, Bool.and_eq_true]; exact ⟨hu.1, u1⟩, u2⟩
        · intro hnn
          simp only [namesOfL, names_nodup, Bool.and_eq_true, Bool.not_eq_true'] at hnn
          have := s6 hnn.2
          simp only [namesOfL, List.mem_cons]
          rintro (h1 | h1)
          · exact hd h1.symm
          · exact this h1

/-- `node_child_find` success guarantees the detach also finds a child. -/
theorem find_detach_some {cs : List Node} {nm : String} {c : Node}
    (h : node_child_find cs nm = some c) :
    ∃ d rest, node_child_detach cs nm = (some d, rest) := by
  induction cs with
  | nil => simp [node_child_find] at h
  | cons x xs ih =>
    unfold node_child_find at h
    unfold node_child_detach
    by_cases hd : x.name = nm
    · rw [if_pos hd]
      exact ⟨x, xs, rfl⟩
    · rw [List.find?_cons_of_neg xs (by simp [hd])] at h
      rw [if_neg hd]
      obtain ⟨d, rest, hr⟩ := ih h
      rw [hr]
      exact ⟨d, x :: rest, rfl⟩

/-- Statistics effect of `node_create_from_fs`. -/
theorem node_create_stats {env : Env} {ctx : MagicMount} {name path : String}
    {mn : Option String} {ctx' : MagicMount} {r : Option Node}
    (h : node_create_from_fs env ctx name path mn = (ctx', r)) :
    (r = none → ctx' = ctx)
    ∧ (∀ nd, r = some nd →
        sizeN nd = 1 ∧ clearN nd = true ∧ uniqN nd = true ∧ nd.name = name
        ∧ ctx'.stats.nodes_total = ctx.stats.nodes_total + 1
        ∧ consumedStats ctx' = consumedStats ctx
        ∧ ctx'.extra_parts = ctx.extra_parts) := by
  unfold node_create_from_fs at h
  split at h
  · injection h with h1 h2
    subst h1; subst h2
    exact ⟨fun _ => rfl, fun nd hnd => absurd hnd (by simp)⟩
  · split at h
    · dsimp only [] at h
      injection h with h1 h2
      subst h1; subst h2
      refine ⟨fun hc => absurd hc (by simp), ?_⟩
      intro nd hnd
      injection hnd with hnd
      subst hnd
      exact ⟨rfl, rfl, rfl, rfl, rfl, by simp [consumedStats], rfl⟩
    · injection h with h1 h2
      subst h1; subst h2
      exact ⟨fun _ => rfl, fun nd hnd => absurd hnd (by simp)⟩

/-! ## Builder accounting: the scan functions -/

theorem names_nodup_append_single {l : List String} {x : String}
    (h : names_nodup l = true) (hx : x ∉ l) : names_nodup (l ++ [x]) = true := by
  rw [names_nodup_iff] at h ⊢
  simp [List.nodup_append, h, hx]

theorem withChildren_twice (x : Node) (cs ds : List Node) :
    (x.withChildren cs).withChildren ds = x.withChildren ds := by
  cases x
  rfl

/-- Accounting statement for `node_scan_dir` at one fuel value. -/
def QSD (env : Env) (fuel : Nat) : Prop :=
  ∀ ctx self dir mn ctx' self' a ok,
    node_scan_dir env fuel ctx self dir mn = (ctx', self', a, ok) →
    consumedStats ctx' = consumedStats ctx
    ∧ ctx'.extra_parts = ctx.extra_parts
    ∧ ctx.stats.nodes_total ≤ ctx'.stats.nodes_total
    ∧ sizeN self' + ctx.stats.nodes_total ≤ sizeN self + ctx'.stats.nodes_total
    ∧ self'.name = self.name
    ∧ (clearN self = true → clearN self' = true)
    ∧ (uniqN self = true → uniqN self' = true)

/-- Accounting statement for `node_scan_go` at one fuel value. -/
def QSG (env : Env) (fuel : Nat) : Prop :=
  ∀ ctx self dir mn entries any ctx' self' a ok,
    node_scan_go env fuel ctx self dir mn entries any = (ctx', self', a, ok) →
    consumedStats ctx' = consumedStats ctx
    ∧ ctx'.extra_parts = ctx.extra_parts
    ∧ ctx.stats.nodes_total ≤ ctx'.stats.nodes_total
    ∧ sizeN self' + ctx.stats.nodes_total ≤ sizeN self + ctx'.stats.nodes_total
    ∧ self'.name = self.name
    ∧ (clearN self = true → clearN self' = true)
    ∧ (uniqN self = true → uniqN self' = true)

theorem scan_dir_step (env : Env) (n : Nat) (ihG : QSG env n) : QSD env (n+1) := by
  intro ctx self dir mn ctx' self' a ok h
  unfold node_scan_dir at h
  rcases hl : env.listDir dir with _ | entries
  · rw [hl] at h
    try dsimp only [] at h
    injection h with h1 h2
    injection h2 with h2 h3
    injection h3 with h3 h4
    subst h1; subst h2
    exact ⟨rfl, rfl, le_refl _, le_refl _, rfl, fun x => x, fun x => x⟩
  · rw [hl] at h
    try dsimp only [] at h
    exact ihG ctx self dir mn entries false ctx' self' a ok h

theorem scan_go_step (env : Env) (n : Nat) (ihD : QSD env n) (ihG : QSG env n) :
    QSG env (n+1) := by
  intro ctx self dir mn entries any ctx' self' a ok h
  unfold node_scan_go at h
  rcases entries with _ | ⟨e, rest⟩
  · try dsimp only [] at h
    injection h with h1 h2
    injection h2 with h2 h3
    injection h3 with h3 h4
    subst h1; subst h2
    exact ⟨rfl, rfl, le_refl _, le_refl _, rfl, fun x => x, fun x => x⟩
  · try dsimp only [] at h
    split at h
    · -- "." or ".."
      exact ihG ctx self dir mn rest any ctx' self' a ok h
    · rcases hj : path_join dir e with je | path
      · rw [hj] at h
        try dsimp only [] at h
        injection h with h1 h2
        injection h2 with h2 h3
        injection h3 with h3 h4
        subst h1; subst h2
        exact ⟨rfl, rfl, le_refl _, le_refl _, rfl, fun x => x, fun x => x⟩
      · rw [hj] at h
        try dsimp only [] at h
        rcases hfound : node_child_find self.children e with _ | c
        · -- not present yet: try to create
          rw [hfound] at h
          try dsimp only [] at h
          rcases hcr : node_create_from_fs env ctx e path mn with ⟨ctxC, rC⟩
          rw [hcr] at h
          try dsimp only [] at h
          rcases rC with _ | nd
          · -- nothing created
            try dsimp only [] at h
            rw [(node_create_stats hcr).1 rfl] at h
            exact ihG ctx self dir mn rest any ctx' self' a ok h
          · -- created node nd, appended
            obtain ⟨n1, n2, n3, n4, n5, n6, n7⟩ := (node_create_stats hcr).2 nd rfl
            try dsimp only [] at h
            have hf1 : node_child_find (self.children ++ [nd]) e = some nd :=
              find_append_none nd hfound n4
            have hsz1 : sizeL (self.children ++ [nd]) = sizeL self.children + 1 := by
              rw [sizeL_append]
              simp only [sizeL]
              omega
            have hszS : sizeN (self.withChildren (self.children ++ [nd]))
                = sizeN self + 1 := by
              rw [(withChildren_fields self _).2.2.2.2, hsz1, sizeN_eq self]
              omega
            have hclS : clearN self = true →
                clearN (self.withChildren (self.children ++ [nd])) = true := by
              intro hc
              rw [clearN_parts self] at hc
              simp only [Bool.and_eq_true] at hc
              rw [clearN_withChildren, clearL_append]
              simp only [Bool.and_eq_true]
              exact ⟨⟨hc.1.1, hc.1.2⟩, hc.2, by simp [clearL, n2]⟩
            have hunS : uniqN self = true →
                uniqN (self.withChildren (self.children ++ [nd])) = true := by
              intro hu
              rw [uniqN_parts self] at hu
              simp only [Bool.and_eq_true] at hu
              rw [uniqN_withChildren, uniqL_append, namesOfL_append]
              simp only [Bool.and_eq_true]
              refine ⟨?_, hu.2, by simp [uniqL, n3]⟩
              have : namesOfL [nd] = [e] := by simp [namesOfL, n4]
              rw [this]
              exact names_nodup_append_single hu.1 (find_none_not_mem hfound)
            split at h
            · -- created a directory: recurse into it
              rw [(withChildren_fields self (self.children ++ [nd])).2.2.2.1,
                withChildren_twice] at h
              rcases hrec : node_scan_dir env n ctxC nd path mn with ⟨ctx2, nd2, sub2, ok2⟩
              rw [hrec] at h
              try dsimp only [] at h
              obtain ⟨d1, d2, d3, d4, d5, d6, d7⟩ :=
                ihD ctxC nd path mn ctx2 nd2 sub2 ok2 hrec
              have hndn : nd2.name = e := d5.trans n4
              have hupsz := update_child_size_swap nd2 hf1
              have hupn := @update_child_names (self.children ++ [nd]) e nd2 hndn
              have hsz2 : sizeN (self.withChildren
                  (update_child (self.children ++ [nd]) e nd2))
                  = 1 + sizeL (update_child (self.children ++ [nd]) e nd2) := by
                rw [sizeN_eq, (withChildren_fields self _).2.2.2.1]
              have hclS2 : clearN self = true → clearN nd2 = true →
                  clearN (self.withChildren
                    (update_child (self.children ++ [nd]) e nd2)) = true := by
                intro hc hcn
                rw [clearN_parts self] at hc
                simp only [Bool.and_eq_true] at hc
                rw [clearN_withChildren]
                simp only [Bool.and_eq_true]
                refine ⟨⟨hc.1.1, hc.1.2⟩, ?_⟩
                refine clearL_update ?_ hcn
                rw [clearL_append]
                simp only [Bool.and_eq_true]
                exact ⟨hc.2, by simp [clearL, n2]⟩
              have hunS2 : uniqN self = true → uniqN nd2 = true →
                  uniqN (self.withChildren
                    (update_child (self.children ++ [nd]) e nd2)) = true := by
                intro hu hun
                have hu1 := hunS hu
                rw [uniqN_withChildren] at hu1
                simp only [Bool.and_eq_true] at hu1
                rw [uniqN_withChildren]
                simp only [Bool.and_eq_true]
                exact ⟨by rw [hupn]; exact hu1.1, uniqL_update hu1.2 hun⟩
              split at h
              · -- the recursion succeeded: continue the walk
                rcases hrg : node_scan_go env n ctx2
                    (self.withChildren (update_child (self.children ++ [nd]) e nd2))
                    dir mn rest (any || (sub2 || nd.replace))
                  with ⟨ctx3, self3, a3, ok3⟩
                rw [hrg] at h
                try dsimp only [] at h
                obtain ⟨g1, g2, g3, g4, g5, g6, g7⟩ :=
                  ihG ctx2 _ dir mn rest _ ctx3 self3 a3 ok3 hrg
                injection h with h1 h2
                injection h2 with h2 h3
                injection h3 with h3 h4
                subst h1; subst h2
                refine ⟨(g1.trans d1).trans n6, (g2.trans d2).trans n7, by omega, ?_,
                  g5.trans (withChildren_fields self _).1,
                  fun hc => g6 (hclS2 hc (d6 (n2 ▸ rfl))),
                  fun hu => g7 (hunS2 hu (d7 (n3 ▸ rfl)))⟩
                rw [hsz2] at g4
                rw [sizeN_eq self]
                omega
              · -- the recursion failed: stop
                injection h with h1 h2
                injection h2 with h2 h3
                injection h3 with h3 h4
                subst h1; subst h2
                refine ⟨d1.trans n6, d2.trans n7, by omega, ?_,
                  (withChildren_fields self _).1,
                  fun hc => hclS2 hc (d6 (n2 ▸ rfl)),
                  fun hu => hunS2 hu (d7 (n3 ▸ rfl))⟩
                rw [hsz2, sizeN_eq self]
                omega
            · -- created a non-directory: continue
              exact
                let r := ihG ctxC _ dir mn rest true ctx' self' a ok h
                ⟨r.1.trans n6, r.2.1.trans n7, by have := r.2.2.1; omega, by
                    have := r.2.2.2.1
                    rw [hszS] at this
                    omega,
                  r.2.2.2.2.1.trans (withChildren_fields self _).1,
                  fun hc => r.2.2.2.2.2.1 (hclS hc),
                  fun hu => r.2.2.2.2.2.2 (hunS hu)⟩
        · -- existing child c
          rw [hfound] at h
          try dsimp only [] at h
          have hcm : c ∈ self.children := node_child_find_mem hfound
          have hcn : c.name = e := node_child_find_name hfound
          split at h
          · -- a directory child: recurse into it
            rcases hrec : node_scan_dir env n ctx c path mn with ⟨ctx2, c2, sub2, ok2⟩
            rw [hrec] at h
            try dsimp only [] at h
            obtain ⟨d1, d2, d3, d4, d5, d6, d7⟩ :=
              ihD ctx c path mn ctx2 c2 sub2 ok2 hrec
            have hndn : c2.name = e := d5.trans hcn
            have hupsz := update_child_size_swap c2 hfound
            have hupn := @update_child_names self.children e c2 hndn
            have hsz2 : sizeN (self.withChildren (update_child self.children e c2))
                = 1 + sizeL (update_child self.children e c2) := by
              rw [sizeN_eq, (withChildren_fields self _).2.2.2.1]
            have hclS2 : clearN self = true → clearN c2 = true →
                clearN (self.withChildren (update_child self.children e c2)) = true := by
              intro hc hcn2
              rw [clearN_parts self] at hc
              simp only [Bool.and_eq_true] at hc
              rw [clearN_withChildren]
              simp only [Bool.and_eq_true]
              exact ⟨⟨hc.1.1, hc.1.2⟩, clearL_update hc.2 hcn2⟩
            have hunS2 : uniqN self = true → uniqN c2 = true →
                uniqN (self.withChildren (update_child self.children e c2)) = true := by
              intro hu hun
              rw [uniqN_parts self] at hu
              simp only [Bool.and_eq_true] at hu
              rw [uniqN_withChildren]
              simp only [Bool.and_eq_true]
              exact ⟨by rw [hupn]; exact hu.1, uniqL_update hu.2 hun⟩
            have hclc : clearN self = true → clearN c = true := by
              intro hc
              rw [clearN_parts self] at hc
              simp only [Bool.and_eq_true] at hc
              exact clearN_mem hc.2 hcm
            have hunc : uniqN self = true → uniqN c = true := by
              intro hu
              rw [uniqN_parts self] at hu
              simp only [Bool.and_eq_true] at hu
              exact uniqN_mem hu.2 hcm
            split at h
            · rcases hrg : node_scan_go env n ctx2
                  (self.withChildren (update_child self.children e c2))
                  dir mn rest (any || (sub2 || c.replace))
                with ⟨ctx3, self3, a3, ok3⟩
              rw [hrg] at h
              try dsimp only [] at h
              obtain ⟨g1, g2, g3, g4, g5, g6, g7⟩ :=
                ihG ctx2 _ dir mn rest _ ctx3 self3 a3 ok3 hrg
              injection h with h1 h2
              injection h2 with h2 h3
              injection h3 with h3 h4
              subst h1; subst h2
              refine ⟨g1.trans d1, g2.trans d2, by omega, ?_,
                g5.trans (withChildren_fields self _).1,
                fun hc => g6 (hclS2 hc (d6 (hclc hc))),
                fun hu => g7 (hunS2 hu (d7 (hunc hu)))⟩
              rw [hsz2] at g4
              rw [sizeN_eq self]
              omega
            · injection h with h1 h2
              injection h2 with h2 h3
              injection h3 with h3 h4
              subst h1; subst h2
              refine ⟨d1, d2, by omega, ?_,
                (withChildren_fields self _).1,
                fun hc => hclS2 hc (d6 (hclc hc)),
                fun hu => hunS2 hu (d7 (hunc hu))⟩
              rw [hsz2, sizeN_eq self]
              omega
          · -- existing non-directory child: continue
            exact ihG ctx self dir mn rest true ctx' self' a ok h

/-- The scan functions count every node they attach in `nodes_total`, touch
no other counter, and preserve flag clarity and child-name uniqueness. -/
theorem scan_bound (env : Env) : ∀ fuel : Nat, QSD env fuel ∧ QSG env fuel := by
  intro fuel
  induction fuel with
  | zero =>
    constructor
    · intro ctx self dir mn ctx' self' a ok h
      unfold node_scan_dir at h
      injection h with h1 h2
      injection h2 with h2 h3
      injection h3 with h3 h4
      subst h1; subst h2
      exact ⟨rfl, rfl, le_refl _, le_refl _, rfl, fun x => x, fun x => x⟩
    · intro ctx self dir mn entries any ctx' self' a ok h
      unfold node_scan_go at h
      injection h with h1 h2
      injection h2 with h2 h3
      injection h3 with h3 h4
      subst h1; subst h2
      exact ⟨rfl, rfl, le_refl _, le_refl _, rfl, fun x => x, fun x => x⟩
  | succ n ih =>
    exact ⟨scan_dir_step env n ih.2, scan_go_step env n ih.1 ih.2⟩

/-! ## Builder accounting: partition scanning and symlink resolution -/

/-- Accounting for the extra-partition module loop `pscan_go` (fixed fuel,
structural recursion on the entry list). -/
theorem pscan_go_bound (env : Env) (fuel : Nat) (mdir part : String) :
    ∀ (entries : List String) (ctx : MagicMount) (parent : Node) (ha : Bool)
      (ctx' : MagicMount) (parent' : Node) (ret : PScanRet),
    pscan_go env fuel mdir part ctx parent entries ha = (ctx', parent', ret) →
    consumedStats ctx' = consumedStats ctx
    ∧ ctx'.extra_parts = ctx.extra_parts
    ∧ ctx.stats.nodes_total ≤ ctx'.stats.nodes_total
    ∧ sizeN parent' + ctx.stats.nodes_total ≤ sizeN parent + ctx'.stats.nodes_total
    ∧ parent'.name = parent.name
    ∧ (clearN parent = true → clearN parent' = true)
    ∧ (uniqN parent = true → uniqN parent' = true) := by
  intro entries
  induction entries with
  | nil =>
    intro ctx parent ha ctx' parent' ret h
    unfold pscan_go at h
    injection h with h1 h2
    injection h2 with h2 h3
    subst h1; subst h2
    exact ⟨rfl, rfl, le_refl _, le_refl _, rfl, fun x => x, fun x => x⟩
  | cons e rest ih =>
    intro ctx parent ha ctx' parent' ret h
    unfold pscan_go at h
    split at h
    · exact ih ctx parent ha ctx' parent' ret h
    · rcases hj : path_join mdir e with je | mod_path
      · rw [hj] at h
        try dsimp only [] at h
        exact ih ctx parent ha ctx' parent' ret h
      · rw [hj] at h
        try dsimp only [] at h
        split at h
        · split at h
          · exact ih ctx parent ha ctx' parent' ret h
          · rename_i part_path heq2
            split at h
            · rcases hsd : node_scan_dir env fuel ctx parent part_path (some e)
                with ⟨ctx1, parent1, sub1, ok1⟩
              rw [hsd] at h
              try dsimp only [] at h
              obtain ⟨d1, d2, d3, d4, d5, d6, d7⟩ :=
                (scan_bound env fuel).1 ctx parent part_path (some e)
                  ctx1 parent1 sub1 ok1 hsd
              split at h
              · obtain ⟨g1, g2, g3, g4, g5, g6, g7⟩ :=
                  ih ctx1 parent1 (ha || sub1) ctx' parent' ret h
                exact ⟨g1.trans d1, g2.trans d2, by omega, by omega,
                  g5.trans d5, fun hc => g6 (d6 hc), fun hu => g7 (d7 hu)⟩
              · injection h with h1 h2
                injection h2 with h2 h3
                subst h1; subst h2
                exact ⟨d1, d2, d3, d4, d5, d6, d7⟩
            · exact ih ctx parent ha ctx' parent' ret h
        · exact ih ctx parent ha ctx' parent' ret h

/-- Accounting for `partition_scan_from_modules`. -/
theorem partition_scan_bound (env : Env) (fuel : Nat) (ctx : MagicMount)
    (part : String) (parent : Node) (ctx' : MagicMount) (parent' : Node)
    (ret : PScanRet)
    (h : partition_scan_from_modules env fuel ctx part parent = (ctx', parent', ret)) :
    consumedStats ctx' = consumedStats ctx
    ∧ ctx'.extra_parts = ctx.extra_parts
    ∧ ctx.stats.nodes_total ≤ ctx'.stats.nodes_total
    ∧ sizeN parent' + ctx.stats.nodes_total ≤ sizeN parent + ctx'.stats.nodes_total
    ∧ parent'.name = parent.name
    ∧ (clearN parent = true → clearN parent' = true)
    ∧ (uniqN parent = true → uniqN parent' = true) := by
  unfold partition_scan_from_modules at h
  rcases hl : env.listDir ctx.module_dir with _ | entries
  · rw [hl] at h
    try dsimp only [] at h
    injection h with h1 h2
    injection h2 with h2 h3
    subst h1; subst h2
    exact ⟨rfl, rfl, le_refl _, le_refl _, rfl, fun x => x, fun x => x⟩
  · rw [hl] at h
    try dsimp only [] at h
    exact pscan_go_bound env fuel ctx.module_dir part entries ctx parent false
      ctx' parent' ret h

/-- Accounting for `symlink_resolve_partition`: the fresh partition node is
paid for by the dropped symlink child, so the size budget is preserved. -/
theorem resolve_partition_bound (env : Env) (fuel : Nat) (ctx : MagicMount)
    (system : Node) (part : String) (ctx' : MagicMount) (system' : Node)
    (h : symlink_resolve_partition env fuel ctx system part = (ctx', system')) :
    consumedStats ctx' = consumedStats ctx
    ∧ ctx'.extra_parts = ctx.extra_parts
    ∧ ctx.stats.nodes_total ≤ ctx'.stats.nodes_total
    ∧ sizeN system' + ctx.stats.nodes_total ≤ sizeN system + ctx'.stats.nodes_total
    ∧ system'.name = system.name
    ∧ (clearN system = true → clearN system' = true)
    ∧ (uniqN system = true → uniqN system' = true) := by
  unfold symlink_resolve_partition at h
  have triv : (ctx, system) = (ctx', system') →
      consumedStats ctx' = consumedStats ctx
      ∧ ctx'.extra_parts = ctx.extra_parts
      ∧ ctx.stats.nodes_total ≤ ctx'.stats.nodes_total
      ∧ sizeN system' + ctx.stats.nodes_total ≤ sizeN system + ctx'.stats.nodes_total
      ∧ system'.name = system.name
      ∧ (clearN system = true → clearN system' = true)
      ∧ (uniqN system = true → uniqN system' = true) := by
    intro hh
    injection hh with h1 h2
    subst h1; subst h2
    exact ⟨rfl, rfl, le_refl _, le_refl _, rfl, fun x => x, fun x => x⟩
  rcases hfnd : node_child_find system.children part with _ | sys_child
  · rw [hfnd] at h
    exact triv h
  · rw [hfnd] at h
    try dsimp only [] at h
    rcases hmp : sys_child.module_path with _ | mp
    · rw [hmp] at h
      exact triv h
    · rw [hmp] at h
      try dsimp only [] at h
      split at h
      · rcases hrl : env.readlink mp with _ | tgt
        · rw [hrl] at h
          exact triv h
        · rw [hrl] at h
          try dsimp only [] at h
          split at h
          · rcases hfr : find_real_partition_dir env ctx part with _ | pr
            · rw [hfr] at h
              exact triv h
            · obtain ⟨real_path, mname⟩ := pr
              rw [hfr] at h
              try dsimp only [] at h
              rcases hsd : node_scan_dir env fuel ctx
                  (.mk part .DIRECTORY none none false false false []) real_path
                  (some mname) with ⟨ctx1, new1, has1, ok1⟩
              rw [hsd] at h
              try dsimp only [] at h
              obtain ⟨d1, d2, d3, d4, d5, d6, d7⟩ :=
                (scan_bound env fuel).1 ctx _ real_path (some mname)
                  ctx1 new1 has1 ok1 hsd
              split at h
              · -- replace the symlink child by the scanned node
                rcases hdt : node_child_detach system.children part with ⟨r0, rest0⟩
                rw [hdt] at h
                try dsimp only [] at h
                injection h with h1 h2
                subst h1; subst h2
                obtain ⟨dc, rest1, hdt2⟩ := find_detach_some hfnd
                rw [hdt2] at hdt
                injection hdt with hr0 hrest
                subst hr0; subst hrest
                obtain ⟨-, hsome⟩ := detach_spec system.children part (some dc) rest1 hdt2
                obtain ⟨s1, s2, s3, s4, s5, s6⟩ := hsome dc rfl
                have hnew : sizeN new1 ≤ 1 + (ctx1.stats.nodes_total
                    - ctx.stats.nodes_total) := by
                  simp only [sizeN, sizeL] at d4
                  omega
                have hszc := sizeN_pos dc
                have hmsz := (setModuleName_fields new1 (some mname)).1
                refine ⟨d1, d2, d3, ?_, (withChildren_fields system _).1, ?_, ?_⟩
                · rw [(withChildren_fields system _).2.2.2.2, sizeL_append,
                    sizeN_eq system]
                  simp only [sizeL]
                  omega
                · intro hc
                  rw [clearN_parts system] at hc
                  simp only [Bool.and_eq_true] at hc
                  rw [clearN_withChildren, clearL_append]
                  simp only [Bool.and_eq_true]
                  have hnew0 : clearN (.mk part .DIRECTORY none none
                      false false false [] : Node) = true := rfl
                  refine ⟨⟨hc.1.1, hc.1.2⟩, (s4 hc.2).1, ?_⟩
                  simp only [clearL, Bool.and_eq_true]
                  refine ⟨?_, trivial⟩
                  rw [(setModuleName_fields new1 (some mname)).2.1]
                  exact d6 hnew0
                · intro hu
                  rw [uniqN_parts system] at hu
                  simp only [Bool.and_eq_true] at hu
                  rw [uniqN_withChildren, uniqL_append, namesOfL_append]
                  simp only [Bool.and_eq_true]
                  have hnew0 : uniqN (.mk part .DIRECTORY none none
                      false false false [] : Node) = true := rfl
                  have hname : (new1.setModuleName (some mname)).name = part := by
                    rw [(setModuleName_fields new1 (some mname)).2.2.2]
                    exact d5
                  refine ⟨?_, (s5 hu.2).1, ?_⟩
                  · have : namesOfL [new1.setModuleName (some mname)] = [part] := by
                      simp [namesOfL, hname]
                    rw [this]
                    exact names_nodup_append_single
                      ((names_nodup_iff _).mpr
                        (((names_nodup_iff _).mp hu.1).sublist s3))
                      (s6 hu.1)
                  · simp only [uniqL, Bool.and_eq_true]
                    refine ⟨?_, trivial⟩
                    rw [(setModuleName_fields new1 (some mname)).2.2.1]
                    exact d7 hnew0
              · injection h with h1 h2
                subst h1; subst h2
                exact ⟨d1, d2, d3, by omega, rfl, fun x => x, fun x => x⟩
          · exact triv h
      · exact triv h

/-- Accounting for the symlink-resolution list walk. -/
theorem resolve_list_bound (env : Env) (fuel : Nat) :
    ∀ (ps : List String) (ctx : MagicMount) (system : Node)
      (ctx' : MagicMount) (system' : Node),
    symlink_resolve_list env fuel ctx system ps = (ctx', system') →
    consumedStats ctx' = consumedStats ctx
    ∧ ctx'.extra_parts = ctx.extra_parts
    ∧ ctx.stats.nodes_total ≤ ctx'.stats.nodes_total
    ∧ sizeN system' + ctx.stats.nodes_total ≤ sizeN system + ctx'.stats.nodes_total
    ∧ system'.name = system.name
    ∧ (clearN system = true → clearN system' = true)
    ∧ (uniqN system = true → uniqN system' = true) := by
  intro ps
  induction ps with
  | nil =>
    intro ctx system ctx' system' h
    unfold symlink_resolve_list at h
    injection h with h1 h2
    subst h1; subst h2
    exact ⟨rfl, rfl, le_refl _, le_refl _, rfl, fun x => x, fun x => x⟩
  | cons p rest ih =>
    intro ctx system ctx' system' h
    unfold symlink_resolve_list at h
    try dsimp only [] at h
    rcases hr : symlink_resolve_partition env fuel ctx system p with ⟨ctx1, system1⟩
    rw [hr] at h
    try dsimp only [] at h
    obtain ⟨d1, d2, d3, d4, d5, d6, d7⟩ := resolve_partition_bound env fuel ctx system p
      ctx1 system1 hr
    obtain ⟨g1, g2, g3, g4, g5, g6, g7⟩ := ih ctx1 system1 ctx' system' h
    exact ⟨g1.trans d1, g2.trans d2, by omega, by omega, g5.trans d5,
      fun hc => g6 (d6 hc), fun hu => g7 (d7 hu)⟩

/-! ## Builder accounting: promotion, extra partitions, module loop -/

/-- Accounting for `partition_promote_to_root`: children only move between
the two trees, so the combined size never grows; names, flag clarity and
uniqueness are tracked through the move. -/
theorem promote_bound (env : Env) (root system : Node) (part : String)
    (need : Bool) (root' system' : Node)
    (h : partition_promote_to_root env root system part need = some (root', system')) :
    sizeN root' + sizeN system' ≤ sizeN root + sizeN system
    ∧ (∀ x ∈ namesOfL root'.children, x ∈ namesOfL root.children ∨ x = part)
    ∧ (∀ x ∈ namesOfL system'.children, x ∈ namesOfL system.children)
    ∧ (clearN root = true → clearN system = true →
        clearN root' = true ∧ clearN system' = true)
    ∧ (uniqN root = true → uniqN system = true →
        uniqN system' = true ∧ (part ∉ namesOfL root.children → uniqN root' = true))
    ∧ system'.name = system.name := by
  have triv : root = root' → system = system' →
      sizeN root' + sizeN system' ≤ sizeN root + sizeN system
      ∧ (∀ x ∈ namesOfL root'.children, x ∈ namesOfL root.children ∨ x = part)
      ∧ (∀ x ∈ namesOfL system'.children, x ∈ namesOfL system.children)
      ∧ (clearN root = true → clearN system = true →
          clearN root' = true ∧ clearN system' = true)
      ∧ (uniqN root = true → uniqN system = true →
          uniqN system' = true ∧ (part ∉ namesOfL root.children → uniqN root' = true))
      ∧ system'.name = system.name := by
    intro h1 h2
    subst h1; subst h2
    exact ⟨le_refl _, fun x hx => Or.inl hx, fun x hx => hx,
      fun a b => ⟨a, b⟩, fun a b => ⟨b, fun _ => a⟩, rfl⟩
  unfold partition_promote_to_root at h
  rcases hj1 : path_join "/" part with je1 | rp
  · rw [hj1] at h
    rcases hj2 : path_join "/system" part with je2 | sp
    all_goals rw [hj2] at h
    all_goals exact absurd h (by simp)
  · rw [hj1] at h
    rcases hj2 : path_join "/system" part with je2 | sp
    · rw [hj2] at h
      exact absurd h (by simp)
    · rw [hj2] at h
      try dsimp only [] at h
      split at h
      · injection h with h12
        injection h12 with h1 h2
        exact triv h1 h2
      · split at h
        · injection h with h12
          injection h12 with h1 h2
          exact triv h1 h2
        · rcases hdt : node_child_detach system.children part with ⟨r0, rest0⟩
          rw [hdt] at h
          try dsimp only [] at h
          rcases r0 with _ | c
          · try dsimp only [] at h
            injection h with h12
            injection h12 with h1 h2
            exact triv h1 h2
          · try dsimp only [] at h
            injection h with h12
            injection h12 with h1 h2
            subst h1; subst h2
            obtain ⟨-, hsome⟩ := detach_spec system.children part (some c) rest0 hdt
            obtain ⟨s1, s2, s3, s4, s5, s6⟩ := hsome c rfl
            refine ⟨?_, ?_, ?_, ?_, ?_, (withChildren_fields system _).1⟩
            · rw [(withChildren_fields root _).2.2.2.2, sizeL_append,
                (withChildren_fields system _).2.2.2.2, sizeN_eq root, sizeN_eq system]
              simp only [sizeL]
              omega
            · intro x hx
              rw [(withChildren_fields root _).2.2.2.1, namesOfL_append] at hx
              rcases List.mem_append.mp hx with h1 | h1
              · exact Or.inl h1
              · right
                simp only [namesOfL, List.mem_cons] at h1
                rcases h1 with h1 | h1
                · rw [h1, s2]
                · simp [namesOfL] at h1
            · intro x hx
              rw [(withChildren_fields system _).2.2.2.1] at hx
              exact s3.mem hx
            · intro hcr hcs
              rw [clearN_parts root] at hcr
              rw [clearN_parts system] at hcs
              simp only [Bool.and_eq_true] at hcr hcs
              obtain ⟨c1, c2⟩ := s4 hcs.2
              constructor
              · rw [clearN_withChildren, clearL_append]
                simp only [Bool.and_eq_true]
                refine ⟨⟨hcr.1.1, hcr.1.2⟩, hcr.2, ?_⟩
                simp only [clearL, Bool.and_eq_true]
                exact ⟨c2, trivial⟩
              · rw [clearN_withChildren]
                simp only [Bool.and_eq_true]
                exact ⟨⟨hcs.1.1, hcs.1.2⟩, c1⟩
            · intro hur hus
              rw [uniqN_parts root] at hur
              rw [uniqN_parts system] at hus
              simp only [Bool.and_eq_true] at hur hus
              obtain ⟨u1, u2⟩ := s5 hus.2
              constructor
              · rw [uniqN_withChildren]
                simp only [Bool.and_eq_true]
                refine ⟨?_, u1⟩
                exact (names_nodup_iff _).mpr
                  (((names_nodup_iff _).mp hus.1).sublist s3)
              · intro hnm
                rw [uniqN_withChildren, uniqL_append, namesOfL_append]
                simp only [Bool.and_eq_true]
                have hn1 : namesOfL [c] = [part] := by simp [namesOfL, s2]
                rw [hn1]
                refine ⟨names_nodup_append_single hur.1 hnm, hur.2, ?_⟩
                simp only [uniqL, Bool.and_eq_true]
                exact ⟨u2, trivial⟩

/-- Accounting for the builtin-partition promotion loop. -/
theorem promote_loop_bound (env : Env) :
    ∀ (parts : List (String × Bool)) (root system root' system' : Node),
    promote_loop env root system parts = some (root', system') →
    sizeN root' + sizeN system' ≤ sizeN root + sizeN system
    ∧ (∀ x ∈ namesOfL root'.children,
        x ∈ namesOfL root.children ∨ x ∈ parts.map Prod.fst)
    ∧ (∀ x ∈ namesOfL system'.children, x ∈ namesOfL system.children)
    ∧ (clearN root = true → clearN system = true →
        clearN root' = true ∧ clearN system' = true)
    ∧ ((parts.map Prod.fst).Nodup →
        (∀ p ∈ parts.map Prod.fst, p ∉ namesOfL root.children) →
        uniqN root = true → uniqN system = true →
        uniqN root' = true ∧ uniqN system' = true)
    ∧ system'.name = system.name := by
  intro parts
  induction parts with
  | nil =>
    intro root system root' system' h
    unfold promote_loop at h
    injection h with h12
    injection h12 with h1 h2
    subst h1; subst h2
    exact ⟨le_refl _, fun x hx => Or.inl hx, fun x hx => hx,
      fun a b => ⟨a, b⟩, fun _ _ a b => ⟨a, b⟩, rfl⟩
  | cons pn rest ih =>
    intro root system root' system' h
    obtain ⟨part, need⟩ := pn
    unfold promote_loop at h
    rcases hp : partition_promote_to_root env root system part need with _ | pr
    · rw [hp] at h
      exact absurd h (by simp)
    · obtain ⟨root1, system1⟩ := pr
      rw [hp] at h
      try dsimp only [] at h
      obtain ⟨d1, d2, d3, d4, d5, d6⟩ := promote_bound env root system part need
        root1 system1 hp
      obtain ⟨g1, g2, g3, g4, g5, g6⟩ := ih root1 system1 root' system' h
      refine ⟨by omega, ?_, fun x hx => d3 x (g3 x hx), ?_, ?_, g6.trans d6⟩
      · intro x hx
        rcases g2 x hx with h1 | h1
        · rcases d2 x h1 with h2 | h2
          · exact Or.inl h2
          · right
            simp [h2]
        · right
          simp only [List.map_cons, List.mem_cons]
          exact Or.inr h1
      · intro hcr hcs
        obtain ⟨e1, e2⟩ := d4 hcr hcs
        exact g4 e1 e2
      · intro hnd hfr hur hus
        simp only [List.map_cons, List.nodup_cons] at hnd
        have hpr : part ∉ namesOfL root.children :=
          hfr part (by simp)
        obtain ⟨e2, e1⟩ := d5 hur hus
        have hu1 : uniqN root1 = true := e1 hpr
        refine g5 hnd.2 ?_ hu1 e2
        intro p hp2 hmem
        rcases d2 p hmem with h1 | h1
        · exact hfr p (by simp [hp2]) h1
        · rw [h1] at hp2
          exact hnd.1 hp2

/-- Accounting for the extra-partition loop: each configured name can
attach one node that `nodes_total` never counted, so the budget slack
grows by at most the number of names. -/
theorem extras_loop_bound (env : Env) (fuel : Nat) :
    ∀ (names : List String) (ctx : MagicMount) (root : Node)
      (ctx' : MagicMount) (root' : Node),
    extras_loop env fuel ctx root names = (ctx', some root') →
    consumedStats ctx' = consumedStats ctx
    ∧ ctx'.extra_parts = ctx.extra_parts
    ∧ ctx.stats.nodes_total ≤ ctx'.stats.nodes_total
    ∧ sizeN root' + ctx.stats.nodes_total
        ≤ sizeN root + ctx'.stats.nodes_total + names.length
    ∧ (∀ x ∈ namesOfL root'.children, x ∈ namesOfL root.children ∨ x ∈ names)
    ∧ (clearN root = true → clearN root' = true)
    ∧ (names.Nodup → (∀ p ∈ names, p ∉ namesOfL root.children) →
        uniqN root = true → uniqN root' = true) := by
  intro names
  induction names with
  | nil =>
    intro ctx root ctx' root' h
    unfold extras_loop at h
    injection h with h1 h2
    injection h2 with h2
    subst h1; subst h2
    exact ⟨rfl, rfl, le_refl _, by omega, fun x hx => Or.inl hx,
      fun x => x, fun _ _ x => x⟩
  | cons name rest ih =>
    intro ctx root ctx' root' h
    unfold extras_loop at h
    have hsub : extras_loop env fuel ctx root rest = (ctx', some root') →
        consumedStats ctx' = consumedStats ctx
        ∧ ctx'.extra_parts = ctx.extra_parts
        ∧ ctx.stats.nodes_total ≤ ctx'.stats.nodes_total
        ∧ sizeN root' + ctx.stats.nodes_total
            ≤ sizeN root + ctx'.stats.nodes_total + (name :: rest).length
        ∧ (∀ x ∈ namesOfL root'.children,
            x ∈ namesOfL root.children ∨ x ∈ name :: rest)
        ∧ (clearN root = true → clearN root' = true)
        ∧ ((name :: rest).Nodup →
            (∀ p ∈ name :: rest, p ∉ namesOfL root.children) →
            uniqN root = true → uniqN root' = true) := by
      intro hh
      obtain ⟨g1, g2, g3, g4, g5, g6, g7⟩ := ih ctx root ctx' root' hh
      refine ⟨g1, g2, g3, by simp only [List.length_cons]; omega, ?_, g6, ?_⟩
      · intro x hx
        rcases g5 x hx with h1 | h1
        · exact Or.inl h1
        · exact Or.inr (List.mem_cons_of_mem _ h1)
      · intro hnd hfr hu
        exact g7 (List.nodup_cons.mp hnd).2
          (fun p hp => hfr p (List.mem_cons_of_mem _ hp)) hu
    rcases hj : path_join "/" name with je | rp
    · rw [hj] at h
      exact hsub h
    · rw [hj] at h
      try dsimp only [] at h
      split at h
      · exact hsub h
      · rcases hps : partition_scan_from_modules env fuel ctx name
            (.mk name .DIRECTORY none none false false false []) with ⟨ctx1, child1, ret⟩
        rw [hps] at h
        try dsimp only [] at h
        obtain ⟨p1, p2, p3, p4, p5, p6, p7⟩ := partition_scan_bound env fuel ctx name
          _ ctx1 child1 ret hps
        rcases ret with _ | _ | _
        · -- hasContent: attach the scanned child
          try dsimp only [] at h
          obtain ⟨g1, g2, g3, g4, g5, g6, g7⟩ :=
            ih ctx1 (root.withChildren (root.children ++ [child1])) ctx' root' h
          have hsz1 : sizeN (root.withChildren (root.children ++ [child1]))
              = sizeN root + sizeN child1 := by
            rw [(withChildren_fields root _).2.2.2.2, sizeL_append, sizeN_eq root]
            simp only [sizeL]
            omega
          have hchn : child1.name = name := p5
          have hnames1 : namesOfL (root.children ++ [child1])
              = namesOfL root.children ++ [name] := by
            rw [namesOfL_append]
            simp [namesOfL, hchn]
          refine ⟨g1.trans p1, g2.trans p2, by omega, ?_, ?_, ?_, ?_⟩
          · simp only [sizeN, sizeL, List.length_cons] at p4 ⊢
            rw [hsz1] at g4
            simp only [sizeN, sizeL] at hsz1 g4
            omega
          · intro x hx
            rcases g5 x hx with h1 | h1
            · rw [(withChildren_fields root _).2.2.2.1, hnames1] at h1
              rcases List.mem_append.mp h1 with h2 | h2
              · exact Or.inl h2
              · right
                simp only [List.mem_singleton] at h2
                simp [h2]
            · exact Or.inr (List.mem_cons_of_mem _ h1)
          · intro hc
            refine g6 ?_
            rw [clearN_parts root] at hc
            simp only [Bool.and_eq_true] at hc
            rw [clearN_withChildren, clearL_append]
            simp only [Bool.and_eq_true]
            refine ⟨⟨hc.1.1, hc.1.2⟩, hc.2, ?_⟩
            simp only [clearL, Bool.and_eq_true]
            exact ⟨p6 rfl, trivial⟩
          · intro hnd hfr hu
            obtain ⟨hn1, hn2⟩ := List.nodup_cons.mp hnd
            refine g7 hn2 ?_ ?_
            · intro p hp hmem
              rw [(withChildren_fields root _).2.2.2.1, hnames1] at hmem
              rcases List.mem_append.mp hmem with h2 | h2
              · exact hfr p (List.mem_cons_of_mem _ hp) h2
              · simp only [List.mem_singleton] at h2
                rw [h2] at hp
                exact hn1 hp
            · rw [uniqN_parts root] at hu
              simp only [Bool.and_eq_true] at hu
              rw [uniqN_withChildren, hnames1, uniqL_append]
              simp only [Bool.and_eq_true]
              refine ⟨names_nodup_append_single hu.1
                (hfr name (by simp)), hu.2, ?_⟩
              simp only [uniqL, Bool.and_eq_true]
              exact ⟨p7 rfl, trivial⟩
        · -- noContent: drop the scanned child
          try dsimp only [] at h
          obtain ⟨g1, g2, g3, g4, g5, g6, g7⟩ := ih ctx1 root ctx' root' h
          refine ⟨g1.trans p1, g2.trans p2, by omega, ?_, ?_, g6, ?_⟩
          · simp only [List.length_cons]
            omega
          · intro x hx
            rcases g5 x hx with h1 | h1
            · exact Or.inl h1
            · exact Or.inr (List.mem_cons_of_mem _ h1)
          · intro hnd hfr hu
            exact g7 (List.nodup_cons.mp hnd).2
              (fun p hp => hfr p (List.mem_cons_of_mem _ hp)) hu
        · -- scanErr: the whole build is aborted
          try dsimp only [] at h
          injection h with h1 h2
          exact absurd h2 (by simp)

/-- Accounting for the module-enumeration loop of `build_mount_tree`. -/
theorem build_modules_go_bound (env : Env) (fuel : Nat) (mdir : String) :
    ∀ (entries : List String) (ctx : MagicMount) (system : Node) (ha : Bool)
      (ctx' : MagicMount) (system' : Node) (ha' ok : Bool),
    build_modules_go env fuel mdir ctx system entries ha = (ctx', system', ha', ok) →
    consumedStats ctx' = consumedStats ctx
    ∧ ctx'.extra_parts = ctx.extra_parts
    ∧ ctx.stats.nodes_total ≤ ctx'.stats.nodes_total
    ∧ sizeN system' + ctx.stats.nodes_total ≤ sizeN system + ctx'.stats.nodes_total
    ∧ system'.name = system.name
    ∧ (clearN system = true → clearN system' = true)
    ∧ (uniqN system = true → uniqN system' = true) := by
  intro entries
  induction entries with
  | nil =>
    intro ctx system ha ctx' system' ha' ok h
    unfold build_modules_go at h
    injection h with h1 h2
    injection h2 with h2 h3
    subst h1; subst h2
    exact ⟨rfl, rfl, le_refl _, le_refl _, rfl, fun x => x, fun x => x⟩
  | cons e rest ih =>
    intro ctx system ha ctx' system' ha' ok h
    unfold build_modules_go at h
    split at h
    · exact ih ctx system ha ctx' system' ha' ok h
    · rcases hj : path_join mdir e with je | mod
      · rw [hj] at h
        try dsimp only [] at h
        injection h with h1 h2
        injection h2 with h2 h3
        subst h1; subst h2
        exact ⟨rfl, rfl, le_refl _, le_refl _, rfl, fun x => x, fun x => x⟩
      · rw [hj] at h
        try dsimp only [] at h
        split at h
        · exact ih ctx system ha ctx' system' ha' ok h
        · split at h
          · exact ih ctx system ha ctx' system' ha' ok h
          · split at h
            · injection h with h1 h2
              injection h2 with h2 h3
              subst h1; subst h2
              exact ⟨rfl, rfl, le_refl _, le_refl _, rfl, fun x => x, fun x => x⟩
            · rename_i mod_sys heq2
              split at h
              · exact ih ctx system ha ctx' system' ha' ok h
              · rcases hsd : node_scan_dir env fuel
                    { ctx with stats :=
                      { ctx.stats with modules_total := ctx.stats.modules_total + 1 } }
                    system mod_sys (some e) with ⟨ctx2, system2, sub2, ok2⟩
                rw [hsd] at h
                try dsimp only [] at h
                obtain ⟨d1, d2, d3, d4, d5, d6, d7⟩ :=
                  (scan_bound env fuel).1 _ system mod_sys (some e)
                    ctx2 system2 sub2 ok2 hsd
                have hb1 : consumedStats { ctx with stats :=
                    { ctx.stats with modules_total := ctx.stats.modules_total + 1 } }
                    = consumedStats ctx := by simp [consumedStats]
                have hb2 : ({ ctx with stats :=
                    { ctx.stats with modules_total := ctx.stats.modules_total + 1 }
                    } : MagicMount).stats.nodes_total = ctx.stats.nodes_total := rfl
                have hb3 : ({ ctx with stats :=
                    { ctx.stats with modules_total := ctx.stats.modules_total + 1 }
                    } : MagicMount).extra_parts = ctx.extra_parts := rfl
                split at h
                · obtain ⟨g1, g2, g3, g4, g5, g6, g7⟩ :=
                    ih ctx2 system2 (ha || sub2) ctx' system' ha' ok h
                  refine ⟨g1.trans (d1.trans hb1), g2.trans (d2.trans hb3),
                    by omega, by omega, g5.trans d5,
                    fun hc => g6 (d6 hc), fun hu => g7 (d7 hu)⟩
                · injection h with h1 h2
                  injection h2 with h2 h3
                  subst h1; subst h2
                  exact ⟨d1.trans hb1, d2.trans hb3, by omega, by omega, d5, d6, d7⟩

/-! ## Builder accounting: the assembled build -/

/-- Combined accounting and well-formedness of a successful build: the
applier counters are untouched, the tree holds at most
`nodes_total - initial + |extraPartitions|` nodes, all flags are clear,
and — for a duplicate-free, non-reserved extra-partition list — every
node's children carry pairwise-distinct names. -/
theorem build_mount_tree_props (env : Env) (fuel : Nat) (ctx ctx' : MagicMount)
    (root : Node) (h : build_mount_tree env fuel ctx = (ctx', some root)) :
    consumedStats ctx' = consumedStats ctx
    ∧ ctx'.extra_parts = ctx.extra_parts
    ∧ sizeN root + ctx.stats.nodes_total
        ≤ ctx'.stats.nodes_total + ctx.extra_parts.length
    ∧ clearN root = true
    ∧ (ctx.extra_parts.Nodup →
        (∀ x ∈ ctx.extra_parts,
          x ∉ ["vendor", "system_ext", "product", "odm", "system"]) →
        uniqN root = true) := by
  unfold build_mount_tree at h
  rcases hl : env.listDir ctx.module_dir with _ | entries
  · rw [hl] at h
    try dsimp only [] at h
    injection h with h1 h2
    exact absurd h2 (by simp)
  · rw [hl] at h
    try dsimp only [] at h
    rcases hbm : build_modules_go env fuel ctx.module_dir ctx
        (.mk "system" .DIRECTORY none none false false false []) entries false
      with ⟨ctx1, system1, hasany, okb⟩
    rw [hbm] at h
    try dsimp only [] at h
    obtain ⟨b1, b2, b3, b4, b5, b6, b7⟩ := build_modules_go_bound env fuel
      ctx.module_dir entries ctx _ false ctx1 system1 hasany okb hbm
    split at h
    · injection h with h1 h2
      exact absurd h2 (by simp)
    · split at h
      · injection h with h1 h2
        exact absurd h2 (by simp)
      · rcases hrs : symlink_resolve_all_partition_links env fuel
            { ctx1 with stats :=
              { ctx1.stats with nodes_total := ctx1.stats.nodes_total + 2 } } system1
          with ⟨ctx3, system2⟩
        rw [hrs] at h
        try dsimp only [] at h
        unfold symlink_resolve_all_partition_links at hrs
        obtain ⟨r1, r2, r3, r4, r5, r6, r7⟩ := resolve_list_bound env fuel _
          _ system1 ctx3 system2 hrs
        rcases hpl : promote_loop env (.mk "" .DIRECTORY none none false false false [])
            system2 [("vendor", true), ("system_ext", true), ("product", true),
              ("odm", false)] with _ | pr
        · rw [hpl] at h
          try dsimp only [] at h
          injection h with h1 h2
          exact absurd h2 (by simp)
        · obtain ⟨root1, system3⟩ := pr
          rw [hpl] at h
          try dsimp only [] at h
          obtain ⟨p1, p2, p3, p4, p5, p6⟩ := promote_loop_bound env _
            _ system2 root1 system3 hpl
          rcases hel : extras_loop env fuel ctx3 root1 ctx3.extra_parts
            with ⟨ctx4, ro⟩
          rw [hel] at h
          try dsimp only [] at h
          rcases ro with _ | root2
          · try dsimp only [] at h
            injection h with h1 h2
            exact absurd h2 (by simp)
          · try dsimp only [] at h
            injection h with h1 h2
            injection h2 with h2
            subst h1; subst h2
            obtain ⟨e1, e2, e3, e4, e5, e6, e7⟩ := extras_loop_bound env fuel
              ctx3.extra_parts ctx3 root1 ctx4 root2 hel
            -- context bookkeeping facts
            have hc2a : consumedStats { ctx1 with stats :=
                { ctx1.stats with nodes_total := ctx1.stats.nodes_total + 2 } }
                = consumedStats ctx1 := by simp [consumedStats]
            have hc2b : ({ ctx1 with stats :=
                { ctx1.stats with nodes_total := ctx1.stats.nodes_total + 2 }
                } : MagicMount).stats.nodes_total = ctx1.stats.nodes_total + 2 := rfl
            have hc2c : ({ ctx1 with stats :=
                { ctx1.stats with nodes_total := ctx1.stats.nodes_total + 2 }
                } : MagicMount).extra_parts = ctx1.extra_parts := rfl
            have hx3 : ctx3.extra_parts = ctx.extra_parts := by
              rw [r2, hc2c, b2]
            -- literal node facts
            have hs0sz : sizeN (.mk "system" .DIRECTORY none none
                false false false [] : Node) = 1 := rfl
            have hr0sz : sizeN (.mk "" .DIRECTORY none none
                false false false [] : Node) = 1 := rfl
            have hszroot : sizeN (root2.withChildren (root2.children ++ [system3]))
                = sizeN root2 + sizeN system3 := by
              rw [(withChildren_fields root2 _).2.2.2.2, sizeL_append, sizeN_eq root2]
              simp only [sizeL]
              omega
            refine ⟨?_, ?_, ?_, ?_, ?_⟩
            · rw [e1, r1, hc2a, b1]
            · rw [e2, hx3]
            · rw [hszroot]
              rw [hc2b] at r4
              rw [hx3] at e4
              omega
            · -- all flags clear
              have hcs1 : clearN system1 = true := b6 rfl
              obtain ⟨hcr1, hcs3⟩ := p4 rfl (r6 hcs1)
              have hcr2 : clearN root2 = true := e6 hcr1
              rw [clearN_parts root2] at hcr2
              simp only [Bool.and_eq_true] at hcr2
              rw [clearN_withChildren, clearL_append]
              simp only [Bool.and_eq_true]
              refine ⟨⟨hcr2.1.1, hcr2.1.2⟩, hcr2.2, ?_⟩
              simp only [clearL, Bool.and_eq_true]
              exact ⟨hcs3, trivial⟩
            · -- children names unique throughout
              intro hnd hnr
              have hus2 : uniqN system2 = true := r7 (b7 rfl)
              have hpnodup : ((([("vendor", true), ("system_ext", true),
                  ("product", true), ("odm", false)] :
                    List (String × Bool)).map Prod.fst)).Nodup := by decide
              have hpfree : ∀ p ∈ (([("vendor", true), ("system_ext", true),
                  ("product", true), ("odm", false)] :
                    List (String × Bool)).map Prod.fst),
                  p ∉ namesOfL (Node.mk "" .DIRECTORY none none
                    false false false []).children := by
                intro p _ hmem
                simp [Node.children, namesOfL] at hmem
              obtain ⟨hur1, hus3⟩ := p5 hpnodup hpfree rfl hus2
              have hu2 : uniqN root2 = true := by
                refine e7 (hx3 ▸ hnd) ?_ hur1
                intro p hp hmem
                rcases p2 p hmem with h1 | h1
                · simp [Node.children, namesOfL] at h1
                · rw [hx3] at hp
                  have hres := hnr p hp
                  simp only [List.map_cons, List.map_nil, List.mem_cons,
                    List.not_mem_nil, or_false] at h1
                  apply hres
                  rcases h1 with h2 | h2 | h2 | h2 <;> simp [h2]
              have hs3n : system3.name = "system" := by
                rw [p6, r5, b5]
                rfl
              rw [uniqN_parts root2] at hu2
              simp only [Bool.and_eq_true] at hu2
              rw [uniqN_withChildren, namesOfL_append, uniqL_append]
              simp only [Bool.and_eq_true]
              have hn1 : namesOfL [system3] = ["system"] := by
                simp [namesOfL, hs3n]
              rw [hn1]
              refine ⟨names_nodup_append_single hu2.1 ?_, hu2.2, ?_⟩
              · -- "system" is not among the root children so far
                intro hmem
                rcases e5 "system" hmem with h1 | h1
                · rcases p2 "system" h1 with h2 | h2
                  · simp [Node.children, namesOfL] at h2
                  · simp at h2
                · rw [hx3] at h1
                  exact hnr "system" h1 (by simp)
              · simp only [uniqL, Bool.and_eq_true]
                exact ⟨hus3, trivial⟩

/-- Context accounting of the extra-partition loop on every path,
including the aborting one. -/
theorem extras_loop_ctx (env : Env) (fuel : Nat) :
    ∀ (names : List String) (ctx : MagicMount) (root : Node)
      (ctx' : MagicMount) (ro : Option Node),
    extras_loop env fuel ctx root names = (ctx', ro) →
    consumedStats ctx' = consumedStats ctx
    ∧ ctx.stats.nodes_total ≤ ctx'.stats.nodes_total := by
  intro names
  induction names with
  | nil =>
    intro ctx root ctx' ro h
    unfold extras_loop at h
    injection h with h1 h2
    subst h1
    exact ⟨rfl, le_refl _⟩
  | cons name rest ih =>
    intro ctx root ctx' ro h
    unfold extras_loop at h
    rcases hj : path_join "/" name with je | rp
    · rw [hj] at h
      exact ih ctx root ctx' ro h
    · rw [hj] at h
      try dsimp only [] at h
      split at h
      · exact ih ctx root ctx' ro h
      · rcases hps : partition_scan_from_modules env fuel ctx name
            (.mk name .DIRECTORY none none false false false []) with ⟨ctx1, child1, ret⟩
        rw [hps] at h
        try dsimp only [] at h
        obtain ⟨p1, p2, p3, p4, p5, p6, p7⟩ := partition_scan_bound env fuel ctx name
          _ ctx1 child1 ret hps
        rcases ret with _ | _ | _
        · try dsimp only [] at h
          obtain ⟨g1, g2⟩ := ih ctx1 _ ctx' ro h
          exact ⟨g1.trans p1, by omega⟩
        · try dsimp only [] at h
          obtain ⟨g1, g2⟩ := ih ctx1 root ctx' ro h
          exact ⟨g1.trans p1, by omega⟩
        · try dsimp only [] at h
          injection h with h1 h2
          subst h1
          exact ⟨p1, p3⟩

/-- Context accounting of `build_mount_tree` on every path, successful or
not: the applier counters are untouched and `nodes_total` never shrinks. -/
theorem build_mount_tree_ctx_props (env : Env) (fuel : Nat) (ctx ctx' : MagicMount)
    (ro : Option Node) (h : build_mount_tree env fuel ctx = (ctx', ro)) :
    consumedStats ctx' = consumedStats ctx
    ∧ ctx.stats.nodes_total ≤ ctx'.stats.nodes_total := by
  unfold build_mount_tree at h
  rcases hl : env.listDir ctx.module_dir with _ | entries
  · rw [hl] at h
    try dsimp only [] at h
    injection h with h1 h2
    subst h1
    exact ⟨rfl, le_refl _⟩
  · rw [hl] at h
    try dsimp only [] at h
    rcases hbm : build_modules_go env fuel ctx.module_dir ctx
        (.mk "system" .DIRECTORY none none false false false []) entries false
      with ⟨ctx1, system1, hasany, okb⟩
    rw [hbm] at h
    try dsimp only [] at h
    obtain ⟨b1, b2, b3, b4, b5, b6, b7⟩ := build_modules_go_bound env fuel
      ctx.module_dir entries ctx _ false ctx1 system1 hasany okb hbm
    split at h
    · injection h with h1 h2
      subst h1
      exact ⟨b1, b3⟩
    · split at h
      · injection h with h1 h2
        subst h1
        exact ⟨b1, b3⟩
      · rcases hrs : symlink_resolve_all_partition_links env fuel
            { ctx1 with stats :=
              { ctx1.stats with nodes_total := ctx1.stats.nodes_total + 2 } } system1
          with ⟨ctx3, system2⟩
        rw [hrs] at h
        try dsimp only [] at h
        unfold symlink_resolve_all_partition_links at hrs
        obtain ⟨r1, r2, r3, r4, r5, r6, r7⟩ := resolve_list_bound env fuel _
          _ system1 ctx3 system2 hrs
        have hc2a : consumedStats { ctx1 with stats :=
            { ctx1.stats with nodes_total := ctx1.stats.nodes_total + 2 } }
            = consumedStats ctx1 := by simp [consumedStats]
        have hc2b : ({ ctx1 with stats :=
            { ctx1.stats with nodes_total := ctx1.stats.nodes_total + 2 }
            } : MagicMount).stats.nodes_total = ctx1.stats.nodes_total + 2 := rfl
        rcases hpl : promote_loop env (.mk "" .DIRECTORY none none false false false [])
            system2 [("vendor", true), ("system_ext", true), ("product", true),
              ("odm", false)] with _ | pr
        · rw [hpl] at h
          try dsimp only [] at h
          injection h with h1 h2
          subst h1
          refine ⟨r1.trans (hc2a.trans b1), ?_⟩
          rw [hc2b] at r3
          omega
        · obtain ⟨root1, system3⟩ := pr
          rw [hpl] at h
          try dsimp only [] at h
          rcases hel : extras_loop env fuel ctx3 root1 ctx3.extra_parts
            with ⟨ctx4, ro2⟩
          rw [hel] at h
          try dsimp only [] at h
          obtain ⟨e1, e2⟩ := extras_loop_ctx env fuel
            ctx3.extra_parts ctx3 root1 ctx4 ro2 hel
          rcases ro2 with _ | root2
          · try dsimp only [] at h
            injection h with h1 h2
            subst h1
            refine ⟨e1.trans (r1.trans (hc2a.trans b1)), ?_⟩
            rw [hc2b] at r3
            omega
          · try dsimp only [] at h
            injection h with h1 h2
            subst h1
            refine ⟨e1.trans (r1.trans (hc2a.trans b1)), ?_⟩
            rw [hc2b] at r3
            omega

/-! ## The amended statistics bound and uniqueness guarantee -/

theorem triple_eta {A B C : Type} (x : A × B × C) : x = (x.1, x.2.1, x.2.2) := rfl

/-- C2 (amended): over any environment whose directory listings are
duplicate-free, a `magic_mount` run can exceed the spec's budget only by
the configured extra partitions: the applier-counter total grows by at
most the growth of `nodes_total` plus `extraPartitions.length`, because
each extra-partition root child is allocated by `node_new` without being
counted in `nodes_total`. -/
theorem magic_mount_stats_bound (env : Env) (fuel : Nat) (ctx : MagicMount)
    (tmp_root : String) (ctx' : MagicMount) (evs : List Ev) (res : Except Err Int)
    (hnodup : ∀ p l, env.listDir p = some l → l.Nodup)
    (h : magic_mount env fuel ctx tmp_root = (ctx', evs, res)) :
    ctx'.stats.nodes_mounted + ctx'.stats.nodes_whiteout
      + ctx'.stats.nodes_skipped + ctx'.stats.nodes_fail + ctx.stats.nodes_total
    ≤ ctx.stats.nodes_mounted + ctx.stats.nodes_whiteout
      + ctx.stats.nodes_skipped + ctx.stats.nodes_fail + ctx'.stats.nodes_total
      + ctx.extra_parts.length := by
  unfold magic_mount at h
  rcases hb : build_mount_tree env fuel ctx with ⟨ctx1, ro⟩
  rw [hb] at h
  obtain ⟨k1, k2⟩ := build_mount_tree_ctx_props env fuel ctx ctx1 ro hb
  simp only [consumedStats] at k1
  rcases ro with _ | root
  · try dsimp only [] at h
    injection h with h1 h2
    subst h1
    omega
  · try dsimp only [] at h
    obtain ⟨q1, q2, q3, q4, q5⟩ := build_mount_tree_props env fuel ctx ctx1 root hb
    have hclear : clearL root.children = true := by
      rw [clearN_parts root] at q4
      simp only [Bool.and_eq_true] at q4
      exact q4.2
    rcases htd : path_join tmp_root "workdir" with je | td
    · rw [htd] at h
      try dsimp only [] at h
      injection h with h1 h2
      subst h1
      omega
    · rw [htd] at h
      try dsimp only [] at h
      split at h
      · injection h with h1 h2
        subst h1
        omega
      · split at h
        · injection h with h1 h2
          subst h1
          omega
        · rcases hA : mm_apply_node_recursive env fuel ctx1 "/" td root false
            with ⟨ctxA, nodeA, evsA, errA⟩
          rw [hA] at h
          try dsimp only [] at h
          obtain ⟨a1, a2, a3, a4, a5, a6⟩ :=
            (apply_consumed_bound env hnodup fuel).1 ctx1 "/" td root false
              ctxA nodeA evsA errA hclear hA
          simp only [consumedStats] at a2
          rcases errA with _ | er
          · try dsimp only [] at h
            injection h with h1 h2
            subst h1
            rw [show (if (none : Option Err) = none then 0 else 1) = 0 from rfl] at a2
            omega
          · try dsimp only [] at h
            injection h with h1 h2
            subst h1
            rw [show (if (some er : Option Err) = none then 0 else 1) = 1 from rfl] at a2
            simp only []
            omega

/-- C2 witness: the general bound instantiated at the extra-partition
scenario, where it is tight (counters sum to 5, `nodes_total` is 4 and one
extra partition is configured). -/
theorem magic_mount_stats_bound_witness :
    (magic_mount (envOfFs fs_extra) 20 ctx_extra "/mnt/t").1.stats.nodes_mounted
      + (magic_mount (envOfFs fs_extra) 20 ctx_extra "/mnt/t").1.stats.nodes_whiteout
      + (magic_mount (envOfFs fs_extra) 20 ctx_extra "/mnt/t").1.stats.nodes_skipped
      + (magic_mount (envOfFs fs_extra) 20 ctx_extra "/mnt/t").1.stats.nodes_fail
      + ctx_extra.stats.nodes_total
    ≤ ctx_extra.stats.nodes_mounted + ctx_extra.stats.nodes_whiteout
      + ctx_extra.stats.nodes_skipped + ctx_extra.stats.nodes_fail
      + (magic_mount (envOfFs fs_extra) 20 ctx_extra "/mnt/t").1.stats.nodes_total
      + ctx_extra.extra_parts.length :=
  magic_mount_stats_bound (envOfFs fs_extra) 20 ctx_extra "/mnt/t"
    (magic_mount (envOfFs fs_extra) 20 ctx_extra "/mnt/t").1
    (magic_mount (envOfFs fs_extra) 20 ctx_extra "/mnt/t").2.1
    (magic_mount (envOfFs fs_extra) 20 ctx_extra "/mnt/t").2.2
    (envOfFs_listdir_nodup fs_extra (by decide))
    (triple_eta _)

/-- C3 (amended): a successful build yields a tree whose every node,
including the root, has pairwise-distinct children names, provided the
configured extra-partition list is itself duplicate-free and avoids the
builtin partition names and `system` (which registration's blacklist does
not reject). -/
theorem build_mount_tree_children_unique (env : Env) (fuel : Nat)
    (ctx ctx' : MagicMount) (root : Node)
    (h : build_mount_tree env fuel ctx = (ctx', some root))
    (hnd : ctx.extra_parts.Nodup)
    (hres : ∀ x ∈ ctx.extra_parts,
      x ∉ ["vendor", "system_ext", "product", "odm", "system"]) :
    uniqN root = true :=
  (build_mount_tree_props env fuel ctx ctx' root h).2.2.2.2 hnd hres

/-- C3 witness: the uniqueness guarantee instantiated at the
single-extra-partition scenario. -/
theorem build_mount_tree_children_unique_witness :
    ctx_extra.extra_parts.Nodup
    ∧ (∀ x ∈ ctx_extra.extra_parts,
        x ∉ ["vendor", "system_ext", "product", "odm", "system"])
    ∧ uniqN tree_extra = true :=
  ⟨by decide, by decide,
   build_mount_tree_children_unique (envOfFs fs_extra) 20 ctx_extra
     ctx_extra_built tree_extra build_extra_eval (by decide) (by decide)⟩
